import Mathlib

/-!
# Verification of the code-block language detection and reformatting engine

Shallow embedding of `src/converter_agent.py` (functions `detect_code_language`,
`process_code_block`, and the fenced-block substitution of `post_process_markdown`),
together with a model of the Python `json` codec fragment the code relies on
(`json.loads` / `json.dumps(·, indent=2)`).

Texts are modelled as `List Char`.  Python `str.splitlines` is modelled on the
line boundaries `"\n"`, `"\r\n"` and `"\r"` (the exotic unicode line boundaries
are outside the model).  Python's `\w` regex class is modelled as ASCII
letters, digits and underscore; `\s` as the ASCII whitespace characters.
-/

set_option maxRecDepth 10000

namespace Conv

abbrev Str := List Char

/-- Python `str` whitespace (the ASCII part): the characters stripped by
`str.strip()` and matched by the regex class `\s`. -/
def isSpaceChar (c : Char) : Bool :=
  c = ' ' || c = '\t' || c = '\n' || c = '\r' || c = '\x0b' || c = '\x0c'

/-- The regex class `\w`, modelled on ASCII: letters, digits, underscore. -/
def isWordChar (c : Char) : Bool :=
  (('a' ≤ c && c ≤ 'z') || ('A' ≤ c && c ≤ 'Z') || ('0' ≤ c && c ≤ '9') || c = '_')

/-- ASCII lower-casing of one character (model of `str.lower()` per char). -/
def lowerChar (c : Char) : Char :=
  if 'A' ≤ c && c ≤ 'Z' then Char.ofNat (c.toNat + 32) else c

/-- Model of Python `str.lower()` (ASCII fragment). -/
def lowerStr (s : Str) : Str := s.map lowerChar

/-- Model of Python `str.lstrip()`. -/
def pyLstrip (s : Str) : Str := s.dropWhile isSpaceChar

/-- Model of Python `str.rstrip()`. -/
def pyRstrip (s : Str) : Str := (s.reverse.dropWhile isSpaceChar).reverse

/-- Model of Python `str.strip()`. -/
def pyStrip (s : Str) : Str := pyRstrip (pyLstrip s)

/-- A line is blank when `line.strip()` is falsy, i.e. every char is whitespace. -/
def isBlank (s : Str) : Bool := s.all isSpaceChar

/-- `len(line) - len(line.lstrip())`: the width of the leading whitespace run. -/
def indentOf (s : Str) : Nat := (s.takeWhile isSpaceChar).length

/-- Does `pat` occur at the start of `s`?  (Model of a literal regex atom /
Python `str.startswith`.) -/
def startsWith : Str → Str → Bool
  | [], _ => true
  | _ :: _, [] => false
  | p :: ps, c :: cs => p = c && startsWith ps cs

/-- `p` holds at some position of `s` (every suffix of `s`, the empty one
included) — the search semantics of `re.search`. -/
def anyPos (p : Str → Bool) : Str → Bool
  | [] => p []
  | s@(_ :: rest) => p s || anyPos p rest

/-- Model of the Python substring test `pat in s`. -/
def containsSub (s pat : Str) : Bool := anyPos (startsWith pat) s

/-- Model of Python `str.splitlines` (worker): `acc` is the reversed current
line.  Recognises `\n`, `\r\n` and `\r`; a terminator at the very end of the
input does not open a final empty line. -/
def splitlinesGo (acc : Str) : Str → List Str
  | [] => [acc.reverse]
  | '\r' :: '\n' :: rest =>
      acc.reverse :: (if rest.isEmpty then [] else splitlinesGo [] rest)
  | '\n' :: rest =>
      acc.reverse :: (if rest.isEmpty then [] else splitlinesGo [] rest)
  | '\r' :: rest =>
      acc.reverse :: (if rest.isEmpty then [] else splitlinesGo [] rest)
  | c :: rest => splitlinesGo (c :: acc) rest

/-- Model of Python `str.splitlines`: `"".splitlines() == []`. -/
def splitlines (s : Str) : List Str :=
  if s.isEmpty then [] else splitlinesGo [] s

/-- Model of `"\n".join(lines)`. -/
def joinNL : List Str → Str
  | [] => []
  | [l] => l
  | l :: ls => l ++ '\n' :: joinNL ls

/-- The two `while` loops of `process_code_block` that pop blank lines off the
beginning and the end of the line list. -/
def stripBlankEnds (ls : List Str) : List Str :=
  ((ls.dropWhile isBlank).reverse.dropWhile isBlank).reverse

/-- The number of non-blank lines of a text (the quantity claimed invariant by
the spec's line-count-preservation property). -/
def nonBlankCount (s : Str) : Nat :=
  ((splitlines s).filter (fun l => !isBlank l)).length

end Conv

namespace Conv

/-- Model of `re.sub(r'KW(\w+)', r'KW \1', s)`: scan left to right; where the
literal `kw` is immediately followed by at least one `\w` character, keep `kw`,
insert one space, keep the (greedy) `\w+` run, and resume scanning after the
match; otherwise advance one character.  (No word-boundary anchor: the source
regexes have none, so the rule also fires inside longer identifiers.) -/
def subKeywordF (kw : Str) : Nat → Str → Str
  | _, [] => []
  | 0, s => s
  | fuel + 1, c :: rest =>
    if startsWith kw (c :: rest) then
      match ((c :: rest).drop kw.length).takeWhile isWordChar with
      | [] => c :: subKeywordF kw fuel rest
      | w0 :: ws =>
          kw ++ ' ' :: ((w0 :: ws) ++
            subKeywordF kw fuel (((c :: rest).drop kw.length).drop (w0 :: ws).length))
    else c :: subKeywordF kw fuel rest

/-- `re.sub(r'KW(\w+)', r'KW \1', s)`: each scanning step consumes at least one
character, so `s.length` steps of fuel always suffice. -/
def subKeyword (kw : Str) (s : Str) : Str := subKeywordF kw s.length s

/-- Model of `re.sub` for the operator-spacing patterns of the shape
`([^X...])op([^Y...])`: a three-character window `c1 op c3` with `c1` outside
`excl1` and `c3` outside `excl2` is rewritten `c1 ⬝ ' ' ⬝ op ⬝ ' ' ⬝ c3`, and
scanning resumes after the consumed window. -/
def subOpSpace (excl1 : List Char) (op : Char) (excl2 : List Char) : Str → Str
  | c1 :: c2 :: c3 :: rest =>
    if !excl1.contains c1 && c2 = op && !excl2.contains c3 then
      c1 :: ' ' :: op :: ' ' :: c3 :: subOpSpace excl1 op excl2 rest
    else c1 :: subOpSpace excl1 op excl2 (c2 :: c3 :: rest)
  | s => s

/-- Model of `re.sub(r'(IDENT)\s*\(', r'\1(', s)` (the Crawl4AI call-site
patterns): where the literal `ident` is followed by optional whitespace and an
opening parenthesis, the whitespace is deleted; scanning resumes after the
parenthesis. -/
def subIdentParenF (ident : Str) : Nat → Str → Str
  | _, [] => []
  | 0, s => s
  | fuel + 1, c :: rest =>
    if startsWith ident (c :: rest) then
      match (((c :: rest).drop ident.length).dropWhile isSpaceChar) with
      | '(' :: rest2 => ident ++ '(' :: subIdentParenF ident fuel rest2
      | _ => c :: subIdentParenF ident fuel rest
    else c :: subIdentParenF ident fuel rest

/-- `re.sub(r'(IDENT)\s*\(', r'\1(', s)`: each scanning step consumes at least
one character, so `s.length` steps of fuel always suffice. -/
def subIdentParen (ident : Str) (s : Str) : Str := subIdentParenF ident s.length s

/-- `re.sub(r'\.(\w+)\(', r'.\1(', content)` replaces every match by the very
text it matched (the replacement template equals the pattern's literal parts
plus the captured group), so the substitution is the identity on every input;
it is embedded as such. -/
def subMethodChain (s : Str) : Str := s

end Conv

namespace Conv

/-- Shorthand: the character list of a string literal. -/
def strL (s : String) : Str := s.toList

/-- Case-insensitive `startsWith` (model of a literal under `re.IGNORECASE`). -/
def startsWithCI : Str → Str → Bool
  | [], _ => true
  | _ :: _, [] => false
  | p :: ps, c :: cs => lowerChar p = lowerChar c && startsWithCI ps cs

/-! ## Continuation-passing regex matchers

A matcher of type `(Str → Bool) → Str → Bool` takes the continuation for the
rest of the pattern and the text at the current position; it returns whether
some way of consuming its own piece lets the continuation succeed.  This is
exactly the backtracking-existence semantics of `re.search`'s atoms. -/

/-- Always-succeeding final continuation. -/
def ttM : Str → Bool := fun _ => true

/-- Literal text atom. -/
def litM (pat : Str) (k : Str → Bool) (s : Str) : Bool :=
  if startsWith pat s then k (s.drop pat.length) else false

/-- Literal text atom under `re.IGNORECASE`. -/
def litCIM (pat : Str) (k : Str → Bool) (s : Str) : Bool :=
  if startsWithCI pat s then k (s.drop pat.length) else false

/-- Single-character atom. -/
def chM (c : Char) (k : Str → Bool) : Str → Bool
  | [] => false
  | x :: r => x = c && k r

/-- Character-class atom (`[...]` with an explicit list). -/
def oneOfM (cs : List Char) (k : Str → Bool) : Str → Bool
  | [] => false
  | x :: r => cs.contains x && k r

/-- `\s*`. -/
def wsStarM (k : Str → Bool) : Str → Bool
  | [] => k []
  | c :: r => k (c :: r) || (isSpaceChar c && wsStarM k r)

/-- `\s+`. -/
def wsPlusM (k : Str → Bool) : Str → Bool
  | [] => false
  | c :: r => isSpaceChar c && wsStarM k r

/-- `\w*`. -/
def wordStarM (k : Str → Bool) : Str → Bool
  | [] => k []
  | c :: r => k (c :: r) || (isWordChar c && wordStarM k r)

/-- `\w+`. -/
def wordPlusM (k : Str → Bool) : Str → Bool
  | [] => false
  | c :: r => isWordChar c && wordStarM k r

/-- `.*` (any characters except newline). -/
def dotStarM (k : Str → Bool) : Str → Bool
  | [] => k []
  | c :: r => k (c :: r) || (c ≠ '\n' && dotStarM k r)

/-- `.+`. -/
def dotPlusM (k : Str → Bool) : Str → Bool
  | [] => false
  | c :: r => c ≠ '\n' && dotStarM k r

/-- `(...)?` around a sub-matcher. -/
def optM (m : (Str → Bool) → Str → Bool) (k : Str → Bool) (s : Str) : Bool :=
  m k s || k s

/-- `\b` placed after a word character: the next character must not be a word
character (or the text ends here); consumes nothing. -/
def wbAfterM (k : Str → Bool) : Str → Bool
  | [] => k []
  | c :: r => !isWordChar c && k (c :: r)

/-- `$` without `re.MULTILINE`: end of text, or just before one final newline. -/
def dollarM : Str → Bool
  | [] => true
  | c :: r => c = '\n' && r.isEmpty

/-- `re.search` of a position matcher: does it succeed at some position? -/
def reSearch (m : Str → Bool) (s : Str) : Bool := anyPos m s

end Conv

namespace Conv

/-- `\s*\n` (a run of whitespace whose next character is a literal newline,
as in the YAML pattern where `\s*` may also eat newlines). -/
def wsStarNlM (k : Str → Bool) : Str → Bool
  | [] => false
  | c :: r => (c = '\n' && k r) || (isSpaceChar c && wsStarNlM k r)

/-- `re.search` under `re.MULTILINE` for a `^`-anchored pattern: try the
matcher at the start of the text and after every newline. -/
def reSearchMLGo (m : Str → Bool) : Bool → Str → Bool
  | atStart, [] => atStart && m []
  | atStart, c :: r => (atStart && m (c :: r)) || reSearchMLGo m (c = '\n') r

/-- `re.search` of a `^`-anchored multiline pattern. -/
def reSearchML (m : Str → Bool) (s : Str) : Bool := reSearchMLGo m true s

/-- Line 97: `r'import|def\s+\w+|class\s+\w+|async\s+def|await|with\s+|try:|except:'`
(the "generic scripting" pattern gating the URL-context rule). -/
def scriptPatM : Str → Bool := fun s =>
  litM (strL "import") ttM s ||
  litM (strL "def") (wsPlusM (wordPlusM ttM)) s ||
  litM (strL "class") (wsPlusM (wordPlusM ttM)) s ||
  litM (strL "async") (wsPlusM (litM (strL "def") ttM)) s ||
  litM (strL "await") ttM s ||
  litM (strL "with") (wsPlusM ttM) s ||
  litM (strL "try:") ttM s ||
  litM (strL "except:") ttM s

/-- Line 102: the Python detection pattern (under `re.IGNORECASE`). -/
def pyPatM : Str → Bool := fun s =>
  litCIM (strL "import") (wsPlusM (wordPlusM ttM)) s ||
  litCIM (strL "from") (wsPlusM (wordPlusM (wsPlusM (litCIM (strL "import") ttM)))) s ||
  litCIM (strL "def") (wsPlusM (wordPlusM (wsStarM (chM '(' ttM)))) s ||
  litCIM (strL "class") (wsPlusM (wordPlusM ttM)) s ||
  litCIM (strL "async") (wsPlusM (litCIM (strL "def") ttM)) s ||
  chM '@' (wordPlusM ttM) s ||
  litCIM (strL "await") (wsPlusM ttM) s ||
  litCIM (strL "with") (wsPlusM ttM) s ||
  litCIM (strL "if") (wsPlusM (litCIM (strL "__name__")
    (wsStarM (litM (strL "==") (wsStarM (oneOfM ['\'', '"']
      (litCIM (strL "__main__") (oneOfM ['\'', '"'] ttM)))))))) s

/-- Line 105: the JavaScript/TypeScript detection pattern. -/
def jsPatM : Str → Bool := fun s =>
  litM (strL "function") (wsPlusM (wordPlusM (wsStarM (chM '(' ttM)))) s ||
  wordPlusM (wsStarM (litM (strL "=>") (wsStarM (oneOfM ['\x7b', '('] ttM)))) s ||
  litM (strL "const") (wsPlusM (wordPlusM (wsStarM (chM '=' ttM)))) s ||
  litM (strL "let") (wsPlusM (wordPlusM (wsStarM (chM '=' ttM)))) s ||
  litM (strL "var") (wsPlusM (wordPlusM (wsStarM (chM '=' ttM)))) s ||
  litM (strL "import") (wsPlusM (dotStarM (litM (strL "from")
    (wsPlusM (oneOfM ['\'', '"'] ttM))))) s ||
  litM (strL "export") (wsPlusM ttM) s ||
  litM (strL "class") (wsPlusM (wordPlusM (wsStarM (chM '\x7b'
    (wsStarM (litM (strL "constructor") ttM)))))) s ||
  litM (strL "new") (wsPlusM (wordPlusM (chM '(' ttM))) s

/-- Line 107: the TypeScript refinement pattern. -/
def tsPatM : Str → Bool := fun s =>
  chM ':' (wsStarM (wordPlusM (optM (litM (strL "[]")) ttM))) s ||
  litM (strL "interface") (wsPlusM (wordPlusM ttM)) s ||
  chM '<' (wordPlusM (chM '>' ttM)) s ||
  litM (strL "implements") (wsPlusM ttM) s ||
  litM (strL "namespace") (wsPlusM ttM) s

/-- The tag names of the HTML detection pattern (line 111). -/
def htmlTags : List Str :=
  [strL "!DOCTYPE", strL "html", strL "head", strL "body", strL "div",
   strL "span", strL "p", strL "a", strL "img", strL "ul", strL "ol",
   strL "li", strL "table", strL "form", strL "input"]

/-- Line 111: the HTML detection pattern (under `re.IGNORECASE`), tag
alternation followed by a `\b` word boundary, or a closing tag. -/
def htmlPatM : Str → Bool := fun s =>
  (htmlTags.any fun t => chM '<' (litCIM t (wbAfterM ttM)) s) ||
  litM (strL "</") (wordPlusM (chM '>' ttM)) s

/-- Line 114: the SQL detection pattern (under `re.IGNORECASE`). -/
def sqlPatM : Str → Bool := fun s =>
  litCIM (strL "SELECT") (wsPlusM (dotPlusM (wsPlusM (litCIM (strL "FROM") ttM)))) s ||
  litCIM (strL "INSERT") (wsPlusM (litCIM (strL "INTO") ttM)) s ||
  litCIM (strL "UPDATE") (wsPlusM (dotPlusM (wsPlusM (litCIM (strL "SET") ttM)))) s ||
  litCIM (strL "DELETE") (wsPlusM (litCIM (strL "FROM") ttM)) s ||
  litCIM (strL "CREATE") (wsPlusM (litCIM (strL "TABLE") ttM)) s ||
  litCIM (strL "ALTER") (wsPlusM (litCIM (strL "TABLE") ttM)) s ||
  litCIM (strL "DROP") (wsPlusM (litCIM (strL "TABLE") ttM)) s

/-- Line 117, first conjunct: `re.search(r'^\s*\{\s*"\w+"\s*:\s*', x)` — the
pattern is `^`-anchored without `re.MULTILINE`, so only position 0 counts. -/
def jsonHeadM : Str → Bool :=
  wsStarM (chM '\x7b' (wsStarM (chM '"' (wordPlusM (chM '"'
    (wsStarM (chM ':' (wsStarM ttM))))))))

/-- Line 117, second conjunct: `re.search(r'}\s*$', x)`. -/
def jsonTailM : Str → Bool := chM '\x7d' (wsStarM dollarM)

/-- The JSON detection test of line 117 (both `re.search` conjuncts). -/
def jsonDetectTest (s : Str) : Bool := jsonHeadM s && reSearch jsonTailM s

/-- Line 120: the Java detection pattern. -/
def javaPatM : Str → Bool := fun s =>
  litM (strL "public") (wsPlusM (fun r =>
    litM (strL "class") ttM r || litM (strL "interface") ttM r)) s ||
  litM (strL "private") (wsPlusM (wordPlusM ttM)) s ||
  litM (strL "protected") (wsPlusM (wordPlusM ttM)) s ||
  litM (strL "@Override") ttM s ||
  litM (strL "import") (wsPlusM (litM (strL "java.") ttM)) s ||
  litM (strL "System.out.print") ttM s

/-- Line 123: the C++ detection pattern. -/
def cppPatM : Str → Bool := fun s =>
  litM (strL "#include") (wsPlusM (chM '<' (wordPlusM
    (optM (fun k => chM '.' (wordPlusM k)) (chM '>' ttM))))) s ||
  litM (strL "std::") ttM s ||
  litM (strL "int") (wsPlusM (litM (strL "main") (wsStarM (chM '('
    (wsStarM (fun r => litM (strL "void") ttM r ||
      litM (strL "int") (wsPlusM (litM (strL "argc") ttM)) r)))))) s ||
  litM (strL "void") (wsPlusM (wordPlusM (wsStarM (chM '('
    (wsStarM (wordPlusM ttM)))))) s

/-- Line 126: the Go detection pattern. -/
def goPatM : Str → Bool := fun s =>
  litM (strL "package") (wsPlusM (litM (strL "main") ttM)) s ||
  litM (strL "import") (wsPlusM (chM '(' (wsStarM (chM '"' ttM)))) s ||
  litM (strL "func") (wsPlusM (wordPlusM (wsStarM (chM '(' ttM)))) s ||
  litM (strL "go") (wsPlusM (litM (strL "func") ttM)) s ||
  litM (strL "make(") (wordPlusM (chM ')' ttM)) s

/-- Line 129: the Rust detection pattern. -/
def rustPatM : Str → Bool := fun s =>
  litM (strL "fn") (wsPlusM (wordPlusM ttM)) s ||
  litM (strL "let") (wsPlusM (litM (strL "mut") (wsPlusM ttM))) s ||
  litM (strL "struct") (wsPlusM (wordPlusM ttM)) s ||
  litM (strL "impl") (wsPlusM ttM) s ||
  litM (strL "use") (wsPlusM (wordPlusM (litM (strL "::") ttM))) s ||
  litM (strL "pub") (wsPlusM (litM (strL "fn") ttM)) s

/-- Line 132: the Bash/Shell detection pattern. -/
def bashPatM : Str → Bool := fun s =>
  litM (strL "#!/bin/") (optM (litM (strL "ba")) (litM (strL "sh") ttM)) s ||
  litM (strL "export") (wsPlusM (wordPlusM (chM '=' ttM))) s ||
  litM (strL "$(") (wordPlusM (chM ')' ttM)) s ||
  litM (strL "if") (wsPlusM (chM '[' (wsPlusM ttM))) s ||
  chM '[' (wsPlusM (dotPlusM (wsPlusM (chM ']' ttM)))) s

/-- Line 135: the YAML detection pattern `r'^\s*\w+:\s*\n\s+-\s+'`
(searched under `re.MULTILINE`). -/
def yamlAtM : Str → Bool :=
  wsStarM (wordPlusM (chM ':' (wsStarNlM (wsPlusM (chM '-' (wsPlusM ttM))))))

/-- Lines 100-139: the ordered battery of structural pattern tests. -/
def detectPatterns (code_text : Str) : Str :=
  if reSearch pyPatM code_text then strL "python"
  else if reSearch jsPatM code_text then
    (if reSearch tsPatM code_text then strL "typescript" else strL "javascript")
  else if reSearch htmlPatM code_text then strL "html"
  else if reSearch sqlPatM code_text then strL "sql"
  else if jsonDetectTest code_text then strL "json"
  else if reSearch javaPatM code_text then strL "java"
  else if reSearch cppPatM code_text then strL "cpp"
  else if reSearch goPatM code_text then strL "go"
  else if reSearch rustPatM code_text then strL "rust"
  else if reSearch bashPatM code_text then strL "bash"
  else if reSearchML yamlAtM code_text then strL "yaml"
  else strL "text"

/-- Line 95: `url and any(domain in url for domain in [...])` — a bare
substring test of the three allow-listed domains. -/
def urlAllowHit : Option Str → Bool
  | none => false
  | some u =>
      containsSub u (strL "crawl4ai.com") || containsSub u (strL "pydantic.dev") ||
        containsSub u (strL "github.io/langgraph")

/-- Lines 94-139 of `detect_code_language`: the part after the hint check. -/
def detectNoHint (code_text : Str) (url : Option Str) : Str :=
  if urlAllowHit url && reSearch scriptPatM code_text then strL "python"
  else detectPatterns code_text

/-- Lines 78-139: `detect_code_language(code_text, language_hint, url)`. -/
def detect_code_language (code_text : Str) (language_hint : Option Str)
    (url : Option Str) : Str :=
  match language_hint with
  | some h =>
    if !h.isEmpty && !(pyStrip h).isEmpty && lowerStr (pyStrip h) ≠ strL "text" then
      lowerStr (pyStrip h)
    else detectNoHint code_text url
  | none => detectNoHint code_text url

end Conv

namespace Conv

/-! ## Model of the Python `json` codec fragment used by `process_code_block`

`json.loads` / `json.dumps(·, indent=2)` are modelled on the JSON fragment
with `null`, booleans, integer numbers, strings, arrays and objects.  Model
boundaries (inputs on which the model parser answers `none` while CPython
would go further): float syntax (a number continued by `.`/`e`/`E`), the
non-standard literals `NaN`/`Infinity`, lone surrogate `\u` escapes, and
nesting deeper than the fuel bound (CPython raises `RecursionError` there,
which the caller's bare `except` also turns into the fallback path). -/

/-- A JSON value as produced by the modelled `json.loads`; object members keep
the dict's insertion order. -/
inductive JVal where
  | null
  | bool (b : Bool)
  | num (n : Int)
  | str (s : Str)
  | arr (vs : List JVal)
  | obj (kvs : List (Str × JVal))

/-- The whitespace skipped by Python's JSON decoder: exactly `' '`, `'\t'`,
`'\n'`, `'\r'`. -/
def jsonWsChar (c : Char) : Bool := c = ' ' || c = '\t' || c = '\n' || c = '\r'

/-- Skip JSON whitespace. -/
def skipWs (s : Str) : Str := s.dropWhile jsonWsChar

/-- Decimal digit test. -/
def isDigit (c : Char) : Bool := '0' ≤ c && c ≤ '9'

/-- Decimal digit value. -/
def digitVal (c : Char) : Nat := c.toNat - 48

/-- Value of one hexadecimal digit (either case), if it is one. -/
def hexVal? (c : Char) : Option Nat :=
  if isDigit c then some (digitVal c)
  else if 'a' ≤ c && c ≤ 'f' then some (c.toNat - 87)
  else if 'A' ≤ c && c ≤ 'F' then some (c.toNat - 55)
  else none

/-- Prepend a decoded character to a string-parse result. -/
def pcons (c : Char) : Option (Str × Str) → Option (Str × Str)
  | none => none
  | some (cs, rest) => some (c :: cs, rest)

/-- Parse the body of a JSON string after the opening quote: plain characters
(control characters refused, as in strict `json.loads`), the eight short
escapes, and `\uXXXX` with surrogate pairs combined. -/
def hex4Val? (h1 h2 h3 h4 : Char) : Option Nat :=
  match hexVal? h1, hexVal? h2, hexVal? h3, hexVal? h4 with
  | some a, some b, some c, some d => some (4096 * a + 256 * b + 16 * c + d)
  | _, _, _, _ => none

/-- Decode one escape after the backslash, returning the char and the rest
(surrogate pairs combined; a lone surrogate or unknown escape is `none`). -/
def parseEscape : Str → Option (Char × Str)
  | [] => none
  | e :: r =>
    if e = '"' then some ('"', r)
    else if e = '\\' then some ('\\', r)
    else if e = '/' then some ('/', r)
    else if e = 'b' then some ('\x08', r)
    else if e = 'f' then some ('\x0c', r)
    else if e = 'n' then some ('\n', r)
    else if e = 'r' then some ('\r', r)
    else if e = 't' then some ('\t', r)
    else if e = 'u' then
      match r with
      | h1 :: h2 :: h3 :: h4 :: r2 =>
        (match hex4Val? h1 h2 h3 h4 with
         | none => none
         | some v =>
           if 0xD800 ≤ v ∧ v ≤ 0xDBFF then
             match r2 with
             | '\\' :: 'u' :: g1 :: g2 :: g3 :: g4 :: r3 =>
               (match hex4Val? g1 g2 g3 g4 with
                | none => none
                | some w =>
                  if 0xDC00 ≤ w ∧ w ≤ 0xDFFF then
                    some (Char.ofNat (0x10000 + (v - 0xD800) * 0x400 + (w - 0xDC00)), r3)
                  else none)
             | _ => none
           else if 0xDC00 ≤ v ∧ v ≤ 0xDFFF then none
           else some (Char.ofNat v, r2))
      | _ => none
    else none

def parseEscapeU2 (v : Nat) : Str → Option (Char × Str)
  | '\\' :: 'u' :: g1 :: g2 :: g3 :: g4 :: r3 =>
    (match hex4Val? g1 g2 g3 g4 with
     | none => none
     | some w =>
       if 0xDC00 ≤ w ∧ w ≤ 0xDFFF then
         some (Char.ofNat (0x10000 + (v - 0xD800) * 0x400 + (w - 0xDC00)), r3)
       else none)
  | _ => none

def parseEscapeU : Str → Option (Char × Str)
  | h1 :: h2 :: h3 :: h4 :: r2 =>
    (match hex4Val? h1 h2 h3 h4 with
     | none => none
     | some v =>
       if 0xD800 ≤ v ∧ v ≤ 0xDBFF then parseEscapeU2 v r2
       else if 0xDC00 ≤ v ∧ v ≤ 0xDFFF then none
       else some (Char.ofNat v, r2))
  | _ => none

/-- Fuelled body of the JSON string parser: one fuel unit per produced
character; every step consumes at least one input character, so the remaining
input length is always enough fuel. -/
def parseStringGoF : Nat → Str → Option (Str × Str)
  | 0, _ => none
  | fuel + 1, s =>
    match s with
    | [] => none
    | c :: rest =>
      if c = '"' then some ([], rest)
      else if c = '\\' then
        match parseEscape rest with
        | none => none
        | some (d, r2) => pcons d (parseStringGoF fuel r2)
      else if c.toNat < 32 then none
      else pcons c (parseStringGoF fuel rest)

/-- Parse the body of a JSON string after the opening quote. -/
def parseStringGo (s : Str) : Option (Str × Str) := parseStringGoF s.length s

/-- Consume a run of decimal digits, MSD-first accumulation. -/
def parseDigitsGo (acc : Nat) : Str → Nat × Str
  | [] => (acc, [])
  | c :: r => if isDigit c then parseDigitsGo (10 * acc + digitVal c) r else (acc, c :: r)

/-- Parse a JSON number body (after an optional consumed minus sign), per the
grammar `0|[1-9]\d*`; a continuation by `.`/`e`/`E` is float syntax, outside
the model (`none`). -/
def parseNumTail (neg : Bool) : Str → Option (JVal × Str)
  | [] => none
  | c :: r =>
    if isDigit c then
      let p := if c = '0' then (0, r) else parseDigitsGo (digitVal c) r
      match p.2 with
      | d :: _ =>
          if d = '.' || d = 'e' || d = 'E' then none
          else some (.num (if neg then -(p.1 : Int) else (p.1 : Int)), p.2)
      | [] => some (.num (if neg then -(p.1 : Int) else (p.1 : Int)), p.2)
    else none

/-- Python `dict` insertion: a repeated key keeps its first position and takes
the latest value; a new key is appended. -/
def objInsert (kvs : List (Str × JVal)) (k : Str) (v : JVal) : List (Str × JVal) :=
  match kvs with
  | [] => [(k, v)]
  | (k0, v0) :: rest =>
      if k0 = k then (k0, v) :: rest else (k0, v0) :: objInsert rest k v

mutual

/-- Fuelled recursive-descent JSON value parser (the fuel only bounds
recursion depth; every scanning step also consumes input). -/
def parseValue : Nat → Str → Option (JVal × Str)
  | 0, _ => none
  | fuel + 1, s =>
    match s with
    | [] => none
    | c :: r =>
      if c = '\x7b' then
        (match skipWs r with
         | '\x7d' :: r2 => some (.obj [], r2)
         | r2 => parseMembers fuel r2 [])
      else if c = '[' then
        (match skipWs r with
         | ']' :: r2 => some (.arr [], r2)
         | r2 => parseElems fuel r2 [])
      else if c = '"' then
        (match parseStringGo r with
         | some (cs, r2) => some (.str cs, r2)
         | none => none)
      else if c = 'n' then
        (if startsWith (strL "ull") r then some (.null, r.drop 3) else none)
      else if c = 't' then
        (if startsWith (strL "rue") r then some (.bool true, r.drop 3) else none)
      else if c = 'f' then
        (if startsWith (strL "alse") r then some (.bool false, r.drop 4) else none)
      else if c = '-' then parseNumTail true r
      else if isDigit c then parseNumTail false (c :: r)
      else none

/-- Array elements after the first delimiter, accumulating in order. -/
def parseElems : Nat → Str → List JVal → Option (JVal × Str)
  | 0, _, _ => none
  | fuel + 1, s, acc =>
    match parseValue fuel (skipWs s) with
    | none => none
    | some (v, r) =>
      match skipWs r with
      | ',' :: r2 => parseElems fuel r2 (acc ++ [v])
      | ']' :: r2 => some (.arr (acc ++ [v]), r2)
      | _ => none

/-- Object members, accumulating with `objInsert`. -/
def parseMembers : Nat → Str → List (Str × JVal) → Option (JVal × Str)
  | 0, _, _ => none
  | fuel + 1, s, acc =>
    match s with
    | '"' :: r =>
      (match parseStringGo r with
       | none => none
       | some (key, r2) =>
         match skipWs r2 with
         | ':' :: r3 =>
           (match parseValue fuel (skipWs r3) with
            | none => none
            | some (v, r4) =>
              match skipWs r4 with
              | ',' :: r5 => parseMembers fuel (skipWs r5) (objInsert acc key v)
              | '\x7d' :: r5 => some (.obj (objInsert acc key v), r5)
              | _ => none)
         | _ => none)
    | _ => none

end

/-- Model of `json.loads`: skip whitespace, parse one value, require only
whitespace after it. -/
def json_loads (s : Str) : Option JVal :=
  match parseValue (2 * s.length + 2) (skipWs s) with
  | some (v, rest) => if (skipWs rest).isEmpty then some v else none
  | none => none

end Conv

namespace Conv

/-- `n` spaces. -/
def spaces (n : Nat) : Str := List.replicate n ' '

/-- One decimal digit as a character. -/
def digitChar (n : Nat) : Char := Char.ofNat (48 + n)

/-- Decimal digits of a natural number, most significant first (fuelled;
`fuel ≥ 1 + n` always suffices since the value shrinks ten-fold each step). -/
def natToStrGo : Nat → Nat → Str
  | 0, _ => []
  | fuel + 1, n =>
      if n < 10 then [digitChar n]
      else natToStrGo fuel (n / 10) ++ [digitChar (n % 10)]

/-- Decimal rendering of a natural number (model of Python `str`). -/
def natToStr (n : Nat) : Str := natToStrGo (n + 1) n

/-- Decimal rendering of an integer (model of Python `str`). -/
def intToStr : Int → Str
  | .ofNat n => natToStr n
  | .negSucc m => '-' :: natToStr (m + 1)

/-- One lowercase hexadecimal digit as a character. -/
def hexDigitChar (n : Nat) : Char :=
  if n < 10 then Char.ofNat (48 + n) else Char.ofNat (87 + n)

/-- Four lowercase hex digits. -/
def hex4 (n : Nat) : Str :=
  [hexDigitChar (n / 4096 % 16), hexDigitChar (n / 256 % 16),
   hexDigitChar (n / 16 % 16), hexDigitChar (n % 16)]

/-- `json.dumps` escaping of one string character under the default
`ensure_ascii=True`: the short escapes, `\uXXXX` for other control or
non-ASCII characters (surrogate pairs beyond the BMP), else the raw char. -/
def escChar (c : Char) : Str :=
  if c = '"' then ['\\', '"']
  else if c = '\\' then ['\\', '\\']
  else if c = '\n' then ['\\', 'n']
  else if c = '\t' then ['\\', 't']
  else if c = '\r' then ['\\', 'r']
  else if c = '\x08' then ['\\', 'b']
  else if c = '\x0c' then ['\\', 'f']
  else if c.toNat < 32 || 127 ≤ c.toNat then
    if c.toNat < 0x10000 then '\\' :: 'u' :: hex4 c.toNat
    else
      '\\' :: 'u' :: hex4 (0xD800 + (c.toNat - 0x10000) / 0x400) ++
        ('\\' :: 'u' :: hex4 (0xDC00 + (c.toNat - 0x10000) % 0x400))
  else [c]

/-- `json.dumps` rendering of a string. -/
def dumpStr (s : Str) : Str := '"' :: (s.map escChar).flatten ++ ['"']

mutual

/-- `json.dumps(v, indent=2)` at current indentation column `ind`: empty
containers render inline; non-empty ones put each item on its own line two
columns deeper, the closer back at column `ind`. -/
def dumpVal (ind : Nat) : JVal → Str
  | .null => strL "null"
  | .bool true => strL "true"
  | .bool false => strL "false"
  | .num n => intToStr n
  | .str s => dumpStr s
  | .arr [] => strL "[]"
  | .arr (v :: vs) =>
      '[' :: '\n' :: (spaces (ind + 2) ++ dumpVal (ind + 2) v ++
        dumpElemsD (ind + 2) vs ++ '\n' :: (spaces ind ++ [']']))
  | .obj [] => strL "\x7b\x7d"
  | .obj (kv :: kvs) =>
      '\x7b' :: '\n' :: (spaces (ind + 2) ++ dumpStr kv.1 ++ ':' :: ' ' ::
        dumpVal (ind + 2) kv.2 ++ dumpMembersD (ind + 2) kvs ++
          '\n' :: (spaces ind ++ ['\x7d']))

/-- The remaining array items, each preceded by `",\n"` and indentation. -/
def dumpElemsD (ind : Nat) : List JVal → Str
  | [] => []
  | v :: vs => ',' :: '\n' :: (spaces ind ++ dumpVal ind v ++ dumpElemsD ind vs)

/-- The remaining object members, each preceded by `",\n"` and indentation. -/
def dumpMembersD (ind : Nat) : List (Str × JVal) → Str
  | [] => []
  | kv :: kvs =>
      ',' :: '\n' :: (spaces ind ++ dumpStr kv.1 ++ ':' :: ' ' ::
        dumpVal ind kv.2 ++ dumpMembersD ind kvs)

end

/-- Model of `json.dumps(v, indent=2)`. -/
def json_dumps (v : JVal) : Str := dumpVal 0 v

end Conv

namespace Conv

/-- Lines 207/229: `'crawl4ai' in url.lower() if url else False`. -/
def urlHasCrawl : Option Str → Bool
  | none => false
  | some s => containsSub (lowerStr s) (strL "crawl4ai")

/-- The Python keyword-spacing substitutions of lines 190-204, in source
order. -/
def pyKeywords : List Str :=
  [strL "import", strL "from", strL "def", strL "class", strL "if",
   strL "elif", strL "for", strL "while", strL "with", strL "return",
   strL "except", strL "as", strL "in", strL "await", strL "async"]

/-- The JS keyword-spacing substitutions of lines 253-262, in source order. -/
def jsKeywords : List Str :=
  [strL "function", strL "const", strL "let", strL "var", strL "if",
   strL "else", strL "for", strL "while", strL "switch", strL "return"]

/-- Apply the keyword substitutions left to right (sequential `re.sub`s). -/
def applyKeywordSubs (kws : List Str) (s : Str) : Str :=
  kws.foldl (fun t kw => subKeyword kw t) s

/-- The Crawl4AI call-site identifiers of lines 209-213, in source order. -/
def crawlIdents : List Str :=
  [strL "CrawlerRunConfig", strL "AsyncWebCrawler", strL "DefaultMarkdownGenerator"]

/-- Apply the three call-site whitespace removals (lines 209-213). -/
def applyIdentSubs (s : Str) : Str :=
  crawlIdents.foldl (fun t i => subIdentParen i t) s

/-- The operator-spacing substitutions of lines 219-223, in source order. -/
def pyOpSubs (s : Str) : Str :=
  subOpSpace ['/'] '/' ['/', '=']
    (subOpSpace ['*'] '*' ['*', '=']
      (subOpSpace ['-'] '-' ['-', '=']
        (subOpSpace ['+'] '+' ['+', '=']
          (subOpSpace ['=', '!', '<', '>'] '=' ['='] s))))

/-- The operator-spacing substitutions of lines 265-267, in source order. -/
def jsOpSubs (s : Str) : Str :=
  subOpSpace ['-'] '-' ['-', '=']
    (subOpSpace ['+'] '+' ['+', '=']
      (subOpSpace ['=', '!', '<', '>'] '=' ['='] s))

/-- The per-line content transformation of the Python branch (lines 189-223):
keyword fixes, the Crawl4AI call-site fixes when the URL mentions crawl4ai,
the (identity) method-chaining fix, then operator fixes. -/
def pythonContentFix (crawl : Bool) (s : Str) : Str :=
  pyOpSubs (subMethodChain
    ((if crawl then applyIdentSubs else id) (applyKeywordSubs pyKeywords s)))

/-- The per-line content transformation of the JS branch (lines 252-267). -/
def jsContentFix (s : Str) : Str := jsOpSubs (applyKeywordSubs jsKeywords s)

/-- One output line (lines 178-186 / 225): a blank line becomes empty; any
other line is its `lstrip` (transformed by `fix`) behind its indentation
relative to the block minimum. -/
def emitLine (fix : Str → Str) (minIndent : Nat) (line : Str) : Str :=
  if isBlank line then []
  else
    (if indentOf line > minIndent then spaces (indentOf line - minIndent) else []) ++
      fix (pyLstrip line)

/-- Line 172: `min(len(line) - len(line.lstrip()) for line in non_empty_lines)`. -/
def minIndentOf (nonEmpty : List Str) : Nat :=
  match nonEmpty.map indentOf with
  | [] => 0
  | n :: ns => ns.foldl Nat.min n

/-- The synthesized import statement of line 236 (with its newline). -/
def importLine : Str :=
  strL "from crawl4ai import AsyncWebCrawler, CrawlerRunConfig" ++ ['\n']

/-- `re.compile(r'^(import|from)', re.MULTILINE).search(s)`: the position of
the first line start (position 0 or just after a newline) where `import` or
`from` begins. -/
def findImportFromGo : Str → Nat → Bool → Option Nat
  | [], _, _ => none
  | s@(c :: rest), i, atStart =>
    if atStart && (startsWith (strL "import") s || startsWith (strL "from") s) then
      some i
    else findImportFromGo rest (i + 1) (c = '\n')

/-- Search position of the first `import`/`from` line start. -/
def findImportFrom (s : Str) : Option Nat := findImportFromGo s 0 true

/-- Lines 229-236: when the URL mentions crawl4ai, `AsyncWebCrawler` is used
and its import is missing, splice `importLine` in at the first `import`/`from`
line start; when no such line start exists, the body is left as it is. -/
def maybeInsertImport (crawl : Bool) (body : Str) : Str :=
  if crawl && containsSub body (strL "AsyncWebCrawler") &&
      !containsSub body (strL "from crawl4ai import AsyncWebCrawler") then
    match findImportFrom body with
    | some p => body.take p ++ importLine ++ body.drop p
    | none => body
  else body

/-- Lines 141-311: `process_code_block(code_text, language, url)`. -/
def process_code_block (code_text : Str) (language : Str) (url : Option Str) :
    Str × Str :=
  if code_text.length < 5 then (code_text, language)
  else
    let lines := stripBlankEnds (splitlines code_text)
    if lines.isEmpty then (code_text, language)
    else if (lines.filter (fun l => !isBlank l)).isEmpty then (code_text, language)
    else
      let minIndent := minIndentOf (lines.filter (fun l => !isBlank l))
      if language = strL "python" then
        (maybeInsertImport (urlHasCrawl url)
          (joinNL (lines.map (emitLine (pythonContentFix (urlHasCrawl url)) minIndent))),
         strL "python")
      else if language = strL "javascript" || language = strL "typescript" ||
          language = strL "jsx" || language = strL "tsx" then
        (joinNL (lines.map (emitLine jsContentFix minIndent)), language)
      else if language = strL "json" || language = strL "yaml" then
        (if language = strL "json" then
          match json_loads code_text with
          | some parsed => (json_dumps parsed, language)
          | none => (joinNL (lines.map (emitLine id minIndent)), language)
        else (joinNL (lines.map (emitLine id minIndent)), language))
      else (joinNL (lines.map (emitLine id minIndent)), language)

/-- The Python-branch body before the import-synthesis step (the value of
`formatted_code` at line 228), for stating when synthesis fires. -/
def pythonFormattedBody (x : Str) (u : Option Str) : Str :=
  joinNL ((stripBlankEnds (splitlines x)).map
    (emitLine (pythonContentFix (urlHasCrawl u))
      (minIndentOf ((stripBlankEnds (splitlines x)).filter (fun l => !isBlank l)))))

/-- Does the Python import synthesis actually splice a line in on input
`x`/`u`?  (All guards of lines 154-236 made explicit.) -/
def pythonSynthFires (x : Str) (u : Option Str) : Bool :=
  if x.length < 5 then false
  else
    let lines := stripBlankEnds (splitlines x)
    if lines.isEmpty then false
    else if (lines.filter (fun l => !isBlank l)).isEmpty then false
    else
      urlHasCrawl u && containsSub (pythonFormattedBody x u) (strL "AsyncWebCrawler") &&
        !containsSub (pythonFormattedBody x u) (strL "from crawl4ai import AsyncWebCrawler") &&
        (findImportFrom (pythonFormattedBody x u)).isSome

/-- `json.loads` in its raising form: parse failure is an exception. -/
def json_loadsE (s : Str) : Except Str JVal :=
  match json_loads s with
  | some v => .ok v
  | none => .error (strL "Expecting value")

/-- The `try:` body of lines 275-279 in its raising form: on the json path it
either returns a result or lets the parse exception escape to the handler. -/
def tryJsonBranchE (code_text language : Str) : Except Str (Option (Str × Str)) :=
  if language = strL "json" then
    match json_loadsE code_text with
    | .ok parsed => .ok (some (json_dumps parsed, language))
    | .error e => .error e
  else .ok none

/-- Exception-aware mirror of `process_code_block`: identical control flow,
with the one fallible operation (`json.loads`) kept in the `Except` monad and
the bare `except: pass` of line 280 modelled as the catch that falls through
to the indentation-only loop. -/
def process_code_blockE (code_text : Str) (language : Str) (url : Option Str) :
    Except Str (Str × Str) :=
  if code_text.length < 5 then .ok (code_text, language)
  else
    let lines := stripBlankEnds (splitlines code_text)
    if lines.isEmpty then .ok (code_text, language)
    else if (lines.filter (fun l => !isBlank l)).isEmpty then .ok (code_text, language)
    else
      let minIndent := minIndentOf (lines.filter (fun l => !isBlank l))
      if language = strL "python" then
        .ok (maybeInsertImport (urlHasCrawl url)
          (joinNL (lines.map (emitLine (pythonContentFix (urlHasCrawl url)) minIndent))),
         strL "python")
      else if language = strL "javascript" || language = strL "typescript" ||
          language = strL "jsx" || language = strL "tsx" then
        .ok (joinNL (lines.map (emitLine jsContentFix minIndent)), language)
      else if language = strL "json" || language = strL "yaml" then
        (match tryJsonBranchE code_text language with
         | .ok (some r) => .ok r
         | .ok none => .ok (joinNL (lines.map (emitLine id minIndent)), language)
         | .error _ => .ok (joinNL (lines.map (emitLine id minIndent)), language))
      else .ok (joinNL (lines.map (emitLine id minIndent)), language)

end Conv

namespace Conv

/-- Index of the first occurrence of `pat` in `s`. -/
def findSubIdx (pat : Str) : Str → Option Nat
  | [] => if startsWith pat [] then some 0 else none
  | s@(_ :: rest) =>
      if startsWith pat s then some 0 else (findSubIdx pat rest).map (· + 1)

/-- Lines 328-338: the replacement applied to one matched fenced block of
`post_process_markdown` — the raw fence language is stripped and lowered,
the block goes through `process_code_block`, and an empty or `"text"` hint is
replaced on the output fence by the function's returned language. -/
def replace_code_block (url : Str) (langRaw : Str) (code : Str) : Str :=
  let lang := lowerStr (pyStrip langRaw)
  let pr := process_code_block code (if lang.isEmpty then strL "text" else lang) (some url)
  let finalLang := if lang.isEmpty || lang = strL "text" then pr.2 else lang
  strL "```" ++ finalLang ++ '\n' :: pr.1 ++ '\n' :: strL "```"

/-- Line 341: `re.sub(r'```([^\n]*)\n(.*?)\n```', replace_code_block, doc,
flags=re.DOTALL)` (fuelled scan; each step consumes at least one character).
At a position starting with three backticks, the fence language is the run up
to the first newline; the lazy body ends at the earliest `"\n```"`; on any
failure to complete the pattern, scanning advances one character. -/
def processFencesF (url : Str) : Nat → Str → Str
  | 0, s => s
  | _, [] => []
  | fuel + 1, c :: rest =>
    if startsWith (strL "```") (c :: rest) then
      let afterTicks := (c :: rest).drop 3
      let langRaw := afterTicks.takeWhile (fun ch => ch ≠ '\n')
      match afterTicks.drop langRaw.length with
      | '\n' :: afterNl =>
        (match findSubIdx (strL "\n```") afterNl with
         | some i =>
             replace_code_block url langRaw (afterNl.take i) ++
               processFencesF url fuel (afterNl.drop (i + 4))
         | none => c :: processFencesF url fuel rest)
      | _ => c :: processFencesF url fuel rest
    else c :: processFencesF url fuel rest

/-- The fenced-code-block substitution of `post_process_markdown` (the
string-transforming core of lines 327-341; the prepended metadata header and
timestamp are plain I/O decoration outside this model). -/
def processFences (url : Str) (doc : Str) : Str := processFencesF url doc.length doc

end Conv

namespace Conv

mutual

/-- Fuel sufficient for `parseValue` on the rendering of `v`. -/
def pvFuel : JVal → Nat
  | .arr vs => 1 + peFuel vs
  | .obj kvs => 1 + pmFuel kvs
  | .num _ => 1
  | .str _ => 1
  | .bool _ => 1
  | .null => 1

/-- Fuel sufficient for `parseElems` on a rendered element list. -/
def peFuel : List JVal → Nat
  | [] => 1
  | v :: vs => 1 + pvFuel v + peFuel vs

/-- Fuel sufficient for `parseMembers` on a rendered member list. -/
def pmFuel : List (Str × JVal) → Nat
  | [] => 1
  | kv :: kvs => 1 + pvFuel kv.2 + pmFuel kvs

end

mutual

/-- The invariant `json_loads` guarantees of its result: every object's keys
are pairwise distinct (a Python dict cannot hold a key twice). -/
def jwf : JVal → Bool
  | .null => true
  | .bool _ => true
  | .num _ => true
  | .str _ => true
  | .arr vs => jwfList vs
  | .obj kvs => jwfObj kvs

/-- `jwf` on every element. -/
def jwfList : List JVal → Bool
  | [] => true
  | v :: vs => jwf v && jwfList vs

/-- `jwf` on every member value, with the member's key absent further on. -/
def jwfObj : List (Str × JVal) → Bool
  | [] => true
  | (k, v) :: rest => jwf v && rest.all (fun kv => !(kv.1 == k)) && jwfObj rest

end

/-- Position `p` of `s` is the start of a line (`^` under `re.MULTILINE`):
position 0 or just after a newline. -/
def lineStartAt (s : Str) (p : Nat) : Prop :=
  p = 0 ∨ s.get? (p - 1) = some '\n'

/-- The literal `import` or `from` begins at position `p` of `s`. -/
def importFromAt (s : Str) (p : Nat) : Prop :=
  startsWith (strL "import") (s.drop p) = true ∨
    startsWith (strL "from") (s.drop p) = true

/-- A character with no claim to whitespace-ness—`hasNonSpace s` says some
character of `s` is not Python whitespace (i.e. `s.strip()` is truthy). -/
def hasNonSpace (s : Str) : Bool := s.any (fun c => !isSpaceChar c)

end Conv

namespace Conv

/-! ## Basic lemmas about the string machinery -/

theorem isSpaceChar_elim {c : Char} (h : isSpaceChar c = true) :
    c = ' ' ∨ c = '\t' ∨ c = '\n' ∨ c = '\r' ∨ c = '\x0b' ∨ c = '\x0c' := by
  simp [isSpaceChar] at h
  tauto

theorem isWordChar_not_space {c : Char} (h : isWordChar c = true) :
    isSpaceChar c = false := by
  cases hsp : isSpaceChar c with
  | false => rfl
  | true =>
    rcases isSpaceChar_elim hsp with rfl | rfl | rfl | rfl | rfl | rfl <;>
      exact absurd h (by decide)

theorem hasNonSpace_eq_not_isBlank (s : Str) : hasNonSpace s = !isBlank s := by
  induction s with
  | nil => rfl
  | cons c t ih =>
    simp only [hasNonSpace, isBlank, List.any_cons, List.all_cons] at *
    cases h : isSpaceChar c <;> simp [h, ih]

theorem isBlank_false_of_mem {s : Str} {c : Char} (hc : c ∈ s)
    (hns : isSpaceChar c = false) : isBlank s = false := by
  cases hb : isBlank s with
  | false => rfl
  | true =>
    have := (List.all_eq_true.mp hb) c hc
    simp [hns] at this

theorem startsWith_iff {p s : Str} : startsWith p s = true ↔ ∃ t, s = p ++ t := by
  induction p generalizing s with
  | nil => simp [startsWith]
  | cons a p ih =>
    cases s with
    | nil => simp [startsWith]
    | cons c t =>
      simp only [startsWith, Bool.and_eq_true, decide_eq_true_eq, ih]
      constructor
      · rintro ⟨rfl, u, rfl⟩; exact ⟨u, rfl⟩
      · rintro ⟨u, hu⟩
        injection hu with h1 h2
        exact ⟨h1.symm, u, h2⟩

theorem startsWith_append (p t : Str) : startsWith p (p ++ t) = true :=
  startsWith_iff.mpr ⟨t, rfl⟩

theorem anyPos_mono {p q : Str → Bool} (hpq : ∀ t, p t = true → q t = true) :
    ∀ {s : Str}, anyPos p s = true → anyPos q s = true := by
  intro s
  induction s with
  | nil => simpa [anyPos] using hpq []
  | cons c t ih =>
    simp only [anyPos, Bool.or_eq_true]
    rintro (h | h)
    · exact Or.inl (hpq _ h)
    · exact Or.inr (ih h)

theorem litM_ttM (pat s : Str) : litM pat ttM s = startsWith pat s := by
  unfold litM ttM
  split <;> simp_all

/-! ## C3 — hint precedence in `detect_code_language` -/

/-- C3: whenever the hint is non-empty after trimming and not
case-insensitively `"text"`, `detect_code_language` returns the trimmed,
lower-cased hint, regardless of the content and the url. -/
theorem C3_hint_precedence (x h : Str) (u : Option Str)
    (h1 : pyStrip h ≠ []) (h2 : lowerStr (pyStrip h) ≠ strL "text") :
    detect_code_language x (some h) u = lowerStr (pyStrip h) := by
  have hne : h ≠ [] := by
    rintro rfl
    exact h1 rfl
  simp [detect_code_language, h1, h2, hne]

/-- Witness for C3 at a concrete input whose content looks like Python. -/
theorem C3_witness :
    detect_code_language (strL "import os") (some (strL " Rust ")) none = strL "rust" := by
  rw [C3_hint_precedence (strL "import os") (strL " Rust ") none (by decide) (by decide)]
  decide

/-! ## C10 — URL-context detection fires on a bare `import` substring -/

/-- C10: with an empty (or absent) hint, a url containing an allow-listed
domain, and the character sequence `import` anywhere in the text — inside a
longer identifier included — detection answers `python` before any generic
pattern is consulted. -/
theorem C10_url_context_bare_substring (x u : Str) (hint : Option Str)
    (hh : hint = none ∨ hint = some [])
    (hu : urlAllowHit (some u) = true)
    (hx : containsSub x (strL "import") = true) :
    detect_code_language x hint (some u) = strL "python" := by
  have hscript : reSearch scriptPatM x = true := by
    refine anyPos_mono (fun t ht => ?_) hx
    have himp : litM (strL "import") ttM t = true := by rw [litM_ttM]; exact ht
    simp [scriptPatM, himp]
  have hno : detectNoHint x (some u) = strL "python" := by
    unfold detectNoHint
    rw [if_pos (by simp [hu, hscript])]
  rcases hh with rfl | rfl
  · simpa [detect_code_language] using hno
  · simpa [detect_code_language] using hno

/-- Witness for C10: JavaScript-looking text whose only tie to Python is the
substring `import` inside `importantVar`. -/
theorem C10_witness :
    detect_code_language (strL "const importantVar = 1;") (some [])
      (some (strL "https://docs.crawl4ai.com/api")) = strL "python" :=
  C10_url_context_bare_substring _ _ _ (Or.inr rfl) (by decide) (by decide)

end Conv

namespace Conv

/-! ## C6 — the length threshold tests the raw, not the trimmed, text -/

/-- C6 counterexample: `"  x  "` has trimmed length 1 < 5, yet
`process_code_block` does not return it unchanged (the guard tests the raw
length, 5, so the block is reformatted to `"x  "`). -/
theorem C6_counterexample :
    (pyStrip (strL "  x  ")).length < 5 ∧
      process_code_block (strL "  x  ") (strL "text") none ≠
        (strL "  x  ", strL "text") := by decide

/-- C6 amended: the passthrough guard compares the raw length of the text
(`len(code_text) < 5`), not the trimmed length; any input of raw length
below 5 is returned unchanged with its language. -/
theorem C6_short_passthrough_amended (x L : Str) (u : Option Str)
    (h : x.length < 5) : process_code_block x L u = (x, L) := by
  unfold process_code_block
  rw [if_pos h]

/-- Witness for the amended C6 (the spec's own 3-character scenario). -/
theorem C6_witness :
    process_code_block (strL "x=1") (strL "python") none = (strL "x=1", strL "python") :=
  C6_short_passthrough_amended _ _ _ (by decide)

/-! ## C8 — keyword spacing has no word-boundary anchor -/

/-- C8 counterexample: `"prints"` contains no Python keyword as a token, yet
the `in(\w+)` substitution fires inside the identifier and the block becomes
`"prin ts"` — the keyword fix does alter other text. -/
theorem C8_counterexample :
    (process_code_block (strL "prints") (strL "python") none).1 = strL "prin ts" ∧
      (process_code_block (strL "prints") (strL "python") none).1 ≠ strL "prints" := by
  decide

/-- C8 amended: the keyword substitutions insert the space at every occurrence
of the keyword letters immediately followed by a word character — with no
word-boundary anchor, so also inside longer identifiers.  The spec's own
scenario `"def foo():\n    return1" ↦ "def foo():\n    return 1"` holds, and
`"prints"` becomes `"prin ts"`. -/
theorem C8_keyword_spacing_amended :
    process_code_block (strL "def foo():\n    return1") (strL "python") none =
        (strL "def foo():\n    return 1", strL "python") ∧
      process_code_block (strL "prints") (strL "python") none =
        (strL "prin ts", strL "python") := by decide

/-! ## C5 — the assembler never invokes the Detector -/

/-- C5 (code bug): the fenced block `"```\nimport os\n```"` with an empty
fence hint is re-emitted with fence language `text`, although
`detect_code_language` answers `python` for its content — because
`post_process_markdown` never calls `detect_code_language`: the
`detected_lang` it writes back is just `process_code_block`'s echo of the
placeholder language. -/
theorem C5_detector_never_consulted :
    processFences (strL "https://example.com/docs") (strL "```\nimport os\n```") =
        strL "```text\nimport os\n```" ∧
      detect_code_language (strL "import os") (some [])
        (some (strL "https://example.com/docs")) = strL "python" := by decide

/-! ## C2 — reformatting is not idempotent (counterexample part) -/

/-- C2 counterexample: the operator-spacing substitution widens already-spaced
operators, so a second run changes the text again (`"x=111"` becomes
`"x = 111"`, then `"x  =  111"`); and for language `json`, a leading
vertical-tab blank line defeats the parse on the first run but not on the
second, whose re-serialization changes the text again. -/
theorem C2_counterexample :
    ((process_code_block ((process_code_block (strL "x=111") (strL "python") none).1)
        (strL "python") none).1 ≠
      (process_code_block (strL "x=111") (strL "python") none).1) ∧
    ((process_code_block ((process_code_block (strL "\x0b\n\x7b\"a\": 1\x7d") (strL "json") none).1)
        (strL "json") none).1 ≠
      (process_code_block (strL "\x0b\n\x7b\"a\": 1\x7d") (strL "json") none).1) := by
  decide

/-! ## C7 — no import synthesis happens when no import/from line exists
(counterexample part) -/

/-- C7 counterexample: with a crawl4ai url, a block using `AsyncWebCrawler`
but containing no `import`/`from` line is returned without any synthesized
module line (the claim says the import is inserted at the top). -/
theorem C7_counterexample :
    (process_code_block (strL "crawler = AsyncWebCrawler()") (strL "python")
        (some (strL "https://docs.crawl4ai.com/"))).1 =
      strL "crawler  =  AsyncWebCrawler()" ∧
    containsSub (process_code_block (strL "crawler = AsyncWebCrawler()") (strL "python")
        (some (strL "https://docs.crawl4ai.com/"))).1 (strL "from crawl4ai import") =
      false := by decide

/-! ## C1 — line counts are not preserved (counterexample part) -/

/-- C1 counterexample: the JSON re-serialization path rewrites the one-line
object into four lines. -/
theorem C1_counterexample :
    nonBlankCount ((process_code_block (strL "\x7b\"a\":1,\"b\":2\x7d") (strL "json") none).1) ≠
      nonBlankCount (strL "\x7b\"a\":1,\"b\":2\x7d") := by decide

/-! ## C4 — JSON round-trip fails below the length threshold
(counterexample part) -/

/-- C4 counterexample: `"[1]"` is syntactically valid JSON, but being shorter
than 5 characters it is passed through untouched rather than re-serialized
with 2-space indentation. -/
theorem C4_counterexample :
    (json_loads (strL "[1]")).isSome = true ∧
      (process_code_block (strL "[1]") (strL "json") none).1 = strL "[1]" ∧
      (json_loads (strL "[1]")).map json_dumps ≠ some (strL "[1]") := by decide

end Conv

namespace Conv

/-! ## C9 — totality: no exception escapes `process_code_block` -/

/-- C9: the exception-aware embedding always returns `ok`, and with exactly
the pure function's result — the one fallible operation (the JSON parse) is
caught by the bare `except`, which degrades to the indentation-only loop, so
no exception propagates for any text, language and optional url. -/
theorem C9_totality (x L : Str) (u : Option Str) :
    process_code_blockE x L u = Except.ok (process_code_block x L u) := by
  unfold process_code_blockE process_code_block tryJsonBranchE json_loadsE
  by_cases h5 : x.length < 5
  · simp [h5]
  · simp only [h5, if_false]
    by_cases hl : (stripBlankEnds (splitlines x)).isEmpty
    · simp [hl]
    · simp only [hl, if_false]
      by_cases hf : ((stripBlankEnds (splitlines x)).filter (fun l => !isBlank l)).isEmpty
      · simp [hf]
      · simp only [hf, if_false]
        by_cases hpy : L = strL "python"
        · simp [hpy]
        · simp only [hpy, if_false]
          by_cases hjs : L = strL "javascript" ∨ L = strL "typescript" ∨
              L = strL "jsx" ∨ L = strL "tsx"
          · rcases hjs with h | h | h | h <;> simp [h]
          · push_neg at hjs
            obtain ⟨h1, h2, h3, h4⟩ := hjs
            simp only [h1, h2, h3, h4, decide_False, Bool.or_self, Bool.false_or, if_false]
            by_cases hj : L = strL "json"
            · simp only [hj, decide_True, Bool.true_or, if_true]
              cases hload : json_loads x <;> simp [hload]
            · by_cases hy : L = strL "yaml"
              · subst hy
                rw [if_neg (by decide : ¬(strL "yaml" = strL "json")),
                  if_neg (by decide : ¬(strL "yaml" = strL "json"))]
                simp
              · simp [hj, hy]
end Conv

namespace Conv

/-! ## `splitlines` / `joinNL` lemmas -/

theorem splitlinesGo_nil (acc : Str) : splitlinesGo acc [] = [acc.reverse] := rfl

theorem splitlinesGo_nl (acc rest : Str) :
    splitlinesGo acc ('\n' :: rest) =
      acc.reverse :: (if rest.isEmpty then [] else splitlinesGo [] rest) := rfl

theorem splitlinesGo_other {c : Char} (h1 : c ≠ '\n') (h2 : c ≠ '\r')
    (acc rest : Str) : splitlinesGo acc (c :: rest) = splitlinesGo (c :: acc) rest := by
  conv_lhs => rw [splitlinesGo.eq_def]
  split <;> simp_all

theorem splitlinesGo_append_nonl (l : Str) (hl : ∀ c ∈ l, c ≠ '\n' ∧ c ≠ '\r') :
    ∀ acc t, splitlinesGo acc (l ++ t) = splitlinesGo (l.reverse ++ acc) t := by
  induction l with
  | nil => intro acc t; simp
  | cons c l ih =>
    intro acc t
    have hc := hl c (List.mem_cons_self _ _)
    rw [List.cons_append, splitlinesGo_other hc.1 hc.2,
      ih (fun d hd => hl d (List.mem_cons_of_mem _ hd))]
    simp

theorem joinNL_cons_cons (l l2 : Str) (ls : List Str) :
    joinNL (l :: l2 :: ls) = l ++ '\n' :: joinNL (l2 :: ls) := rfl

theorem joinNL_eq_nil_iff (l : Str) (ls : List Str) :
    joinNL (l :: ls) = [] ↔ l = [] ∧ ls = [] := by
  cases ls with
  | nil => simp [joinNL]
  | cons l2 ls => simp [joinNL_cons_cons]

theorem splitlines_joinNL (ls : List Str)
    (h : ∀ l ∈ ls, ∀ c ∈ l, c ≠ '\n' ∧ c ≠ '\r') :
    splitlines (joinNL ls) =
      if ls.getLast? = some [] then ls.dropLast else ls := by
  induction ls with
  | nil => simp [joinNL, splitlines]
  | cons l ls ih =>
    cases ls with
    | nil =>
      by_cases hl : l = []
      · subst hl; simp [joinNL, splitlines]
      · have hnl := h l (List.mem_cons_self _ _)
        rw [show joinNL [l] = l from rfl]
        unfold splitlines
        rw [if_neg (by simpa [List.isEmpty_iff] using hl)]
        have := splitlinesGo_append_nonl l hnl [] []
        simp only [List.append_nil] at this
        rw [this, splitlinesGo_nil]
        simp [hl]
    | cons l2 ls2 =>
      have hnl := h l (List.mem_cons_self _ _)
      have hrest : ∀ l' ∈ l2 :: ls2, ∀ c ∈ l', c ≠ '\n' ∧ c ≠ '\r' :=
        fun l' hl' => h l' (List.mem_cons_of_mem _ hl')
      rw [joinNL_cons_cons]
      unfold splitlines
      rw [if_neg (by simp)]
      rw [splitlinesGo_append_nonl l hnl [] ('\n' :: joinNL (l2 :: ls2))]
      rw [show (l.reverse ++ [] : Str) = l.reverse by simp, splitlinesGo_nl]
      simp only [List.reverse_reverse]
      by_cases hempty : joinNL (l2 :: ls2) = []
      · rw [(joinNL_eq_nil_iff _ _).mp hempty |>.2] at *
        rw [(joinNL_eq_nil_iff _ _).mp hempty |>.1] at *
        simp [hempty]
      · rw [if_neg (by simpa [List.isEmpty_iff] using hempty)]
        have ihx := ih hrest
        unfold splitlines at ihx
        rw [if_neg (by simpa [List.isEmpty_iff] using hempty)] at ihx
        rw [ihx]
        have hlast : (l :: l2 :: ls2).getLast? = (l2 :: ls2).getLast? := by
          simp [List.getLast?_cons_cons]
        rw [hlast]
        split <;> simp

end Conv

namespace Conv

theorem nonBlankCount_joinNL (ls : List Str)
    (h : ∀ l ∈ ls, ∀ c ∈ l, c ≠ '\n' ∧ c ≠ '\r') :
    nonBlankCount (joinNL ls) = ((ls.filter (fun l => !isBlank l)).length) := by
  unfold nonBlankCount
  rw [splitlines_joinNL ls h]
  split
  · next hlast =>
    rcases ls with _ | ⟨l, ls⟩
    · simp at hlast
    · have hne : (l :: ls : List Str) ≠ [] := by simp
      have hdecomp := (List.dropLast_append_getLast hne).symm
      have hl2 : (l :: ls).getLast hne = [] := by
        have := List.getLast?_eq_getLast (l :: ls) hne
        rw [hlast] at this
        exact (Option.some.inj this).symm
      conv_rhs => rw [hdecomp]
      rw [hl2, List.filter_append]
      simp [isBlank]
  · rfl

theorem filter_dropWhile_blank (ls : List Str) :
    (ls.dropWhile isBlank).filter (fun l => !isBlank l) =
      ls.filter (fun l => !isBlank l) := by
  induction ls with
  | nil => rfl
  | cons l ls ih =>
    by_cases hb : isBlank l
    · simp [List.dropWhile_cons, hb, List.filter_cons, ih]
    · simp only [Bool.not_eq_true] at hb
      simp [List.dropWhile_cons, hb, List.filter_cons]

theorem length_filter_stripBlankEnds (ls : List Str) :
    ((stripBlankEnds ls).filter (fun l => !isBlank l)).length =
      (ls.filter (fun l => !isBlank l)).length := by
  unfold stripBlankEnds
  rw [List.filter_reverse, List.length_reverse, filter_dropWhile_blank,
    List.filter_reverse, List.length_reverse, filter_dropWhile_blank]

theorem length_filter_map_blank (f : Str → Str) (ls : List Str)
    (hf : ∀ l ∈ ls, isBlank (f l) = isBlank l) :
    ((ls.map f).filter (fun l => !isBlank l)).length =
      (ls.filter (fun l => !isBlank l)).length := by
  induction ls with
  | nil => rfl
  | cons l ls ih =>
    have h1 := hf l (List.mem_cons_self _ _)
    have ih2 := ih (fun l' hl' => hf l' (List.mem_cons_of_mem _ hl'))
    simp only [List.map_cons, List.filter_cons, h1]
    split <;> simp [ih2]

end Conv

namespace Conv

/-! ## The per-line substitutions preserve blankness and introduce no newline -/

theorem hasNonSpace_cons (c : Char) (t : Str) :
    hasNonSpace (c :: t) = (!isSpaceChar c || hasNonSpace t) := by
  simp [hasNonSpace]

theorem hasNonSpace_append (a b : Str) :
    hasNonSpace (a ++ b) = (hasNonSpace a || hasNonSpace b) := by
  simp [hasNonSpace]

theorem takeWhile_cons_head {p : Char → Bool} {l : Str} {c : Char} {t : Str}
    (h : l.takeWhile p = c :: t) : p c = true := by
  cases l with
  | nil => simp [List.takeWhile] at h
  | cons a l =>
    rw [List.takeWhile_cons] at h
    by_cases hp : p a
    · rw [if_pos hp] at h
      injection h with h1 _
      rwa [h1] at hp
    · rw [if_neg hp] at h
      exact absurd h (by simp)

theorem hasNonSpace_subKeywordF (kw : Str) :
    ∀ (fuel : Nat) (s : Str), hasNonSpace s = true →
      hasNonSpace (subKeywordF kw fuel s) = true := by
  intro fuel
  induction fuel with
  | zero => intro s hs; cases s <;> simpa [subKeywordF] using hs
  | succ fuel ih =>
    intro s hs
    cases s with
    | nil => simpa [subKeywordF] using hs
    | cons c rest =>
      rw [subKeywordF]
      split
      · next hsw =>
        rcases htw : ((c :: rest).drop kw.length).takeWhile isWordChar with _ | ⟨w0, ws⟩
        · rw [hasNonSpace_cons] at hs ⊢
          rcases Bool.or_eq_true _ _ |>.mp hs with hc | ht
          · simp [hc]
          · simp [ih rest ht]
        · have hw0 : isSpaceChar w0 = false :=
            isWordChar_not_space (takeWhile_cons_head htw)
          rw [hasNonSpace_append, hasNonSpace_cons, hasNonSpace_append,
            hasNonSpace_cons, hw0]
          simp
      · next hsw =>
        rw [hasNonSpace_cons] at hs ⊢
        rcases Bool.or_eq_true _ _ |>.mp hs with hc | ht
        · simp [hc]
        · simp [ih rest ht]

theorem hasNonSpace_subKeyword (kw s : Str) (hs : hasNonSpace s = true) :
    hasNonSpace (subKeyword kw s) = true :=
  hasNonSpace_subKeywordF kw s.length s hs

theorem hasNonSpace_subOpSpace (e1 : List Char) (op : Char) (e2 : List Char)
    (hop : isSpaceChar op = false) :
    ∀ s, hasNonSpace s = true → hasNonSpace (subOpSpace e1 op e2 s) = true := by
  intro s
  induction s using subOpSpace.induct e1 op e2 with
  | case1 c1 c2 c3 rest hcond ih =>
    intro _
    rw [subOpSpace, if_pos hcond]
    have : c2 = op := by
      rcases Bool.and_eq_true _ _ |>.mp hcond with ⟨h1, _⟩
      rcases Bool.and_eq_true _ _ |>.mp h1 with ⟨_, h2⟩
      simpa using h2
    simp [hasNonSpace_cons, hop]
  | case2 c1 c2 c3 rest hcond ih =>
    intro hs
    rw [subOpSpace, if_neg hcond]
    rw [hasNonSpace_cons] at hs ⊢
    rcases Bool.or_eq_true _ _ |>.mp hs with hc | ht
    · simp [hc]
    · simp [ih ht]
  | case3 s hs3 =>
    intro hs
    rw [subOpSpace.eq_def]
    split
    · exact ((hs3 _ _ _ _ (by rfl)).elim)
    · exact hs

theorem hasNonSpace_subIdentParenF (ident : Str) :
    ∀ (fuel : Nat) (s : Str), hasNonSpace s = true →
      hasNonSpace (subIdentParenF ident fuel s) = true := by
  intro fuel
  induction fuel with
  | zero => intro s hs; cases s <;> simpa [subIdentParenF] using hs
  | succ fuel ih =>
    intro s hs
    cases s with
    | nil => simpa [subIdentParenF] using hs
    | cons c rest =>
      rw [subIdentParenF]
      split
      · split
        · rw [hasNonSpace_append, hasNonSpace_cons]
          have hpar : isSpaceChar '(' = false := by decide
          simp [hpar]
        · rw [hasNonSpace_cons] at hs ⊢
          rcases Bool.or_eq_true _ _ |>.mp hs with hc | ht
          · simp [hc]
          · simp [ih rest ht]
      · rw [hasNonSpace_cons] at hs ⊢
        rcases Bool.or_eq_true _ _ |>.mp hs with hc | ht
        · simp [hc]
        · simp [ih rest ht]

theorem hasNonSpace_subIdentParen (ident s : Str) (hs : hasNonSpace s = true) :
    hasNonSpace (subIdentParen ident s) = true :=
  hasNonSpace_subIdentParenF ident s.length s hs

theorem hasNonSpace_applyKeywordSubs (kws : List Str) :
    ∀ s, hasNonSpace s = true → hasNonSpace (applyKeywordSubs kws s) = true := by
  induction kws with
  | nil => intro s hs; exact hs
  | cons kw kws ih =>
    intro s hs
    exact ih _ (hasNonSpace_subKeyword kw s hs)

theorem hasNonSpace_applyIdentSubs (s : Str) (hs : hasNonSpace s = true) :
    hasNonSpace (applyIdentSubs s) = true := by
  unfold applyIdentSubs crawlIdents
  simp only [List.foldl_cons, List.foldl_nil]
  exact hasNonSpace_subIdentParen _ _ (hasNonSpace_subIdentParen _ _
    (hasNonSpace_subIdentParen _ _ hs))

theorem hasNonSpace_pyOpSubs (s : Str) (hs : hasNonSpace s = true) :
    hasNonSpace (pyOpSubs s) = true := by
  unfold pyOpSubs
  iterate 5 refine hasNonSpace_subOpSpace _ _ _ (by decide) _ ?_
  exact hs

theorem hasNonSpace_jsOpSubs (s : Str) (hs : hasNonSpace s = true) :
    hasNonSpace (jsOpSubs s) = true := by
  unfold jsOpSubs
  iterate 3 refine hasNonSpace_subOpSpace _ _ _ (by decide) _ ?_
  exact hs

theorem hasNonSpace_pythonContentFix (crawl : Bool) (s : Str)
    (hs : hasNonSpace s = true) :
    hasNonSpace (pythonContentFix crawl s) = true := by
  unfold pythonContentFix subMethodChain
  refine hasNonSpace_pyOpSubs _ ?_
  cases crawl
  · simpa using hasNonSpace_applyKeywordSubs _ _ hs
  · simpa using hasNonSpace_applyIdentSubs _ (hasNonSpace_applyKeywordSubs _ _ hs)

theorem hasNonSpace_jsContentFix (s : Str) (hs : hasNonSpace s = true) :
    hasNonSpace (jsContentFix s) = true :=
  hasNonSpace_jsOpSubs _ (hasNonSpace_applyKeywordSubs _ _ hs)

end Conv

namespace Conv

theorem hasNonSpace_pyLstrip (s : Str) : hasNonSpace (pyLstrip s) = hasNonSpace s := by
  induction s with
  | nil => rfl
  | cons c t ih =>
    by_cases hc : isSpaceChar c
    · rw [pyLstrip, List.dropWhile_cons, if_pos hc, hasNonSpace_cons, hc]
      simpa [pyLstrip] using ih
    · simp only [Bool.not_eq_true] at hc
      rw [pyLstrip, List.dropWhile_cons, if_neg (by simp [hc])]

theorem isBlank_spaces_append (k : Nat) (t : Str) :
    isBlank (spaces k ++ t) = isBlank t := by
  induction k with
  | zero => simp [spaces]
  | succ k ih =>
    rw [spaces, List.replicate_succ, List.cons_append]
    show isBlank (' ' :: (List.replicate k ' ' ++ t)) = _
    simp only [isBlank, List.all_cons, show isSpaceChar ' ' = true from rfl,
      Bool.true_and]
    exact ih

theorem isBlank_eq_not_hasNonSpace (s : Str) : isBlank s = !hasNonSpace s := by
  rw [hasNonSpace_eq_not_isBlank, Bool.not_not]

theorem isBlank_emitLine (fix : Str → Str) (mi : Nat) (l : Str)
    (hfix : ∀ t, hasNonSpace t = true → hasNonSpace (fix t) = true) :
    isBlank (emitLine fix mi l) = isBlank l := by
  by_cases hb : isBlank l
  · rw [emitLine, if_pos hb, hb]
    rfl
  · simp only [Bool.not_eq_true] at hb
    rw [emitLine, if_neg (by simp [hb])]
    have hl : hasNonSpace l = true := by
      rw [hasNonSpace_eq_not_isBlank, hb]; rfl
    have hfixed : hasNonSpace (fix (pyLstrip l)) = true :=
      hfix _ (by rwa [hasNonSpace_pyLstrip])
    split
    · rw [isBlank_spaces_append, isBlank_eq_not_hasNonSpace, hfixed, hb]
      rfl
    · rw [List.nil_append, isBlank_eq_not_hasNonSpace, hfixed, hb]
      rfl

end Conv

namespace Conv

/-! ## The substitutions only ever add space characters -/

theorem mem_of_startsWith {p s : Str} (h : startsWith p s = true) :
    ∀ c ∈ p, c ∈ s := by
  rcases startsWith_iff.mp h with ⟨t, rfl⟩
  intro c hc
  exact List.mem_append_left _ hc

theorem mem_subKeywordF (kw : Str) :
    ∀ (fuel : Nat) (s : Str) (c : Char), c ∈ subKeywordF kw fuel s → c ∈ s ∨ c = ' ' := by
  intro fuel
  induction fuel with
  | zero => intro s c hc; cases s <;> exact Or.inl (by simpa [subKeywordF] using hc)
  | succ fuel ih =>
    intro s c hc
    cases s with
    | nil => simp [subKeywordF] at hc
    | cons a rest =>
      rw [subKeywordF] at hc
      split at hc
      · next hsw =>
        rcases htw : ((a :: rest).drop kw.length).takeWhile isWordChar with _ | ⟨w0, ws⟩
        · rw [htw] at hc
          rcases List.mem_cons.mp hc with rfl | hc2
          · exact Or.inl (List.mem_cons_self _ _)
          · rcases ih rest c hc2 with h | h
            · exact Or.inl (List.mem_cons_of_mem _ h)
            · exact Or.inr h
        · rw [htw] at hc
          rcases List.mem_append.mp hc with hkw | hc2
          · exact Or.inl (mem_of_startsWith hsw c hkw)
          · rcases List.mem_cons.mp hc2 with rfl | hc3
            · exact Or.inr rfl
            · rcases List.mem_append.mp hc3 with hw | hc4
              · refine Or.inl ?_
                have hw2 : c ∈ ((a :: rest).drop kw.length).takeWhile isWordChar := by
                  rw [htw]; exact hw
                exact List.drop_subset _ _ ((List.takeWhile_sublist _).subset hw2)
              · rcases ih _ c hc4 with h | h
                · refine Or.inl (List.drop_subset _ _ (List.drop_subset _ _ h))
                · exact Or.inr h
      · rcases List.mem_cons.mp hc with rfl | hc2
        · exact Or.inl (List.mem_cons_self _ _)
        · rcases ih rest c hc2 with h | h
          · exact Or.inl (List.mem_cons_of_mem _ h)
          · exact Or.inr h

theorem mem_subKeyword (kw s : Str) (c : Char) (hc : c ∈ subKeyword kw s) :
    c ∈ s ∨ c = ' ' :=
  mem_subKeywordF kw s.length s c hc

theorem mem_subOpSpace (e1 : List Char) (op : Char) (e2 : List Char) :
    ∀ (s : Str) (c : Char), c ∈ subOpSpace e1 op e2 s → c ∈ s ∨ c = ' ' := by
  intro s
  induction s using subOpSpace.induct e1 op e2 with
  | case1 c1 c2 c3 rest hcond ih =>
    intro c hc
    rw [subOpSpace, if_pos hcond] at hc
    have hop : c2 = op := by
      rcases Bool.and_eq_true _ _ |>.mp hcond with ⟨h1, _⟩
      rcases Bool.and_eq_true _ _ |>.mp h1 with ⟨_, h2⟩
      simpa using h2
    subst hop
    rcases List.mem_cons.mp hc with rfl | hc
    · exact Or.inl (by simp)
    · rcases List.mem_cons.mp hc with rfl | hc
      · exact Or.inr rfl
      · rcases List.mem_cons.mp hc with rfl | hc
        · exact Or.inl (by simp)
        · rcases List.mem_cons.mp hc with rfl | hc
          · exact Or.inr rfl
          · rcases List.mem_cons.mp hc with rfl | hc
            · exact Or.inl (by simp)
            · rcases ih c hc with h | h
              · exact Or.inl (by simp [h])
              · exact Or.inr h
  | case2 c1 c2 c3 rest hcond ih =>
    intro c hc
    rw [subOpSpace, if_neg hcond] at hc
    rcases List.mem_cons.mp hc with rfl | hc
    · exact Or.inl (List.mem_cons_self _ _)
    · rcases ih c hc with h | h
      · exact Or.inl (List.mem_cons_of_mem _ h)
      · exact Or.inr h
  | case3 s hs3 =>
    intro c hc
    rw [subOpSpace.eq_def] at hc
    split at hc
    · exact ((hs3 _ _ _ _ (by rfl)).elim)
    · exact Or.inl hc

theorem mem_subIdentParenF (ident : Str) :
    ∀ (fuel : Nat) (s : Str) (c : Char), c ∈ subIdentParenF ident fuel s →
      c ∈ s ∨ c = ' ' := by
  intro fuel
  induction fuel with
  | zero => intro s c hc; cases s <;> exact Or.inl (by simpa [subIdentParenF] using hc)
  | succ fuel ih =>
    intro s c hc
    cases s with
    | nil => simp [subIdentParenF] at hc
    | cons a rest =>
      rw [subIdentParenF] at hc
      split at hc
      · next hsw =>
        split at hc
        · next rest2 hdw =>
          rcases List.mem_append.mp hc with hkw | hc2
          · exact Or.inl (mem_of_startsWith hsw c hkw)
          · rcases List.mem_cons.mp hc2 with rfl | hc3
            · refine Or.inl ?_
              have hpar : '(' ∈ List.dropWhile isSpaceChar ((a :: rest).drop ident.length) := by
                rw [hdw]; exact List.mem_cons_self _ _
              exact List.drop_subset _ _ (List.dropWhile_subset _ hpar)
            · rcases ih _ c hc3 with h | h
              · refine Or.inl ?_
                have : c ∈ List.dropWhile isSpaceChar ((a :: rest).drop ident.length) := by
                  rw [hdw]; exact List.mem_cons_of_mem _ h
                exact List.drop_subset _ _ (List.dropWhile_subset _ this)
              · exact Or.inr h
        · rcases List.mem_cons.mp hc with rfl | hc2
          · exact Or.inl (List.mem_cons_self _ _)
          · rcases ih rest c hc2 with h | h
            · exact Or.inl (List.mem_cons_of_mem _ h)
            · exact Or.inr h
      · rcases List.mem_cons.mp hc with rfl | hc2
        · exact Or.inl (List.mem_cons_self _ _)
        · rcases ih rest c hc2 with h | h
          · exact Or.inl (List.mem_cons_of_mem _ h)
          · exact Or.inr h

theorem mem_subIdentParen (ident s : Str) (c : Char) (hc : c ∈ subIdentParen ident s) :
    c ∈ s ∨ c = ' ' :=
  mem_subIdentParenF ident s.length s c hc

theorem mem_applyKeywordSubs (kws : List Str) :
    ∀ (s : Str) (c : Char), c ∈ applyKeywordSubs kws s → c ∈ s ∨ c = ' ' := by
  induction kws with
  | nil => intro s c hc; exact Or.inl hc
  | cons kw kws ih =>
    intro s c hc
    rcases ih (subKeyword kw s) c hc with h | h
    · exact mem_subKeyword kw s c h
    · exact Or.inr h

theorem mem_applyIdentSubs (s : Str) (c : Char) (hc : c ∈ applyIdentSubs s) :
    c ∈ s ∨ c = ' ' := by
  unfold applyIdentSubs crawlIdents at hc
  simp only [List.foldl_cons, List.foldl_nil] at hc
  rcases mem_subIdentParen _ _ c hc with h | h
  · rcases mem_subIdentParen _ _ c h with h2 | h2
    · exact mem_subIdentParen _ _ c h2
    · exact Or.inr h2
  · exact Or.inr h

theorem mem_pyOpSubs (s : Str) (c : Char) (hc : c ∈ pyOpSubs s) : c ∈ s ∨ c = ' ' := by
  unfold pyOpSubs at hc
  rcases mem_subOpSpace _ _ _ _ c hc with h | h
  on_goal 2 => exact Or.inr h
  rcases mem_subOpSpace _ _ _ _ c h with h | h
  on_goal 2 => exact Or.inr h
  rcases mem_subOpSpace _ _ _ _ c h with h | h
  on_goal 2 => exact Or.inr h
  rcases mem_subOpSpace _ _ _ _ c h with h | h
  on_goal 2 => exact Or.inr h
  exact mem_subOpSpace _ _ _ _ c h

theorem mem_jsOpSubs (s : Str) (c : Char) (hc : c ∈ jsOpSubs s) : c ∈ s ∨ c = ' ' := by
  unfold jsOpSubs at hc
  rcases mem_subOpSpace _ _ _ _ c hc with h | h
  on_goal 2 => exact Or.inr h
  rcases mem_subOpSpace _ _ _ _ c h with h | h
  on_goal 2 => exact Or.inr h
  exact mem_subOpSpace _ _ _ _ c h

end Conv

namespace Conv

theorem mem_pythonContentFix (crawl : Bool) (s : Str) (c : Char)
    (hc : c ∈ pythonContentFix crawl s) : c ∈ s ∨ c = ' ' := by
  unfold pythonContentFix subMethodChain at hc
  cases crawl with
  | false =>
    rw [if_neg (by simp)] at hc
    rcases mem_pyOpSubs (id (applyKeywordSubs pyKeywords s)) c hc with h | h
    · simp only [id_eq] at h
      exact mem_applyKeywordSubs _ _ c h
    · exact Or.inr h
  | true =>
    rw [if_pos rfl] at hc
    rcases mem_pyOpSubs (applyIdentSubs (applyKeywordSubs pyKeywords s)) c hc with h | h
    · rcases mem_applyIdentSubs _ c h with h2 | h2
      · exact mem_applyKeywordSubs _ _ c h2
      · exact Or.inr h2
    · exact Or.inr h

theorem mem_jsContentFix (s : Str) (c : Char) (hc : c ∈ jsContentFix s) :
    c ∈ s ∨ c = ' ' := by
  unfold jsContentFix at hc
  rcases mem_jsOpSubs (applyKeywordSubs jsKeywords s) c hc with h | h
  · exact mem_applyKeywordSubs _ _ c h
  · exact Or.inr h

/-- Characters of an emitted line: spaces from the re-based indentation plus
characters of the (transformed) original line. -/
theorem mem_emitLine (fix : Str → Str)
    (hfix : ∀ t c, c ∈ fix t → c ∈ t ∨ c = ' ')
    (mi : Nat) (l : Str) (c : Char) (hc : c ∈ emitLine fix mi l) :
    c ∈ l ∨ c = ' ' := by
  unfold emitLine at hc
  split at hc
  · simp at hc
  · rcases List.mem_append.mp hc with h | h
    · split at h
      · right
        simpa [spaces, List.eq_of_mem_replicate h] using List.eq_of_mem_replicate h
      · simp at h
    · rcases hfix _ c h with h2 | h2
      · exact Or.inl (List.dropWhile_subset _ h2)
      · exact Or.inr h2

end Conv

namespace Conv

theorem splitlinesGo_crnl (acc rest : Str) :
    splitlinesGo acc ('\r' :: '\n' :: rest) =
      acc.reverse :: (if rest.isEmpty then [] else splitlinesGo [] rest) := rfl

theorem splitlinesGo_cr (acc rest : Str) (h : ∀ r2, rest ≠ '\n' :: r2) :
    splitlinesGo acc ('\r' :: rest) =
      acc.reverse :: (if rest.isEmpty then [] else splitlinesGo [] rest) := by
  conv_lhs => rw [splitlinesGo.eq_def]
  split
  any_goals simp_all
  rename_i s0 cc rr hn1 hn2 heq
  exact absurd heq.1.symm hn2

/-- Every character of every line of `splitlinesGo acc s` avoids the line
terminators, provided the seed `acc` does. -/
theorem splitlinesGo_no_newline (acc s : Str)
    (hacc : ∀ c ∈ acc, c ≠ '\n' ∧ c ≠ '\r') :
    ∀ l ∈ splitlinesGo acc s, ∀ c ∈ l, c ≠ '\n' ∧ c ≠ '\r' := by
  induction acc, s using splitlinesGo.induct with
  | case1 acc =>
    intro l hl c hc
    rw [splitlinesGo_nil] at hl
    simp only [List.mem_singleton] at hl
    subst hl
    exact hacc c (List.mem_reverse.mp hc)
  | case2 acc rest ih =>
    intro l hl c hc
    rw [splitlinesGo_crnl] at hl
    rcases List.mem_cons.mp hl with rfl | hl2
    · exact hacc c (List.mem_reverse.mp hc)
    · split at hl2
      · simp at hl2
      · exact ih (by simp) l hl2 c hc
  | case3 acc rest ih =>
    intro l hl c hc
    rw [splitlinesGo_nl] at hl
    rcases List.mem_cons.mp hl with rfl | hl2
    · exact hacc c (List.mem_reverse.mp hc)
    · split at hl2
      · simp at hl2
      · exact ih (by simp) l hl2 c hc
  | case4 acc rest hno ih =>
    intro l hl c hc
    rw [splitlinesGo_cr acc rest (fun r2 hr2 => hno r2 hr2)] at hl
    rcases List.mem_cons.mp hl with rfl | hl2
    · exact hacc c (List.mem_reverse.mp hc)
    · split at hl2
      · simp at hl2
      · exact ih (by simp) l hl2 c hc
  | case5 acc a rest h1 h2 h3 ih =>
    intro l hl c hc
    have ha1 : a ≠ '\n' := fun he => h2 he
    have ha2 : a ≠ '\r' := fun he => h3 he
    rw [splitlinesGo_other ha1 ha2] at hl
    refine ih (fun d hd => ?_) l hl c hc
    rcases List.mem_cons.mp hd with rfl | hd2
    · exact ⟨ha1, ha2⟩
    · exact hacc d hd2

/-- Lines of `splitlines s` never contain a line terminator. -/
theorem splitlines_no_newline (s : Str) :
    ∀ l ∈ splitlines s, ∀ c ∈ l, c ≠ '\n' ∧ c ≠ '\r' := by
  unfold splitlines
  split
  · simp
  · exact splitlinesGo_no_newline [] s (by simp)

end Conv

namespace Conv

theorem stripBlankEnds_subset (ls : List Str) : ∀ l ∈ stripBlankEnds ls, l ∈ ls := by
  intro l hl
  unfold stripBlankEnds at hl
  have h1 := List.mem_reverse.mp hl
  have h2 := List.dropWhile_subset _ h1
  have h3 := List.mem_reverse.mp h2
  exact List.dropWhile_subset _ h3

/-- The non-blank line count of any of the re-indentation branches equals the
input's, provided the per-line fix only adds spaces and keeps a non-space
character alive. -/
theorem nonBlankCount_branch (x : Str) (fix : Str → Str)
    (hfixmem : ∀ t c, c ∈ fix t → c ∈ t ∨ c = ' ')
    (hfixns : ∀ t, hasNonSpace t = true → hasNonSpace (fix t) = true)
    (mi : Nat) :
    nonBlankCount (joinNL ((stripBlankEnds (splitlines x)).map (emitLine fix mi))) =
      nonBlankCount x := by
  have hnl : ∀ l ∈ stripBlankEnds (splitlines x), ∀ c ∈ l, c ≠ '\n' ∧ c ≠ '\r' :=
    fun l hl => splitlines_no_newline x l (stripBlankEnds_subset _ l hl)
  have hmapnl : ∀ l ∈ (stripBlankEnds (splitlines x)).map (emitLine fix mi),
      ∀ c ∈ l, c ≠ '\n' ∧ c ≠ '\r' := by
    intro l hl c hc
    rcases List.mem_map.mp hl with ⟨l0, hl0, rfl⟩
    rcases mem_emitLine fix hfixmem mi l0 c hc with h | h
    · exact hnl l0 hl0 c h
    · subst h; exact ⟨by decide, by decide⟩
  rw [nonBlankCount_joinNL _ hmapnl,
    length_filter_map_blank _ _ (fun l _ => isBlank_emitLine fix mi l hfixns),
    length_filter_stripBlankEnds]
  rfl

end Conv

namespace Conv

/-- C1 amended: the number of non-blank lines is preserved by every
reformatting path except the two the counterexample exhibits — the JSON
re-serialization (excluded here by requiring the parse to fail when the
language is `json`) and the Python import synthesis (excluded by requiring
that the synthesis does not fire). -/
theorem C1_linecount_amended (x L : Str) (u : Option Str)
    (hjson : L = strL "json" → json_loads x = none)
    (hsynth : L = strL "python" → pythonSynthFires x u = false) :
    nonBlankCount (process_code_block x L u).1 = nonBlankCount x := by
  unfold process_code_block
  by_cases h5 : x.length < 5
  · simp [h5]
  · rw [if_neg h5]
    by_cases hl : (stripBlankEnds (splitlines x)).isEmpty
    · simp [hl]
    · simp only [hl, if_false]
      by_cases hf : ((stripBlankEnds (splitlines x)).filter (fun l => !isBlank l)).isEmpty
      · simp [hf]
      · simp only [hf, if_false]
        by_cases hpy : L = strL "python"
        · simp only [hpy, if_true, if_pos rfl]
          have hfire := hsynth hpy
          unfold pythonSynthFires at hfire
          rw [if_neg h5] at hfire
          simp only [hl, if_false, hf] at hfire
          have hbody : maybeInsertImport (urlHasCrawl u) (pythonFormattedBody x u) =
              pythonFormattedBody x u := by
            unfold maybeInsertImport
            split
            · next hcond =>
              cases hfind : findImportFrom (pythonFormattedBody x u) with
              | none => rfl
              | some p =>
                exfalso
                rw [hfind] at hfire
                simp only [Option.isSome_some, Bool.and_true] at hfire
                rw [hcond] at hfire
                simp at hfire
            · rfl
          show nonBlankCount (maybeInsertImport (urlHasCrawl u) (pythonFormattedBody x u)) = _
          rw [hbody]
          exact nonBlankCount_branch x _ (mem_pythonContentFix (urlHasCrawl u))
            (hasNonSpace_pythonContentFix (urlHasCrawl u)) _
        · rw [if_neg hpy]
          by_cases hjs : L = strL "javascript" ∨ L = strL "typescript" ∨
              L = strL "jsx" ∨ L = strL "tsx"
          · rcases hjs with h | h | h | h <;>
              (subst h
               exact nonBlankCount_branch x _ mem_jsContentFix hasNonSpace_jsContentFix _)
          · push_neg at hjs
            obtain ⟨h1, h2, h3, h4⟩ := hjs
            by_cases hj : L = strL "json"
            · subst hj
              rw [hjson rfl]
              exact nonBlankCount_branch x id (fun t c hc => Or.inl hc) (fun t h => h) _
            · have hnjs : ¬((decide (L = strL "javascript") || decide (L = strL "typescript") ||
                  decide (L = strL "jsx") || decide (L = strL "tsx")) = true) := by
                simp [h1, h2, h3, h4]
              rw [if_neg hnjs]
              by_cases hjy : (decide (L = strL "json") || decide (L = strL "yaml")) = true
              · rw [if_pos hjy, if_neg hj]
                exact nonBlankCount_branch x id (fun t c hc => Or.inl hc) (fun t h => h)
                  (minIndentOf ((stripBlankEnds (splitlines x)).filter (fun l => !isBlank l)))
              · rw [if_neg hjy]
                exact nonBlankCount_branch x id (fun t c hc => Or.inl hc) (fun t h => h)
                  (minIndentOf ((stripBlankEnds (splitlines x)).filter (fun l => !isBlank l)))

/-- Witness for the amended C1 at a concrete input. -/
theorem C1_witness :
    nonBlankCount ((process_code_block (strL "abc def") (strL "rust") none).1) =
      nonBlankCount (strL "abc def") :=
  C1_linecount_amended (strL "abc def") (strL "rust") none
    (fun h => absurd h (by decide)) (fun h => absurd h (by decide))

end Conv

namespace Conv

theorem dropWhile_head_neg {α : Type} {p : α → Bool} {l : List α} {c : α} {t : List α}
    (h : l.dropWhile p = c :: t) : p c = false := by
  induction l with
  | nil => simp at h
  | cons a l ih =>
    rw [List.dropWhile_cons] at h
    split at h
    · exact ih h
    · next hp =>
      injection h with h1 _
      subst h1
      simpa using hp

theorem findImportFromGo_some_spec (s : Str) :
    ∀ (t : Str) (i : Nat) (st : Bool) (p : Nat),
      s.drop i = t →
      (st = true ↔ lineStartAt s i) →
      findImportFromGo t i st = some p →
      i ≤ p ∧ lineStartAt s p ∧ importFromAt s p ∧
        (∀ q, i ≤ q → q < p → ¬(lineStartAt s q ∧ importFromAt s q)) := by
  intro t
  induction t with
  | nil => intro i st p _ _ hgo; simp [findImportFromGo] at hgo
  | cons c rest ih =>
    intro i st p hdrop hst hgo
    rw [findImportFromGo] at hgo
    have hget : s.get? i = some c := by
      have h0 : (s.drop i).get? 0 = some c := by rw [hdrop]; rfl
      rwa [List.get?_drop, Nat.add_zero] at h0
    have hdrop1 : s.drop (i + 1) = rest := by
      have h2 := List.drop_drop 1 i s
      rw [hdrop] at h2
      simp only [List.drop_succ_cons, List.drop_zero] at h2
      exact h2.symm
    split at hgo
    · next hcond =>
      injection hgo with hgo
      subst hgo
      rcases Bool.and_eq_true _ _ |>.mp hcond with ⟨hst1, hsw⟩
      refine ⟨Nat.le_refl _, hst.mp hst1, ?_, ?_⟩
      · unfold importFromAt
        rw [hdrop]
        exact Bool.or_eq_true _ _ |>.mp hsw
      · intro q hq1 hq2
        omega
    · next hcond =>
      have hnext : (decide (c = '\n') = true) ↔ lineStartAt s (i + 1) := by
        constructor
        · intro hd
          right
          rw [Nat.add_sub_cancel, hget]
          simp at hd
          rw [hd]
        · rintro (habs | hnl)
          · omega
          · rw [Nat.add_sub_cancel, hget] at hnl
            injection hnl with hnl
            simp [hnl]
      obtain ⟨hle, hls, hif, hmin⟩ := ih (i + 1) _ p hdrop1 hnext hgo
      refine ⟨by omega, hls, hif, ?_⟩
      intro q hq1 hq2
      by_cases hqi : q = i
      · subst hqi
        rintro ⟨hq3, hq4⟩
        rcases Bool.and_eq_false_iff.mp (Bool.not_eq_true _ |>.mp hcond) with h | h
        · exact absurd (hst.mpr hq3) (by simp [h])
        · unfold importFromAt at hq4
          rw [hdrop] at hq4
          rcases hq4 with h4 | h4 <;> simp [h4] at h
      · exact hmin q (by omega) hq2

theorem findImportFrom_some_spec (s : Str) (p : Nat)
    (h : findImportFrom s = some p) :
    lineStartAt s p ∧ importFromAt s p ∧
      (∀ q, q < p → ¬(lineStartAt s q ∧ importFromAt s q)) := by
  obtain ⟨_, h1, h2, h3⟩ := findImportFromGo_some_spec s s 0 true p rfl
    (by simp [lineStartAt]) h
  exact ⟨h1, h2, fun q hq => h3 q (Nat.zero_le _) hq⟩

theorem stripBlankEnds_head_not_blank (ls : List Str) (l : Str) (t : List Str)
    (h : stripBlankEnds ls = l :: t) : isBlank l = false := by
  unfold stripBlankEnds at h
  obtain ⟨pre, hpre⟩ := List.dropWhile_suffix (l := (ls.dropWhile isBlank).reverse)
    (p := isBlank)
  have hD : ls.dropWhile isBlank = l :: (t ++ pre.reverse) := by
    have := congrArg List.reverse hpre
    rw [List.reverse_append, List.reverse_reverse] at this
    rw [← this, h]
    simp
  exact dropWhile_head_neg hD

/-- C7 amended: under the synthesis guards, when some line starts with
`import` or `from` the synthesized import is spliced in exactly at the first
such line start; when no line does, nothing is inserted and the block is
returned as formatted. -/
theorem C7_import_synthesis_amended (x : Str) (u : Option Str)
    (h5 : ¬ x.length < 5)
    (hl : stripBlankEnds (splitlines x) ≠ [])
    (hAWC : containsSub (pythonFormattedBody x u) (strL "AsyncWebCrawler") = true)
    (hNoImp : containsSub (pythonFormattedBody x u)
      (strL "from crawl4ai import AsyncWebCrawler") = false)
    (hcrawl : urlHasCrawl u = true) :
    (findImportFrom (pythonFormattedBody x u) = none ∧
        (process_code_block x (strL "python") u).1 = pythonFormattedBody x u) ∨
      (∃ p, findImportFrom (pythonFormattedBody x u) = some p ∧
        lineStartAt (pythonFormattedBody x u) p ∧
        importFromAt (pythonFormattedBody x u) p ∧
        (∀ q, q < p → ¬(lineStartAt (pythonFormattedBody x u) q ∧
          importFromAt (pythonFormattedBody x u) q)) ∧
        (process_code_block x (strL "python") u).1 =
          (pythonFormattedBody x u).take p ++ importLine ++
            (pythonFormattedBody x u).drop p) := by
  obtain ⟨l0, t0, hlt⟩ : ∃ l0 t0, stripBlankEnds (splitlines x) = l0 :: t0 := by
    rcases hx : stripBlankEnds (splitlines x) with _ | ⟨a, b⟩
    · exact absurd hx hl
    · exact ⟨a, b, rfl⟩
  have hfilter : ((stripBlankEnds (splitlines x)).filter (fun l => !isBlank l)).isEmpty = false := by
    rw [hlt]
    have := stripBlankEnds_head_not_blank (splitlines x) l0 t0 hlt
    simp [List.filter_cons, this]
  have hred : (process_code_block x (strL "python") u).1 =
      maybeInsertImport (urlHasCrawl u) (pythonFormattedBody x u) := by
    unfold process_code_block
    rw [if_neg h5]
    rw [if_neg (by simpa [List.isEmpty_iff] using hl)]
    rw [if_neg (by simp [hfilter])]
    rw [if_pos rfl]
    rfl
  rw [hred]
  unfold maybeInsertImport
  rw [if_pos (by simp [hcrawl, hAWC, hNoImp])]
  cases hfind : findImportFrom (pythonFormattedBody x u) with
  | none => exact Or.inl ⟨rfl, rfl⟩
  | some p =>
    obtain ⟨hls, hif, hmin⟩ := findImportFrom_some_spec _ p hfind
    exact Or.inr ⟨p, rfl, hls, hif, hmin, rfl⟩

/-- Witness for the amended C7: a block with an existing `import` line gets
the synthesized import spliced in at position 0, the first line start. -/
theorem C7_witness :
    (findImportFrom (pythonFormattedBody (strL "import os\ncrawler = AsyncWebCrawler()")
        (some (strL "https://docs.crawl4ai.com/"))) = none ∧
      (process_code_block (strL "import os\ncrawler = AsyncWebCrawler()") (strL "python")
        (some (strL "https://docs.crawl4ai.com/"))).1 =
        pythonFormattedBody (strL "import os\ncrawler = AsyncWebCrawler()")
          (some (strL "https://docs.crawl4ai.com/"))) ∨
    (∃ p, findImportFrom (pythonFormattedBody (strL "import os\ncrawler = AsyncWebCrawler()")
        (some (strL "https://docs.crawl4ai.com/"))) = some p ∧
      lineStartAt (pythonFormattedBody (strL "import os\ncrawler = AsyncWebCrawler()")
        (some (strL "https://docs.crawl4ai.com/"))) p ∧
      importFromAt (pythonFormattedBody (strL "import os\ncrawler = AsyncWebCrawler()")
        (some (strL "https://docs.crawl4ai.com/"))) p ∧
      (∀ q, q < p → ¬(lineStartAt (pythonFormattedBody (strL "import os\ncrawler = AsyncWebCrawler()")
        (some (strL "https://docs.crawl4ai.com/"))) q ∧
        importFromAt (pythonFormattedBody (strL "import os\ncrawler = AsyncWebCrawler()")
          (some (strL "https://docs.crawl4ai.com/"))) q)) ∧
      (process_code_block (strL "import os\ncrawler = AsyncWebCrawler()") (strL "python")
        (some (strL "https://docs.crawl4ai.com/"))).1 =
        (pythonFormattedBody (strL "import os\ncrawler = AsyncWebCrawler()")
          (some (strL "https://docs.crawl4ai.com/"))).take p ++ importLine ++
          (pythonFormattedBody (strL "import os\ncrawler = AsyncWebCrawler()")
            (some (strL "https://docs.crawl4ai.com/"))).drop p) :=
  C7_import_synthesis_amended (strL "import os\ncrawler = AsyncWebCrawler()")
    (some (strL "https://docs.crawl4ai.com/")) (by decide) (by decide) (by decide)
    (by decide) (by decide)

end Conv

namespace Conv

/-! ## Idempotence machinery for the indentation-only path -/

theorem pyLstrip_spaces_append (k : Nat) (t : Str) :
    pyLstrip (spaces k ++ t) = pyLstrip t := by
  induction k with
  | zero => simp [spaces]
  | succ k ih =>
    rw [spaces, List.replicate_succ, List.cons_append]
    show pyLstrip (' ' :: (List.replicate k ' ' ++ t)) = _
    rw [pyLstrip, List.dropWhile_cons, if_pos (by decide)]
    exact ih

theorem pyLstrip_idem (s : Str) : pyLstrip (pyLstrip s) = pyLstrip s := by
  unfold pyLstrip
  cases hd : s.dropWhile isSpaceChar with
  | nil => rfl
  | cons c t =>
    rw [List.dropWhile_cons, if_neg (by simp [dropWhile_head_neg hd])]

theorem pyLstrip_head_not_space {s : Str} {c : Char} {t : Str}
    (h : pyLstrip s = c :: t) : isSpaceChar c = false :=
  dropWhile_head_neg h

theorem pyLstrip_ne_nil_of_not_blank {s : Str} (h : isBlank s = false) :
    pyLstrip s ≠ [] := by
  intro he
  rw [pyLstrip, List.dropWhile_eq_nil_iff] at he
  have hb : isBlank s = true := List.all_eq_true.mpr (fun c hc => he c hc)
  rw [hb] at h
  exact absurd h (by simp)

theorem indentOf_spaces_append {t : Str} (k : Nat) :
    indentOf (spaces k ++ t) = k + indentOf t := by
  induction k with
  | zero => simp [spaces]
  | succ k ih =>
    rw [spaces, List.replicate_succ, List.cons_append]
    show indentOf (' ' :: (List.replicate k ' ' ++ t)) = _
    rw [indentOf, List.takeWhile_cons, if_pos (by decide)]
    simp only [List.length_cons]
    have : indentOf (List.replicate k ' ' ++ t) = k + indentOf t := ih
    rw [show (List.takeWhile isSpaceChar (List.replicate k ' ' ++ t)).length =
      indentOf (List.replicate k ' ' ++ t) from rfl, this]
    omega

theorem indentOf_head_not_space {s : Str} {c : Char} {t : Str}
    (h : s = c :: t) (hc : isSpaceChar c = false) : indentOf s = 0 := by
  subst h
  rw [indentOf, List.takeWhile_cons, if_neg (by simp [hc])]
  rfl

theorem foldl_min_le_mem (ns : List Nat) : ∀ (n m : Nat), m ∈ n :: ns →
    ns.foldl Nat.min n ≤ m := by
  induction ns with
  | nil => intro n m hm; simp at hm; simp [hm]
  | cons a as ih =>
    intro n m hm
    simp only [List.foldl_cons]
    rcases List.mem_cons.mp hm with rfl | hm2
    · exact le_trans (ih _ _ (List.mem_cons_self _ _)) (Nat.min_le_left _ _)
    · rcases List.mem_cons.mp hm2 with rfl | hm3
      · exact le_trans (ih _ _ (List.mem_cons_self _ _)) (Nat.min_le_right _ _)
      · exact ih _ _ (List.mem_cons_of_mem _ hm3)

theorem foldl_min_mem (ns : List Nat) : ∀ n, ns.foldl Nat.min n ∈ n :: ns := by
  induction ns with
  | nil => intro n; simp
  | cons a as ih =>
    intro n
    simp only [List.foldl_cons]
    rcases List.mem_cons.mp (ih (Nat.min n a)) with h | h
    · have hmin : Nat.min n a = n ∨ Nat.min n a = a := by
        unfold Nat.min
        rw [min_def]
        split <;> simp
      rcases hmin with he | he
      · rw [h, he]; exact List.mem_cons_self _ _
      · rw [h, he]; exact List.mem_cons_of_mem _ (List.mem_cons_self _ _)
    · exact List.mem_cons_of_mem _ (List.mem_cons_of_mem _ h)

theorem minIndentOf_le (ne : List Str) (l : Str) (hl : l ∈ ne) :
    minIndentOf ne ≤ indentOf l := by
  unfold minIndentOf
  have hm : indentOf l ∈ ne.map indentOf := List.mem_map_of_mem _ hl
  rcases hmap : ne.map indentOf with _ | ⟨n, ns⟩
  · rw [hmap] at hm; simp at hm
  · rw [hmap] at hm
    exact foldl_min_le_mem ns n _ hm

theorem minIndentOf_mem (ne : List Str) (hne : ne ≠ []) :
    ∃ l ∈ ne, indentOf l = minIndentOf ne := by
  unfold minIndentOf
  rcases hmap : ne.map indentOf with _ | ⟨n, ns⟩
  · exact absurd (List.map_eq_nil.mp hmap) hne
  · have : List.foldl Nat.min n ns ∈ ne.map indentOf := by
      rw [hmap]; exact foldl_min_mem ns n
    rcases List.mem_map.mp this with ⟨l, hl, he⟩
    exact ⟨l, hl, he⟩

end Conv

namespace Conv

theorem stripBlankEnds_getLast?_not_blank (ls : List Str) (l : Str)
    (h : (stripBlankEnds ls).getLast? = some l) : isBlank l = false := by
  unfold stripBlankEnds at h
  rw [List.getLast?_reverse] at h
  cases hd : List.dropWhile isBlank ((ls.dropWhile isBlank).reverse) with
  | nil => rw [hd] at h; simp at h
  | cons a t =>
    rw [hd] at h
    simp only [List.head?_cons, Option.some.injEq] at h
    subst h
    exact dropWhile_head_neg hd

theorem stripBlankEnds_eq_self (ls : List Str)
    (hh : ∀ l, ls.head? = some l → isBlank l = false)
    (hl : ∀ l, ls.getLast? = some l → isBlank l = false) :
    stripBlankEnds ls = ls := by
  cases ls with
  | nil => rfl
  | cons a t =>
    have ha : isBlank a = false := hh a rfl
    unfold stripBlankEnds
    have hda : List.dropWhile isBlank (a :: t) = a :: t := by
      rw [List.dropWhile_cons, if_neg (by simp [ha])]
    rw [hda]
    cases hr : (a :: t).reverse with
    | nil => simp at hr
    | cons b r =>
      have hb : isBlank b = false := by
        refine hl b ?_
        rw [← List.head?_reverse, hr]
        rfl
      have hdb : List.dropWhile isBlank (b :: r) = b :: r := by
        rw [List.dropWhile_cons, if_neg (by simp [hb])]
      rw [hdb, ← hr, List.reverse_reverse]

theorem emitLine_eq_spaces (fix : Str → Str) (mi : Nat) (l : Str)
    (hb : isBlank l = false) (hle : mi ≤ indentOf l) :
    emitLine fix mi l = spaces (indentOf l - mi) ++ fix (pyLstrip l) := by
  rw [emitLine, if_neg (by simp [hb])]
  congr 1
  split
  · rfl
  · next hgt =>
    have h0 : indentOf l - mi = 0 := by omega
    rw [h0]
    rfl

theorem emitLine_id_idem (mi : Nat) (l : Str) (hb : isBlank l = false)
    (hle : mi ≤ indentOf l) :
    emitLine id 0 (emitLine id mi l) = emitLine id mi l := by
  obtain ⟨c, t, hct⟩ : ∃ c t, pyLstrip l = c :: t := by
    rcases hpl : pyLstrip l with _ | ⟨c, t⟩
    · exact absurd hpl (pyLstrip_ne_nil_of_not_blank hb)
    · exact ⟨c, t, rfl⟩
  have hc : isSpaceChar c = false := pyLstrip_head_not_space hct
  rw [emitLine_eq_spaces id mi l hb hle]
  simp only [id_eq]
  have hbe : isBlank (spaces (indentOf l - mi) ++ pyLstrip l) = false := by
    rw [isBlank_spaces_append, hct]
    exact isBlank_false_of_mem (List.mem_cons_self _ _) hc
  have hind : indentOf (spaces (indentOf l - mi) ++ pyLstrip l) = indentOf l - mi := by
    rw [hct, indentOf_spaces_append, indentOf_head_not_space rfl hc]
    omega
  rw [emitLine_eq_spaces id 0 _ hbe (Nat.zero_le _), hind, Nat.sub_zero]
  simp only [id_eq]
  rw [pyLstrip_spaces_append, pyLstrip_idem]

theorem process_cb_generic (y L : Str) (u : Option Str)
    (h1 : L ≠ strL "python") (h2 : L ≠ strL "javascript") (h3 : L ≠ strL "typescript")
    (h4 : L ≠ strL "jsx") (h5 : L ≠ strL "tsx") (h6 : L ≠ strL "json") :
    (process_code_block y L u).1 =
      if y.length < 5 then y
      else if (stripBlankEnds (splitlines y)).isEmpty then y
      else if ((stripBlankEnds (splitlines y)).filter (fun l => !isBlank l)).isEmpty then y
      else joinNL ((stripBlankEnds (splitlines y)).map (emitLine id
        (minIndentOf ((stripBlankEnds (splitlines y)).filter (fun l => !isBlank l))))) := by
  unfold process_code_block
  by_cases hy5 : y.length < 5
  · simp [hy5]
  · rw [if_neg hy5, if_neg hy5]
    by_cases hl : (stripBlankEnds (splitlines y)).isEmpty
    · simp [hl]
    · simp only [hl, if_false]
      by_cases hf : ((stripBlankEnds (splitlines y)).filter (fun l => !isBlank l)).isEmpty
      · simp [hf]
      · simp only [hf, if_false]
        rw [if_neg h1]
        have hnjs : ¬((decide (L = strL "javascript") || decide (L = strL "typescript") ||
            decide (L = strL "jsx") || decide (L = strL "tsx")) = true) := by
          simp [h2, h3, h4, h5]
        rw [if_neg hnjs]
        by_cases hjy : (decide (L = strL "json") || decide (L = strL "yaml")) = true
        · rw [if_pos hjy, if_neg h6]
          simp
        · rw [if_neg hjy]
          simp

end Conv

namespace Conv

theorem generic_roundtrip (lines : List Str)
    (hnn : ∀ l ∈ lines, ∀ c ∈ l, c ≠ '\n' ∧ c ≠ '\r')
    (hhead : ∀ l, lines.head? = some l → isBlank l = false)
    (hlast : ∀ l, lines.getLast? = some l → isBlank l = false)
    (hfil : lines.filter (fun l => !isBlank l) ≠ []) :
    splitlines (joinNL (lines.map (emitLine id
        (minIndentOf (lines.filter (fun l => !isBlank l)))))) =
      lines.map (emitLine id (minIndentOf (lines.filter (fun l => !isBlank l)))) ∧
    stripBlankEnds (lines.map (emitLine id
        (minIndentOf (lines.filter (fun l => !isBlank l))))) =
      lines.map (emitLine id (minIndentOf (lines.filter (fun l => !isBlank l)))) ∧
    (lines.map (emitLine id (minIndentOf (lines.filter (fun l => !isBlank l))))).filter
        (fun l => !isBlank l) ≠ [] ∧
    minIndentOf ((lines.map (emitLine id
        (minIndentOf (lines.filter (fun l => !isBlank l))))).filter
        (fun l => !isBlank l)) = 0 ∧
    (lines.map (emitLine id
        (minIndentOf (lines.filter (fun l => !isBlank l))))).map (emitLine id 0) =
      lines.map (emitLine id (minIndentOf (lines.filter (fun l => !isBlank l)))) := by
  set mi := minIndentOf (lines.filter (fun l => !isBlank l)) with hmi
  set ls2 := lines.map (emitLine id mi) with hls2
  have hfixns : ∀ t, hasNonSpace t = true → hasNonSpace (id t) = true := fun _ h => h
  have hfixmem : ∀ (t : Str) (c : Char), c ∈ id t → c ∈ t ∨ c = ' ' :=
    fun _ _ h => Or.inl h
  have hb_emit : ∀ l, isBlank (emitLine id mi l) = isBlank l :=
    fun l => isBlank_emitLine id mi l hfixns
  have hnn2 : ∀ l ∈ ls2, ∀ c ∈ l, c ≠ '\n' ∧ c ≠ '\r' := by
    intro l2 h2 c hc
    rw [hls2] at h2
    obtain ⟨l, hl, rfl⟩ := List.mem_map.mp h2
    rcases mem_emitLine id hfixmem mi l c hc with h | h
    · exact hnn l hl c h
    · subst h
      exact ⟨by decide, by decide⟩
  have hne : lines ≠ [] := by
    intro h
    rw [h] at hfil
    simp at hfil
  obtain ⟨l0, lt, hcons⟩ := List.exists_cons_of_ne_nil hne
  have hb0 : isBlank l0 = false := hhead l0 (by rw [hcons]; rfl)
  obtain ⟨llst, hllst⟩ := Option.isSome_iff_exists.mp (List.getLast?_isSome.mpr hne)
  have hblst : isBlank llst = false := hlast llst hllst
  have hgl_map : ls2.getLast? = lines.getLast?.map (emitLine id mi) := by
    rw [← List.head?_reverse, ← List.head?_reverse, hls2, ← List.map_reverse,
      List.head?_map]
  have hgl2 : ls2.getLast? = some (emitLine id mi llst) := by
    rw [hgl_map, hllst]
    rfl
  have hhd2 : ls2.head? = some (emitLine id mi l0) := by
    rw [hls2, hcons]
    rfl
  have h1 : splitlines (joinNL ls2) = ls2 := by
    have hcond : ¬(ls2.getLast? = some ([] : Str)) := by
      rw [hgl2]
      intro hceq
      have heq : emitLine id mi llst = [] := by injection hceq
      have hbe : isBlank (emitLine id mi llst) = false := by
        rw [hb_emit]
        exact hblst
      rw [heq] at hbe
      exact absurd hbe (by decide)
    rw [splitlines_joinNL ls2 hnn2, if_neg hcond]
  have h2 : stripBlankEnds ls2 = ls2 := by
    refine stripBlankEnds_eq_self ls2 ?_ ?_
    · intro l hlh
      rw [hhd2] at hlh
      injection hlh with heq
      rw [← heq, hb_emit]
      exact hb0
    · intro l hlh
      rw [hgl2] at hlh
      injection hlh with heq
      rw [← heq, hb_emit]
      exact hblst
  have hmem0 : emitLine id mi l0 ∈ ls2 := by
    rw [hls2, hcons, List.map_cons]
    exact List.mem_cons_self _ _
  have hmemf0 : emitLine id mi l0 ∈ ls2.filter (fun l => !isBlank l) := by
    refine List.mem_filter.mpr ⟨hmem0, ?_⟩
    simp [hb_emit l0, hb0]
  have h3 : ls2.filter (fun l => !isBlank l) ≠ [] := List.ne_nil_of_mem hmemf0
  obtain ⟨lstar, hstar_mem, hstar_ind⟩ :=
    minIndentOf_mem (lines.filter (fun l => !isBlank l)) hfil
  obtain ⟨hstar_lines, hstar_nb⟩ := List.mem_filter.mp hstar_mem
  have hstar_b : isBlank lstar = false := by simpa using hstar_nb
  obtain ⟨c, t, hct⟩ : ∃ c t, pyLstrip lstar = c :: t := by
    rcases hpl : pyLstrip lstar with _ | ⟨c, t⟩
    · exact absurd hpl (pyLstrip_ne_nil_of_not_blank hstar_b)
    · exact ⟨c, t, rfl⟩
  have hc : isSpaceChar c = false := pyLstrip_head_not_space hct
  have hestar : emitLine id mi lstar = pyLstrip lstar := by
    rw [emitLine_eq_spaces id mi lstar hstar_b hstar_ind.ge]
    simp [hstar_ind, spaces]
  have hind_estar : indentOf (emitLine id mi lstar) = 0 := by
    rw [hestar, hct]
    exact indentOf_head_not_space rfl hc
  have hestar_mem : emitLine id mi lstar ∈ ls2.filter (fun l => !isBlank l) := by
    refine List.mem_filter.mpr ⟨?_, ?_⟩
    · rw [hls2]
      exact List.mem_map_of_mem _ hstar_lines
    · simp [hb_emit lstar, hstar_b]
  have h4 : minIndentOf (ls2.filter (fun l => !isBlank l)) = 0 := by
    have hle := minIndentOf_le _ _ hestar_mem
    rw [hind_estar] at hle
    exact Nat.le_zero.mp hle
  have h5 : ls2.map (emitLine id 0) = ls2 := by
    rw [hls2, List.map_map]
    refine List.map_congr_left ?_
    intro l hl
    simp only [Function.comp_apply]
    by_cases hbl : isBlank l = true
    · have he : emitLine id mi l = [] := by
        rw [emitLine, if_pos (by simp [hbl])]
      rw [he, emitLine, if_pos (by decide)]
    · have hbl' : isBlank l = false := by simpa using hbl
      have hle : mi ≤ indentOf l :=
        minIndentOf_le _ _ (List.mem_filter.mpr ⟨hl, by simp [hbl']⟩)
      exact emitLine_id_idem mi l hbl' hle
  exact ⟨h1, h2, h3, h4, h5⟩

end Conv

namespace Conv

/-- C2 amended: reformatting is idempotent on every path that neither
rewrites line contents nor re-serializes, i.e. for every language other than
python, javascript, typescript, jsx, tsx and json (the keyword/operator
substitution paths and the JSON re-serialization path are not idempotent, as
`C2_counterexample` shows): running `process_code_block` on its own output
returns that output unchanged. -/
theorem C2_idempotence_amended (x L : Str) (u : Option Str)
    (h1 : L ≠ strL "python") (h2 : L ≠ strL "javascript") (h3 : L ≠ strL "typescript")
    (h4 : L ≠ strL "jsx") (h5 : L ≠ strL "tsx") (h6 : L ≠ strL "json") :
    (process_code_block (process_code_block x L u).1 L u).1 =
      (process_code_block x L u).1 := by
  have hgen := process_cb_generic x L u h1 h2 h3 h4 h5 h6
  by_cases hx5 : x.length < 5
  · have hfx : (process_code_block x L u).1 = x := by
      rw [hgen, if_pos hx5]
    rw [hfx]
    exact hfx
  · by_cases hl : (stripBlankEnds (splitlines x)).isEmpty
    · have hfx : (process_code_block x L u).1 = x := by
        rw [hgen, if_neg hx5, if_pos hl]
      rw [hfx]
      exact hfx
    · by_cases hf : ((stripBlankEnds (splitlines x)).filter (fun l => !isBlank l)).isEmpty
      · have hfx : (process_code_block x L u).1 = x := by
          rw [hgen, if_neg hx5, if_neg hl, if_pos hf]
        rw [hfx]
        exact hfx
      · have hfx : (process_code_block x L u).1 =
            joinNL ((stripBlankEnds (splitlines x)).map (emitLine id
              (minIndentOf ((stripBlankEnds (splitlines x)).filter
                (fun l => !isBlank l))))) := by
          rw [hgen, if_neg hx5, if_neg hl, if_neg hf]
        have hfl_ne : (stripBlankEnds (splitlines x)).filter (fun l => !isBlank l) ≠ [] := by
          intro h
          rw [h] at hf
          exact hf rfl
        have hsub : ∀ l ∈ stripBlankEnds (splitlines x), l ∈ splitlines x := by
          intro l hml
          unfold stripBlankEnds at hml
          rw [List.mem_reverse] at hml
          have hml2 := List.dropWhile_subset _ hml
          rw [List.mem_reverse] at hml2
          exact List.dropWhile_subset _ hml2
        have hhead : ∀ l, (stripBlankEnds (splitlines x)).head? = some l →
            isBlank l = false := by
          intro l hlh
          cases hsE : stripBlankEnds (splitlines x) with
          | nil =>
            rw [hsE] at hlh
            simp at hlh
          | cons a t =>
            rw [hsE] at hlh
            injection hlh with heq
            exact heq ▸ stripBlankEnds_head_not_blank (splitlines x) a t hsE
        obtain ⟨hsp, hst, hflr, hm0, hmap⟩ :=
          generic_roundtrip (stripBlankEnds (splitlines x))
            (fun l hl' => splitlines_no_newline x l (hsub l hl'))
            hhead
            (fun l h => stripBlankEnds_getLast?_not_blank (splitlines x) l h)
            hfl_ne
        rw [hfx]
        rw [process_cb_generic _ L u h1 h2 h3 h4 h5 h6]
        by_cases ho5 : (joinNL ((stripBlankEnds (splitlines x)).map (emitLine id
            (minIndentOf ((stripBlankEnds (splitlines x)).filter
              (fun l => !isBlank l)))))).length < 5
        · rw [if_pos ho5]
        · rw [if_neg ho5, hsp, hst]
          have hls2ne : (stripBlankEnds (splitlines x)).map (emitLine id
              (minIndentOf ((stripBlankEnds (splitlines x)).filter
                (fun l => !isBlank l)))) ≠ [] := by
            intro h
            rw [h] at hflr
            simp at hflr
          rw [if_neg (by simpa [List.isEmpty_iff] using hls2ne)]
          rw [if_neg (by simpa [List.isEmpty_iff] using hflr)]
          rw [hm0, hmap]

theorem C2_witness :
    (process_code_block (process_code_block
        (strL "  code(1)\n    more") (strL "text") none).1 (strL "text") none).1 =
      (process_code_block (strL "  code(1)\n    more") (strL "text") none).1 :=
  C2_idempotence_amended _ _ _ (by decide) (by decide) (by decide) (by decide)
    (by decide) (by decide)

end Conv

namespace Conv

/-! C4 stage 1: character, whitespace and hex-digit facts. -/

theorem Char.toNat_ofNat_valid (n : Nat) (h : Nat.isValidChar n) :
    (Char.ofNat n).toNat = n := by
  unfold Char.ofNat
  rw [dif_pos h]
  rfl

theorem char_toNat_lt (c : Char) : c.toNat < 0x110000 := by
  have h := c.valid
  rcases h with h | ⟨h1, h2⟩ <;> (unfold Char.toNat; omega)

theorem char_toNat_not_surrogate (c : Char) :
    ¬(0xD800 ≤ c.toNat ∧ c.toNat ≤ 0xDFFF) := by
  have h := c.valid
  rcases h with h | ⟨h1, h2⟩ <;> (unfold Char.toNat; omega)

theorem skipWs_nonws {s : Str} {c : Char} {t : Str} (hs : s = c :: t)
    (hc : jsonWsChar c = false) : skipWs s = s := by
  subst hs
  unfold skipWs
  rw [List.dropWhile_cons, if_neg (by simp [hc])]

theorem skipWs_cons_ws {c : Char} (hc : jsonWsChar c = true) (t : Str) :
    skipWs (c :: t) = skipWs t := by
  unfold skipWs
  rw [List.dropWhile_cons, if_pos (by simp [hc])]

theorem skipWs_spaces_append (k : Nat) (t : Str) :
    skipWs (spaces k ++ t) = skipWs t := by
  induction k with
  | zero => simp [spaces]
  | succ k ih =>
    rw [spaces, List.replicate_succ, List.cons_append]
    rw [skipWs_cons_ws (by decide)]
    exact ih

theorem skipWs_nl_spaces (k : Nat) (t : Str) :
    skipWs ('\n' :: (spaces k ++ t)) = skipWs t := by
  rw [skipWs_cons_ws (by decide), skipWs_spaces_append]

theorem hexVal?_hexDigitChar (d : Nat) (hd : d < 16) :
    hexVal? (hexDigitChar d) = some d := by
  interval_cases d <;> decide

theorem hex4Val?_hex4 (n : Nat) (hn : n < 0x10000) :
    hex4Val? (hexDigitChar (n / 4096 % 16)) (hexDigitChar (n / 256 % 16))
      (hexDigitChar (n / 16 % 16)) (hexDigitChar (n % 16)) = some n := by
  unfold hex4Val?
  rw [hexVal?_hexDigitChar _ (by omega), hexVal?_hexDigitChar _ (by omega),
    hexVal?_hexDigitChar _ (by omega), hexVal?_hexDigitChar _ (by omega)]
  show some (4096 * (n / 4096 % 16) + 256 * (n / 256 % 16) + 16 * (n / 16 % 16) +
      n % 16) = some n
  have he : 4096 * (n / 4096 % 16) + 256 * (n / 256 % 16) + 16 * (n / 16 % 16) +
      n % 16 = n := by omega
  rw [he]

end Conv

namespace Conv

/-! C4 stage 2: `json.dumps`-escaped strings parse back. -/

theorem psg_quote (f : Nat) (r : Str) :
    parseStringGoF (f + 1) ('"' :: r) = some ([], r) := by
  simp [parseStringGoF]

theorem psg_backslash (f : Nat) (r : Str) :
    parseStringGoF (f + 1) ('\\' :: r) =
      match parseEscape r with
      | none => none
      | some (d, r2) => pcons d (parseStringGoF f r2) := by
  simp only [parseStringGoF]
  rw [if_pos trivial, if_neg (by decide)]

theorem psg_plain (f : Nat) (c : Char) (r : Str) (h1 : c ≠ '"') (h2 : c ≠ '\\')
    (h3 : ¬c.toNat < 32) :
    parseStringGoF (f + 1) (c :: r) = pcons c (parseStringGoF f r) := by
  simp [parseStringGoF, h1, h2, h3]

theorem parseEscape_quote (r : Str) : parseEscape ('"' :: r) = some ('"', r) := by
  simp [parseEscape]

theorem parseEscape_backslash (r : Str) : parseEscape ('\\' :: r) = some ('\\', r) := by
  simp [parseEscape]

theorem parseEscape_n (r : Str) : parseEscape ('n' :: r) = some ('\n', r) := by
  simp [parseEscape]

theorem parseEscape_t (r : Str) : parseEscape ('t' :: r) = some ('\t', r) := by
  simp [parseEscape]

theorem parseEscape_r (r : Str) : parseEscape ('r' :: r) = some ('\r', r) := by
  simp [parseEscape]

theorem parseEscape_b (r : Str) : parseEscape ('b' :: r) = some ('\x08', r) := by
  simp [parseEscape]

theorem parseEscape_f (r : Str) : parseEscape ('f' :: r) = some ('\x0c', r) := by
  simp [parseEscape]

theorem parseEscape_u_bmp (v : Nat) (r : Str) (hlt : v < 0x10000)
    (hs1 : ¬(0xD800 ≤ v ∧ v ≤ 0xDBFF)) (hs2 : ¬(0xDC00 ≤ v ∧ v ≤ 0xDFFF)) :
    parseEscape ('u' :: (hex4 v ++ r)) = some (Char.ofNat v, r) := by
  rw [hex4]
  simp only [List.cons_append, List.nil_append]
  rw [parseEscape]
  rw [if_neg (by decide), if_neg (by decide), if_neg (by decide), if_neg (by decide),
    if_neg (by decide), if_neg (by decide), if_neg (by decide), if_neg (by decide),
    if_pos rfl]
  cases hv : hex4Val? (hexDigitChar (v / 4096 % 16)) (hexDigitChar (v / 256 % 16))
      (hexDigitChar (v / 16 % 16)) (hexDigitChar (v % 16)) with
  | none =>
    rw [hex4Val?_hex4 v hlt] at hv
    cases hv
  | some w =>
    rw [hex4Val?_hex4 v hlt] at hv
    injection hv with hw
    subst hw
    exact (if_neg hs1).trans (if_neg hs2)

theorem parseEscape_u (r : Str) : parseEscape ('u' :: r) = parseEscapeU r := by
  rcases r with _ | ⟨a, _ | ⟨b, _ | ⟨c, _ | ⟨d, r2⟩⟩⟩⟩ <;> rfl

set_option maxRecDepth 4096 in
theorem parseEscape_u_astral (v : Nat) (r : Str) (hlo : 0x10000 ≤ v)
    (hhi : v < 0x110000) :
    parseEscape ('u' :: (hex4 (0xD800 + (v - 0x10000) / 0x400) ++
        '\\' :: 'u' :: (hex4 (0xDC00 + (v - 0x10000) % 0x400) ++ r))) =
      some (Char.ofNat v, r) := by
  rw [parseEscape_u, hex4, hex4]
  simp only [List.cons_append, List.nil_append]
  rw [parseEscapeU]
  cases hv : hex4Val? (hexDigitChar ((0xD800 + (v - 0x10000) / 0x400) / 4096 % 16))
      (hexDigitChar ((0xD800 + (v - 0x10000) / 0x400) / 256 % 16))
      (hexDigitChar ((0xD800 + (v - 0x10000) / 0x400) / 16 % 16))
      (hexDigitChar ((0xD800 + (v - 0x10000) / 0x400) % 16)) with
  | none =>
    rw [hex4Val?_hex4 _ (by omega)] at hv
    cases hv
  | some w =>
    rw [hex4Val?_hex4 _ (by omega)] at hv
    injection hv with hw
    subst hw
    refine Eq.trans (if_pos (by constructor <;> omega)) ?_
    rw [parseEscapeU2]
    cases hv2 : hex4Val? (hexDigitChar ((0xDC00 + (v - 0x10000) % 0x400) / 4096 % 16))
        (hexDigitChar ((0xDC00 + (v - 0x10000) % 0x400) / 256 % 16))
        (hexDigitChar ((0xDC00 + (v - 0x10000) % 0x400) / 16 % 16))
        (hexDigitChar ((0xDC00 + (v - 0x10000) % 0x400) % 16)) with
    | none =>
      rw [hex4Val?_hex4 _ (by omega)] at hv2
      cases hv2
    | some w2 =>
      rw [hex4Val?_hex4 _ (by omega)] at hv2
      have hw2 := Option.some.inj hv2
      subst hw2
      have harg : 0x10000 + (0xD800 + (v - 0x10000) / 0x400 - 0xD800) * 0x400 +
          (0xDC00 + (v - 0x10000) % 0x400 - 0xDC00) = v := by omega
      refine Eq.trans (if_pos (by constructor <;> omega)) ?_
      rw [harg]

end Conv

namespace Conv

theorem psg_esc_step (f : Nat) (r : Str) (d : Char) (r2 : Str)
    (hpe : parseEscape r = some (d, r2)) :
    parseStringGoF (f + 1) ('\\' :: r) = pcons d (parseStringGoF f r2) := by
  rw [psg_backslash, hpe]

theorem escStr_roundtrip (s : Str) : ∀ fuel extra, s.length + 1 ≤ fuel →
    parseStringGoF fuel ((s.map escChar).flatten ++ '"' :: extra) = some (s, extra) := by
  induction s with
  | nil =>
    intro fuel extra hf
    cases fuel with
    | zero => omega
    | succ f =>
      simp only [List.map_nil, List.flatten_nil, List.nil_append]
      exact psg_quote f extra
  | cons c cs ih =>
    intro fuel extra hf
    cases fuel with
    | zero => simp at hf
    | succ f =>
      have hf' : cs.length + 1 ≤ f := by
        simp only [List.length_cons] at hf
        omega
      rw [List.map_cons, List.flatten_cons, List.append_assoc]
      by_cases h1 : c = '"'
      · subst h1
        rw [show escChar '"' = ['\\', '"'] from rfl, List.cons_append, List.cons_append,
          List.nil_append, psg_esc_step f _ _ _ (parseEscape_quote _), ih f extra hf']
        rfl
      · by_cases h2 : c = '\\'
        · subst h2
          rw [show escChar '\\' = ['\\', '\\'] from rfl, List.cons_append, List.cons_append,
            List.nil_append, psg_esc_step f _ _ _ (parseEscape_backslash _), ih f extra hf']
          rfl
        · by_cases h3 : c = '\n'
          · subst h3
            rw [show escChar '\n' = ['\\', 'n'] from rfl, List.cons_append, List.cons_append,
              List.nil_append, psg_esc_step f _ _ _ (parseEscape_n _), ih f extra hf']
            rfl
          · by_cases h4 : c = '\t'
            · subst h4
              rw [show escChar '\t' = ['\\', 't'] from rfl, List.cons_append,
                List.cons_append, List.nil_append, psg_esc_step f _ _ _ (parseEscape_t _),
                ih f extra hf']
              rfl
            · by_cases h5 : c = '\r'
              · subst h5
                rw [show escChar '\r' = ['\\', 'r'] from rfl, List.cons_append,
                  List.cons_append, List.nil_append, psg_esc_step f _ _ _ (parseEscape_r _),
                  ih f extra hf']
                rfl
              · by_cases h6 : c = '\x08'
                · subst h6
                  rw [show escChar '\x08' = ['\\', 'b'] from rfl, List.cons_append,
                    List.cons_append, List.nil_append, psg_esc_step f _ _ _ (parseEscape_b _),
                    ih f extra hf']
                  rfl
                · by_cases h7 : c = '\x0c'
                  · subst h7
                    rw [show escChar '\x0c' = ['\\', 'f'] from rfl, List.cons_append,
                      List.cons_append, List.nil_append, psg_esc_step f _ _ _ (parseEscape_f _),
                      ih f extra hf']
                    rfl
                  · by_cases h8 : c.toNat < 32 || 127 ≤ c.toNat
                    · have hesc : escChar c =
                          if c.toNat < 0x10000 then '\\' :: 'u' :: hex4 c.toNat
                          else '\\' :: 'u' :: hex4 (0xD800 + (c.toNat - 0x10000) / 0x400) ++
                            ('\\' :: 'u' :: hex4 (0xDC00 + (c.toNat - 0x10000) % 0x400)) := by
                        rw [escChar, if_neg h1, if_neg h2, if_neg h3, if_neg h4, if_neg h5,
                          if_neg h6, if_neg h7, if_pos h8]
                      by_cases h9 : c.toNat < 0x10000
                      · rw [hesc, if_pos h9, List.cons_append, List.cons_append,
                          psg_esc_step f _ _ _ (parseEscape_u_bmp c.toNat _ h9
                            (fun hc => char_toNat_not_surrogate c (by omega))
                            (fun hc => char_toNat_not_surrogate c (by omega))),
                          Char.ofNat_toNat, ih f extra hf']
                        rfl
                      · have hlo : 0x10000 ≤ c.toNat := by omega
                        have hhi : c.toNat < 0x110000 := char_toNat_lt c
                        rw [hesc, if_neg h9]
                        simp only [List.cons_append, List.append_assoc]
                        rw [psg_esc_step f _ _ _ (parseEscape_u_astral c.toNat _ hlo hhi),
                          Char.ofNat_toNat, ih f extra hf']
                        rfl
                    · have hesc : escChar c = [c] := by
                        rw [escChar, if_neg h1, if_neg h2, if_neg h3, if_neg h4, if_neg h5,
                          if_neg h6, if_neg h7, if_neg (by simpa using h8)]
                      rw [hesc, List.cons_append, List.nil_append,
                        psg_plain f c _ h1 h2 (by simp at h8; omega), ih f extra hf']
                      rfl

end Conv

namespace Conv

/-! C4 stage 3: decimal renderings parse back. -/

theorem char_le_iff_toNat (a b : Char) : a ≤ b ↔ a.toNat ≤ b.toNat := by
  rw [Char.le_def, UInt32.le_def]
  unfold Char.toNat UInt32.toNat
  exact ⟨fun h => h, fun h => h⟩

theorem digitChar_toNat (d : Nat) (hd : d < 10) : (digitChar d).toNat = 48 + d := by
  unfold digitChar
  exact Char.toNat_ofNat_valid _ (Or.inl (by omega))

theorem isDigit_digitChar (d : Nat) (hd : d < 10) : isDigit (digitChar d) = true := by
  unfold isDigit
  simp only [Bool.and_eq_true, decide_eq_true_eq]
  constructor
  · rw [char_le_iff_toNat, digitChar_toNat d hd]
    show 48 ≤ 48 + d
    omega
  · rw [char_le_iff_toNat, digitChar_toNat d hd]
    show 48 + d ≤ 57
    omega

theorem digitVal_digitChar (d : Nat) (hd : d < 10) : digitVal (digitChar d) = d := by
  unfold digitVal
  rw [digitChar_toNat d hd]
  omega

theorem parseDigitsGo_stop (acc : Nat) (t : Str)
    (h : ∀ c r, t = c :: r → isDigit c = false) : parseDigitsGo acc t = (acc, t) := by
  cases t with
  | nil => rfl
  | cons c r =>
    rw [parseDigitsGo, if_neg (by simp [h c r rfl])]

theorem parseDigitsGo_digit (acc : Nat) (d : Nat) (hd : d < 10) (t : Str) :
    parseDigitsGo acc (digitChar d :: t) = parseDigitsGo (10 * acc + d) t := by
  rw [parseDigitsGo, if_pos (by simp [isDigit_digitChar d hd]), digitVal_digitChar d hd]

theorem parseDigitsGo_natToStrGo (n : Nat) : ∀ fuel acc t, n < fuel →
    parseDigitsGo acc (natToStrGo fuel n ++ t) =
      parseDigitsGo (acc * 10 ^ (natToStrGo fuel n).length + n) t := by
  induction n using Nat.strong_induction_on with
  | _ n ih =>
    intro fuel acc t hf
    cases fuel with
    | zero => omega
    | succ f =>
      rw [natToStrGo]
      by_cases h10 : n < 10
      · rw [if_pos h10, List.singleton_append, parseDigitsGo_digit acc n h10]
        have hlen : acc * 10 ^ ([digitChar n] : Str).length + n = 10 * acc + n := by
          simp only [List.length_singleton, pow_one]
          omega
        rw [hlen]
      · rw [if_neg h10, List.append_assoc, List.singleton_append,
          ih (n / 10) (by omega) f acc (digitChar (n % 10) :: t) (by omega),
          parseDigitsGo_digit _ (n % 10) (by omega) t]
        have hlen2 : (natToStrGo f (n / 10) ++ [digitChar (n % 10)]).length =
            (natToStrGo f (n / 10)).length + 1 := by simp
        rw [hlen2]
        have h1 : 10 * (n / 10) + n % 10 = n := by omega
        have heq2 : 10 * (acc * 10 ^ (natToStrGo f (n / 10)).length + n / 10) + n % 10 =
            acc * 10 ^ ((natToStrGo f (n / 10)).length + 1) + n := by
          calc 10 * (acc * 10 ^ (natToStrGo f (n / 10)).length + n / 10) + n % 10
              = acc * (10 ^ (natToStrGo f (n / 10)).length * 10) +
                (10 * (n / 10) + n % 10) := by ring
            _ = acc * 10 ^ ((natToStrGo f (n / 10)).length + 1) + n := by
                rw [h1, pow_succ]
        rw [heq2]

theorem natToStrGo_head_pos (n : Nat) : ∀ fuel, n < fuel → 0 < n →
    ∃ d t, natToStrGo fuel n = digitChar d :: t ∧ 0 < d ∧ d < 10 := by
  induction n using Nat.strong_induction_on with
  | _ n ih =>
    intro fuel hf hn
    cases fuel with
    | zero => omega
    | succ f =>
      rw [natToStrGo]
      by_cases h10 : n < 10
      · exact ⟨n, [], by rw [if_pos h10], hn, h10⟩
      · obtain ⟨d, t, hdt, hd0, hd10⟩ := ih (n / 10) (by omega) f (by omega) (by omega)
        exact ⟨d, t ++ [digitChar (n % 10)], by rw [if_neg h10, hdt]; rfl, hd0, hd10⟩

end Conv

namespace Conv

theorem parseNumTail_natToStr (neg : Bool) (n : Nat) (extra : Str)
    (hx : ∀ c r, extra = c :: r → isDigit c = false ∧ c ≠ '.' ∧ c ≠ 'e' ∧ c ≠ 'E') :
    parseNumTail neg (natToStr n ++ extra) =
      some (.num (if neg then -(n : Int) else (n : Int)), extra) := by
  unfold natToStr
  by_cases h0 : n = 0
  · subst h0
    rw [show natToStrGo 1 0 = ['0'] from rfl, List.singleton_append]
    cases extra with
    | nil => cases neg <;> rfl
    | cons c r =>
      have hfacts := hx c r rfl
      simp [parseNumTail, show isDigit '0' = true from by decide, hfacts.1,
        hfacts.2.1, hfacts.2.2.1, hfacts.2.2.2]
  · obtain ⟨d, t, hdt, hd0, hd10⟩ :=
      natToStrGo_head_pos n (n + 1) (by omega) (by omega)
    rw [hdt, List.cons_append, parseNumTail]
    rw [if_pos (by simp [isDigit_digitChar d hd10])]
    have hne0 : ¬(digitChar d = '0') := by
      intro h
      have h2 := congrArg Char.toNat h
      rw [digitChar_toNat d hd10] at h2
      have h48 : ('0').toNat = 48 := rfl
      rw [h48] at h2
      omega
    rw [if_neg hne0, digitVal_digitChar d hd10]
    have hstep : parseDigitsGo d (t ++ extra) =
        parseDigitsGo 0 ((digitChar d :: t) ++ extra) := by
      rw [List.cons_append, parseDigitsGo_digit 0 d hd10]
      norm_num
    rw [hstep, ← hdt, parseDigitsGo_natToStrGo n (n + 1) 0 extra (by omega)]
    have hzero : 0 * 10 ^ (natToStrGo (n + 1) n).length + n = n := by
      simp
    rw [hzero, parseDigitsGo_stop n extra (fun c r hc => (hx c r hc).1)]
    cases extra with
    | nil => rfl
    | cons c r =>
      have hfacts := hx c r rfl
      simp [hfacts.2.1, hfacts.2.2.1, hfacts.2.2.2]

end Conv

namespace Conv

/-! C4 stage 4: character classes of rendering heads. -/

theorem char_ne_of_toNat {a b : Char} (ha : a.toNat ≠ b.toNat) : a ≠ b :=
  fun he => ha (congrArg Char.toNat he)

theorem jsonWsChar_false_of_toNat (c : Char)
    (h : c.toNat ≠ 32 ∧ c.toNat ≠ 9 ∧ c.toNat ≠ 10 ∧ c.toNat ≠ 13) :
    jsonWsChar c = false := by
  unfold jsonWsChar
  simp only [Bool.or_eq_false_iff, decide_eq_false_iff_not]
  exact ⟨⟨⟨char_ne_of_toNat h.1, char_ne_of_toNat h.2.1⟩,
    char_ne_of_toNat h.2.2.1⟩, char_ne_of_toNat h.2.2.2⟩

theorem isSpaceChar_false_of_toNat (c : Char)
    (h : c.toNat ≠ 32 ∧ c.toNat ≠ 9 ∧ c.toNat ≠ 10 ∧ c.toNat ≠ 13 ∧
      c.toNat ≠ 11 ∧ c.toNat ≠ 12) :
    isSpaceChar c = false := by
  unfold isSpaceChar
  simp only [Bool.or_eq_false_iff, decide_eq_false_iff_not]
  exact ⟨⟨⟨⟨⟨char_ne_of_toNat h.1, char_ne_of_toNat h.2.1⟩,
    char_ne_of_toNat h.2.2.1⟩, char_ne_of_toNat h.2.2.2.1⟩,
    char_ne_of_toNat h.2.2.2.2.1⟩, char_ne_of_toNat h.2.2.2.2.2⟩

theorem isDigit_false_of_toNat (c : Char) (h : c.toNat < 48 ∨ 57 < c.toNat) :
    isDigit c = false := by
  unfold isDigit
  rcases h with h | h
  · have hle : ¬('0' ≤ c) := by
      rw [char_le_iff_toNat, show ('0').toNat = 48 from rfl]
      omega
    simp [hle]
  · have hle : ¬(c ≤ '9') := by
      rw [char_le_iff_toNat, show ('9').toNat = 57 from rfl]
      omega
    simp [hle]

theorem isDigit_toNat_range (c : Char) (h : isDigit c = true) :
    48 ≤ c.toNat ∧ c.toNat ≤ 57 := by
  unfold isDigit at h
  simp only [Bool.and_eq_true, decide_eq_true_eq] at h
  rw [char_le_iff_toNat, show ('0').toNat = 48 from rfl] at h
  have h2 := h.2
  rw [char_le_iff_toNat, show ('9').toNat = 57 from rfl] at h2
  exact ⟨h.1, h2⟩

theorem natToStr_head (m : Nat) :
    ∃ d t, natToStr m = digitChar d :: t ∧ d < 10 := by
  by_cases h0 : m = 0
  · subst h0
    exact ⟨0, [], rfl, by omega⟩
  · obtain ⟨d, t, hdt, _, hd10⟩ := natToStrGo_head_pos m (m + 1) (by omega) (by omega)
    exact ⟨d, t, hdt, hd10⟩

theorem digitChar_toNat_facts (d : Nat) (hd : d < 10) :
    48 ≤ (digitChar d).toNat ∧ (digitChar d).toNat ≤ 57 := by
  rw [digitChar_toNat d hd]
  omega

/-- Head character of a rendered value, with the facts the parser dispatch
needs: it is not whitespace. -/
theorem dumpVal_head_not_ws (ind : Nat) (v : JVal) :
    ∃ c t, dumpVal ind v = c :: t ∧ jsonWsChar c = false := by
  cases v with
  | null => exact ⟨'n', _, rfl, by decide⟩
  | bool b => cases b with
    | true => exact ⟨'t', _, rfl, by decide⟩
    | false => exact ⟨'f', _, rfl, by decide⟩
  | num n => cases n with
    | ofNat m =>
      obtain ⟨d, t, hdt, hd10⟩ := natToStr_head m
      refine ⟨digitChar d, t, ?_, ?_⟩
      · show intToStr (Int.ofNat m) = _
        rw [intToStr, hdt]
      · have := digitChar_toNat_facts d hd10
        exact jsonWsChar_false_of_toNat _ (by omega)
    | negSucc m =>
      exact ⟨'-', _, rfl, by decide⟩
  | str s => exact ⟨'"', _, rfl, by decide⟩
  | arr vs => cases vs with
    | nil => exact ⟨'[', _, rfl, by decide⟩
    | cons v vs => exact ⟨'[', _, rfl, by decide⟩
  | obj kvs => cases kvs with
    | nil => exact ⟨'\x7b', _, rfl, by decide⟩
    | cons kv kvs => exact ⟨'\x7b', _, rfl, by decide⟩

end Conv

namespace Conv

theorem parseValue_arr_step (f : Nat) (c : Char) (X : Str) (hc : c ≠ ']')
    (r : Str) (hr : skipWs r = c :: X) :
    parseValue (f + 1) ('[' :: r) = parseElems f (c :: X) [] := by
  rw [parseValue, if_neg (by decide), if_pos rfl, hr]
  split
  · next r2 heq =>
    injection heq with h1 _
    exact absurd h1 hc
  · rfl

end Conv

namespace Conv

theorem parseValue_arr_empty (f : Nat) (r r2 : Str) (hr : skipWs r = ']' :: r2) :
    parseValue (f + 1) ('[' :: r) = some (.arr [], r2) := by
  rw [parseValue, if_neg (by decide), if_pos rfl, hr]
  split
  · next r2' heq =>
    injection heq with h1 h2
    rw [h2]
  · next h =>
    exact absurd rfl (h r2)

theorem parseValue_obj_step (f : Nat) (c : Char) (X : Str) (hc : c ≠ '\x7d')
    (r : Str) (hr : skipWs r = c :: X) :
    parseValue (f + 1) ('\x7b' :: r) = parseMembers f (c :: X) [] := by
  rw [parseValue, if_pos rfl, hr]
  split
  · next r2 heq =>
    injection heq with h1 _
    exact absurd h1 hc
  · rfl

theorem parseValue_obj_empty (f : Nat) (r r2 : Str) (hr : skipWs r = '\x7d' :: r2) :
    parseValue (f + 1) ('\x7b' :: r) = some (.obj [], r2) := by
  rw [parseValue, if_pos rfl, hr]
  split
  · next r2' heq =>
    injection heq with h1 h2
    rw [h2]
  · next h =>
    exact absurd rfl (h r2)

theorem parseElems_done (f : Nat) (s : Str) (acc : List JVal) (v : JVal) (r r2 : Str)
    (hpv : parseValue f (skipWs s) = some (v, r)) (hr : skipWs r = ']' :: r2) :
    parseElems (f + 1) s acc = some (.arr (acc ++ [v]), r2) := by
  rw [parseElems, hpv]
  split
  · next heq => exact Option.noConfusion heq
  · next v' r' heq =>
    injection heq with heq2
    injection heq2 with hv hrr
    subst hv hrr
    rw [hr]
    split
    · next r5 heq3 =>
      injection heq3 with h1 _
      exact absurd h1 (by decide)
    · next r5 heq3 =>
      injection heq3 with h1 h2
      rw [h2]
    · next h1 h2 =>
      exact absurd rfl (h2 r2)

theorem parseElems_comma (f : Nat) (s : Str) (acc : List JVal) (v : JVal) (r r2 : Str)
    (hpv : parseValue f (skipWs s) = some (v, r)) (hr : skipWs r = ',' :: r2) :
    parseElems (f + 1) s acc = parseElems f r2 (acc ++ [v]) := by
  rw [parseElems, hpv]
  split
  · next heq => exact Option.noConfusion heq
  · next v' r' heq =>
    injection heq with heq2
    injection heq2 with hv hrr
    subst hv hrr
    rw [hr]
    split
    · next r5 heq3 =>
      injection heq3 with h1 h2
      rw [h2]
    · next r5 heq3 =>
      injection heq3 with h1 _
      exact absurd h1 (by decide)
    · next h1 h2 =>
      exact absurd rfl (h1 r2)

end Conv

namespace Conv

theorem parseMembers_comma (f : Nat) (r : Str) (acc : List (Str × JVal))
    (key : Str) (r2 r3 : Str) (v : JVal) (r4 r5 : Str)
    (hps : parseStringGo r = some (key, r2)) (h2 : skipWs r2 = ':' :: r3)
    (hpv : parseValue f (skipWs r3) = some (v, r4)) (h4 : skipWs r4 = ',' :: r5) :
    parseMembers (f + 1) ('"' :: r) acc =
      parseMembers f (skipWs r5) (objInsert acc key v) := by
  rw [parseMembers]
  split
  · next heq2 =>
    rw [hps] at heq2
    exact Option.noConfusion heq2
  · next key' r2' heq2 =>
    rw [hps] at heq2
    injection heq2 with heq3
    injection heq3 with hk hr2
    subst hk hr2
    rw [h2]
    split
    · next r3' heq4 =>
      injection heq4 with _ hr3
      subst hr3
      rw [hpv]
      split
      · next heq5 => exact Option.noConfusion heq5
      · next v' r4' heq5 =>
        injection heq5 with heq6
        injection heq6 with hv hr4
        subst hv hr4
        rw [h4]
        split
        · next r5' heq7 =>
          injection heq7 with _ hr5
          subst hr5
          rfl
        · next r5' heq7 =>
          injection heq7 with hcm _
          exact absurd hcm (by decide)
        · next hn1 hn2 =>
          exact absurd rfl (hn1 r5)
    · next hne =>
      exact absurd rfl (hne r3)

theorem parseMembers_done (f : Nat) (r : Str) (acc : List (Str × JVal))
    (key : Str) (r2 r3 : Str) (v : JVal) (r4 r5 : Str)
    (hps : parseStringGo r = some (key, r2)) (h2 : skipWs r2 = ':' :: r3)
    (hpv : parseValue f (skipWs r3) = some (v, r4)) (h4 : skipWs r4 = '\x7d' :: r5) :
    parseMembers (f + 1) ('"' :: r) acc =
      some (.obj (objInsert acc key v), r5) := by
  rw [parseMembers]
  split
  · next heq2 =>
    rw [hps] at heq2
    exact Option.noConfusion heq2
  · next key' r2' heq2 =>
    rw [hps] at heq2
    injection heq2 with heq3
    injection heq3 with hk hr2
    subst hk hr2
    rw [h2]
    split
    · next r3' heq4 =>
      injection heq4 with _ hr3
      subst hr3
      rw [hpv]
      split
      · next heq5 => exact Option.noConfusion heq5
      · next v' r4' heq5 =>
        injection heq5 with heq6
        injection heq6 with hv hr4
        subst hv hr4
        rw [h4]
        split
        · next r5' heq7 =>
          injection heq7 with hcm _
          exact absurd hcm (by decide)
        · next r5' heq7 =>
          injection heq7 with _ hr5
          subst hr5
          rfl
        · next hn1 hn2 =>
          exact absurd rfl (hn2 r5)
    · next hne =>
      exact absurd rfl (hne r3)

end Conv

namespace Conv

theorem skipWs_wsPre (pre : Str) (hpre : ∀ c ∈ pre, jsonWsChar c = true)
    (t : Str) : skipWs (pre ++ t) = skipWs t := by
  induction pre with
  | nil => simp
  | cons c p ih =>
    rw [List.cons_append, skipWs_cons_ws (hpre c (List.mem_cons_self _ _))]
    exact ih (fun c2 h2 => hpre c2 (List.mem_cons_of_mem _ h2))

theorem spaces_ws (k : Nat) : ∀ c ∈ spaces k, jsonWsChar c = true := by
  intro c hc
  rw [List.eq_of_mem_replicate hc]
  decide

theorem nlSpaces_ws (k : Nat) : ∀ c ∈ '\n' :: spaces k, jsonWsChar c = true := by
  intro c hc
  rcases List.mem_cons.mp hc with h | h
  · subst h
    decide
  · exact spaces_ws k c h

theorem escChar_length_pos (c : Char) : 1 ≤ (escChar c).length := by
  unfold escChar
  split_ifs <;> simp [hex4]

theorem escChar_flatten_len (s : Str) : s.length ≤ ((s.map escChar).flatten).length := by
  induction s with
  | nil => simp
  | cons c cs ih =>
    rw [List.map_cons, List.flatten_cons, List.length_append, List.length_cons]
    have := escChar_length_pos c
    omega

theorem parseStringGo_dump (k : Str) (X : Str) :
    parseStringGo ((k.map escChar).flatten ++ '"' :: X) = some (k, X) := by
  unfold parseStringGo
  apply escStr_roundtrip
  rw [List.length_append, List.length_cons]
  have := escChar_flatten_len k
  omega

theorem dumpStr_append (k : Str) (X : Str) :
    dumpStr k ++ X = '"' :: ((k.map escChar).flatten ++ '"' :: X) := by
  unfold dumpStr
  simp [List.append_assoc]

theorem parseValue_str (f : Nat) (s : Str) (extra : Str) :
    parseValue (f + 1) (dumpStr s ++ extra) = some (.str s, extra) := by
  rw [dumpStr_append, parseValue, if_neg (by decide), if_neg (by decide), if_pos rfl,
    parseStringGo_dump]

theorem parseValue_null (f : Nat) (extra : Str) :
    parseValue (f + 1) (strL "null" ++ extra) = some (.null, extra) := by
  show parseValue (f + 1) ('n' :: ('u' :: 'l' :: 'l' :: extra)) = _
  rw [parseValue, if_neg (by decide), if_neg (by decide), if_neg (by decide), if_pos rfl,
    if_pos (show startsWith (strL "ull") ('u' :: 'l' :: 'l' :: extra) = true from
      startsWith_append (strL "ull") extra)]
  rfl

theorem parseValue_true (f : Nat) (extra : Str) :
    parseValue (f + 1) (strL "true" ++ extra) = some (.bool true, extra) := by
  show parseValue (f + 1) ('t' :: ('r' :: 'u' :: 'e' :: extra)) = _
  rw [parseValue, if_neg (by decide), if_neg (by decide), if_neg (by decide),
    if_neg (by decide), if_pos rfl, if_pos (show startsWith (strL "rue") ('r' :: 'u' :: 'e' :: extra) = true from
      startsWith_append (strL "rue") extra)]
  rfl

theorem parseValue_false (f : Nat) (extra : Str) :
    parseValue (f + 1) (strL "false" ++ extra) = some (.bool false, extra) := by
  show parseValue (f + 1) ('f' :: ('a' :: 'l' :: 's' :: 'e' :: extra)) = _
  rw [parseValue, if_neg (by decide), if_neg (by decide), if_neg (by decide),
    if_neg (by decide), if_neg (by decide), if_pos rfl,
    if_pos (show startsWith (strL "alse") ('a' :: 'l' :: 's' :: 'e' :: extra) = true from
      startsWith_append (strL "alse") extra)]
  rfl

theorem parseValue_num (f : Nat) (n : Int) (extra : Str)
    (hx : ∀ c r, extra = c :: r → isDigit c = false ∧ c ≠ '.' ∧ c ≠ 'e' ∧ c ≠ 'E') :
    parseValue (f + 1) (intToStr n ++ extra) = some (.num n, extra) := by
  cases n with
  | ofNat m =>
    obtain ⟨d, t, hdt, hd10⟩ := natToStr_head m
    have hfacts := digitChar_toNat_facts d hd10
    show parseValue (f + 1) (natToStr m ++ extra) = _
    rw [hdt, List.cons_append, parseValue,
      if_neg (char_ne_of_toNat (by rw [show ('\x7b').toNat = 123 from rfl]; omega)),
      if_neg (char_ne_of_toNat (by rw [show ('[').toNat = 91 from rfl]; omega)),
      if_neg (char_ne_of_toNat (by rw [show ('"').toNat = 34 from rfl]; omega)),
      if_neg (char_ne_of_toNat (by rw [show ('n').toNat = 110 from rfl]; omega)),
      if_neg (char_ne_of_toNat (by rw [show ('t').toNat = 116 from rfl]; omega)),
      if_neg (char_ne_of_toNat (by rw [show ('f').toNat = 102 from rfl]; omega)),
      if_neg (char_ne_of_toNat (by rw [show ('-').toNat = 45 from rfl]; omega)),
      if_pos (by simp [isDigit_digitChar d hd10]), ← List.cons_append, ← hdt,
      parseNumTail_natToStr false m extra hx]
    rfl
  | negSucc m =>
    show parseValue (f + 1) ('-' :: (natToStr (m + 1) ++ extra)) = _
    rw [parseValue, if_neg (by decide), if_neg (by decide), if_neg (by decide),
      if_neg (by decide), if_neg (by decide), if_neg (by decide), if_pos rfl,
      parseNumTail_natToStr true (m + 1) extra hx]
    rfl

theorem objInsert_append (acc : List (Str × JVal)) (k : Str) (v : JVal)
    (h : ∀ kv ∈ acc, kv.1 ≠ k) : objInsert acc k v = acc ++ [(k, v)] := by
  induction acc with
  | nil => rfl
  | cons kv rest ih =>
    rw [objInsert, if_neg (h kv (List.mem_cons_self _ _)), List.cons_append,
      ih (fun kv2 h2 => h kv2 (List.mem_cons_of_mem _ h2))]

theorem pvFuel_pos (v : JVal) : 1 ≤ pvFuel v := by
  cases v <;> simp [pvFuel]

theorem peFuel_pos (vs : List JVal) : 1 ≤ peFuel vs := by
  cases vs <;> simp [peFuel] <;> omega

theorem pmFuel_pos (kvs : List (Str × JVal)) : 1 ≤ pmFuel kvs := by
  cases kvs <;> simp [pmFuel] <;> omega

theorem dumpElemsD_head_facts (ind : Nat) (vs : List JVal) (j : Nat) (extra : Str) :
    ∀ c r, dumpElemsD ind vs ++ '\n' :: (spaces j ++ ']' :: extra) = c :: r →
      isDigit c = false ∧ c ≠ '.' ∧ c ≠ 'e' ∧ c ≠ 'E' := by
  intro c r h
  cases vs with
  | nil =>
    rw [dumpElemsD, List.nil_append] at h
    injection h with h1 _
    subst h1
    exact ⟨by decide, by decide, by decide, by decide⟩
  | cons v vs =>
    rw [dumpElemsD, List.cons_append] at h
    injection h with h1 _
    subst h1
    exact ⟨by decide, by decide, by decide, by decide⟩

theorem dumpMembersD_head_facts (ind : Nat) (kvs : List (Str × JVal)) (j : Nat)
    (extra : Str) :
    ∀ c r, dumpMembersD ind kvs ++ '\n' :: (spaces j ++ '\x7d' :: extra) = c :: r →
      isDigit c = false ∧ c ≠ '.' ∧ c ≠ 'e' ∧ c ≠ 'E' := by
  intro c r h
  cases kvs with
  | nil =>
    rw [dumpMembersD, List.nil_append] at h
    injection h with h1 _
    subst h1
    exact ⟨by decide, by decide, by decide, by decide⟩
  | cons kv kvs =>
    rw [dumpMembersD, List.cons_append] at h
    injection h with h1 _
    subst h1
    exact ⟨by decide, by decide, by decide, by decide⟩

/-- Head character of a rendered value with all the disequalities the
parser's container matches need. -/
theorem dumpVal_head (ind : Nat) (v : JVal) :
    ∃ c t, dumpVal ind v = c :: t ∧ jsonWsChar c = false ∧ c ≠ ']' ∧ c ≠ '\x7d' := by
  cases v with
  | null =>
    refine ⟨'n', _, rfl, ?_, ?_, ?_⟩ <;> decide
  | bool b => cases b with
    | true =>
      refine ⟨'t', _, rfl, ?_, ?_, ?_⟩ <;> decide
    | false =>
      refine ⟨'f', _, rfl, ?_, ?_, ?_⟩ <;> decide
  | num n => cases n with
    | ofNat m =>
      obtain ⟨d, t, hdt, hd10⟩ := natToStr_head m
      have hfacts := digitChar_toNat_facts d hd10
      refine ⟨digitChar d, t, ?_, ?_, ?_, ?_⟩
      · show intToStr (Int.ofNat m) = _
        rw [intToStr, hdt]
      · exact jsonWsChar_false_of_toNat _ (by omega)
      · exact char_ne_of_toNat (by rw [show (']').toNat = 93 from rfl]; omega)
      · exact char_ne_of_toNat (by rw [show ('\x7d').toNat = 125 from rfl]; omega)
    | negSucc m =>
      refine ⟨'-', _, rfl, ?_, ?_, ?_⟩ <;> decide
  | str s =>
    refine ⟨'"', _, rfl, ?_, ?_, ?_⟩ <;> decide
  | arr vs => cases vs with
    | nil =>
      refine ⟨'[', _, rfl, ?_, ?_, ?_⟩ <;> decide
    | cons v vs =>
      refine ⟨'[', _, rfl, ?_, ?_, ?_⟩ <;> decide
  | obj kvs => cases kvs with
    | nil =>
      refine ⟨'\x7b', _, rfl, ?_, ?_, ?_⟩ <;> decide
    | cons kv kvs =>
      refine ⟨'\x7b', _, rfl, ?_, ?_, ?_⟩ <;> decide

end Conv

namespace Conv

theorem dump_parse_roundtrip : ∀ N : Nat,
    (∀ v ind fuel extra, pvFuel v ≤ N → jwf v = true → pvFuel v ≤ fuel →
      (∀ c r, extra = c :: r → isDigit c = false ∧ c ≠ '.' ∧ c ≠ 'e' ∧ c ≠ 'E') →
      parseValue fuel (dumpVal ind v ++ extra) = some (v, extra)) ∧
    (∀ v vs ind j fuel acc extra pre,
      1 + pvFuel v + peFuel vs ≤ N → jwf v = true → jwfList vs = true →
      1 + pvFuel v + peFuel vs ≤ fuel →
      (∀ c ∈ pre, jsonWsChar c = true) →
      parseElems fuel
        (pre ++ (dumpVal ind v ++ (dumpElemsD ind vs ++ '\n' :: (spaces j ++ ']' :: extra))))
        acc = some (.arr (acc ++ v :: vs), extra)) ∧
    (∀ k v kvs ind j fuel acc extra,
      1 + pvFuel v + pmFuel kvs ≤ N → jwf v = true →
      (∀ kv2 ∈ kvs, kv2.1 ≠ k) → jwfObj kvs = true →
      1 + pvFuel v + pmFuel kvs ≤ fuel →
      (∀ kv ∈ acc, kv.1 ≠ k ∧ ∀ kv2 ∈ kvs, kv.1 ≠ kv2.1) →
      parseMembers fuel
        (dumpStr k ++ ':' :: ' ' ::
          (dumpVal ind v ++ (dumpMembersD ind kvs ++ '\n' :: (spaces j ++ '\x7d' :: extra))))
        acc = some (.obj (acc ++ (k, v) :: kvs), extra)) := by
  intro N
  induction N using Nat.strong_induction_on with
  | _ N IH =>
    refine ⟨?_, ?_, ?_⟩
    · -- the value component
      intro v ind fuel extra hN hwf hfuel hx
      cases fuel with
      | zero =>
        have := pvFuel_pos v
        omega
      | succ f =>
        cases v with
        | null => exact parseValue_null f extra
        | bool b =>
          cases b with
          | true => exact parseValue_true f extra
          | false => exact parseValue_false f extra
        | num n => exact parseValue_num f n extra hx
        | str s => exact parseValue_str f s extra
        | arr vs =>
          cases vs with
          | nil =>
            have h1 : dumpVal ind (.arr []) ++ extra = '[' :: (']' :: extra) := rfl
            rw [h1]
            exact parseValue_arr_empty f (']' :: extra) extra (skipWs_nonws rfl (by decide))
          | cons w ws =>
            have hshape : dumpVal ind (.arr (w :: ws)) ++ extra =
                '[' :: ('\n' :: (spaces (ind + 2) ++ (dumpVal (ind + 2) w ++
                  (dumpElemsD (ind + 2) ws ++ '\n' :: (spaces ind ++ ']' :: extra))))) := by
              show ('[' :: '\n' :: (spaces (ind + 2) ++ dumpVal (ind + 2) w ++
                dumpElemsD (ind + 2) ws ++ '\n' :: (spaces ind ++ [']']))) ++ extra = _
              simp [List.append_assoc]
            obtain ⟨c, t, hct, hws, hrb, hcb⟩ := dumpVal_head (ind + 2) w
            have hskip : skipWs ('\n' :: (spaces (ind + 2) ++ (dumpVal (ind + 2) w ++
                (dumpElemsD (ind + 2) ws ++ '\n' :: (spaces ind ++ ']' :: extra))))) =
                c :: (t ++ (dumpElemsD (ind + 2) ws ++
                  '\n' :: (spaces ind ++ ']' :: extra))) := by
              rw [skipWs_nl_spaces, hct, List.cons_append]
              exact skipWs_nonws rfl hws
            rw [hshape, parseValue_arr_step f c _ hrb _ hskip]
            rw [show c :: (t ++ (dumpElemsD (ind + 2) ws ++
                '\n' :: (spaces ind ++ ']' :: extra))) =
                dumpVal (ind + 2) w ++ (dumpElemsD (ind + 2) ws ++
                  '\n' :: (spaces ind ++ ']' :: extra)) from by
              rw [hct, List.cons_append]]
            have hm1 : pvFuel (.arr (w :: ws)) = 2 + pvFuel w + peFuel ws := by
              show 1 + peFuel (w :: ws) = _
              show 1 + (1 + pvFuel w + peFuel ws) = _
              omega
            simp only [jwf] at hwf
            have hwf2 : jwf w = true ∧ jwfList ws = true := by
              have : jwfList (w :: ws) = (jwf w && jwfList ws) := rfl
              rw [this] at hwf
              simpa using hwf
            have helems := (IH (N - 1) (by omega)).2.1 w ws (ind + 2) ind f [] extra []
              (by omega) hwf2.1 hwf2.2 (by omega)
              (fun c hc => absurd hc (List.not_mem_nil c))
            rw [List.nil_append] at helems
            rw [helems]
            simp
        | obj kvs =>
          cases kvs with
          | nil =>
            have h1 : dumpVal ind (.obj []) ++ extra = '\x7b' :: ('\x7d' :: extra) := rfl
            rw [h1]
            exact parseValue_obj_empty f ('\x7d' :: extra) extra
              (skipWs_nonws rfl (by decide))
          | cons kv rest =>
            obtain ⟨k0, v0⟩ := kv
            have hshape : dumpVal ind (.obj ((k0, v0) :: rest)) ++ extra =
                '\x7b' :: ('\n' :: (spaces (ind + 2) ++ (dumpStr k0 ++ ':' :: ' ' ::
                  (dumpVal (ind + 2) v0 ++ (dumpMembersD (ind + 2) rest ++
                    '\n' :: (spaces ind ++ '\x7d' :: extra)))))) := by
              show ('\x7b' :: '\n' :: (spaces (ind + 2) ++ dumpStr k0 ++ ':' :: ' ' ::
                dumpVal (ind + 2) v0 ++ dumpMembersD (ind + 2) rest ++
                  '\n' :: (spaces ind ++ ['\x7d']))) ++ extra = _
              simp [List.append_assoc]
            have hskip : skipWs ('\n' :: (spaces (ind + 2) ++ (dumpStr k0 ++ ':' :: ' ' ::
                (dumpVal (ind + 2) v0 ++ (dumpMembersD (ind + 2) rest ++
                  '\n' :: (spaces ind ++ '\x7d' :: extra)))))) =
                '"' :: (((k0.map escChar).flatten ++ '"' :: (':' :: ' ' ::
                  (dumpVal (ind + 2) v0 ++ (dumpMembersD (ind + 2) rest ++
                    '\n' :: (spaces ind ++ '\x7d' :: extra)))))) := by
              rw [skipWs_nl_spaces, dumpStr_append]
              exact skipWs_nonws rfl (by decide)
            rw [hshape, parseValue_obj_step f '"' _ (by decide) _ hskip, ← dumpStr_append]
            have hm1 : pvFuel (.obj ((k0, v0) :: rest)) = 2 + pvFuel v0 + pmFuel rest := by
              show 1 + (1 + pvFuel v0 + pmFuel rest) = _
              omega
            simp only [jwf] at hwf
            have hdec : jwf v0 = true ∧ (∀ kv2 ∈ rest, kv2.1 ≠ k0) ∧
                jwfObj rest = true := by
              have : jwfObj ((k0, v0) :: rest) =
                  (jwf v0 && rest.all (fun kv => !(kv.1 == k0)) && jwfObj rest) := rfl
              rw [this] at hwf
              simp only [Bool.and_eq_true, List.all_eq_true] at hwf
              refine ⟨hwf.1.1, ?_, hwf.2⟩
              intro kv2 h2
              have := hwf.1.2 kv2 h2
              simpa using this
            have hmems := (IH (N - 1) (by omega)).2.2 k0 v0 rest (ind + 2) ind f [] extra
              (by omega) hdec.1 hdec.2.1 hdec.2.2 (by omega)
              (fun kv hkv => absurd hkv (List.not_mem_nil kv))
            rw [hmems]
            simp
    · -- the elements component
      intro v vs ind j fuel acc extra pre hN hwfv hwfl hfuel hpre
      cases fuel with
      | zero => omega
      | succ f =>
        have hskip0 : skipWs (pre ++ (dumpVal ind v ++ (dumpElemsD ind vs ++
            '\n' :: (spaces j ++ ']' :: extra)))) =
            dumpVal ind v ++ (dumpElemsD ind vs ++ '\n' :: (spaces j ++ ']' :: extra)) := by
          rw [skipWs_wsPre pre hpre]
          obtain ⟨c, t, hct, hws, _, _⟩ := dumpVal_head ind v
          rw [hct, List.cons_append]
          exact skipWs_nonws rfl hws
        have hpe := peFuel_pos vs
        have hpv0 := pvFuel_pos v
        have hval : parseValue f (skipWs (pre ++ (dumpVal ind v ++ (dumpElemsD ind vs ++
            '\n' :: (spaces j ++ ']' :: extra))))) =
            some (v, dumpElemsD ind vs ++ '\n' :: (spaces j ++ ']' :: extra)) := by
          rw [hskip0]
          exact (IH (pvFuel v) (by omega)).1 v ind f _ (by omega) hwfv (by omega)
            (dumpElemsD_head_facts ind vs j extra)
        cases vs with
        | nil =>
          have h4 : skipWs (dumpElemsD ind ([] : List JVal) ++
              '\n' :: (spaces j ++ ']' :: extra)) = ']' :: extra := by
            rw [show dumpElemsD ind ([] : List JVal) = [] from rfl, List.nil_append,
              skipWs_nl_spaces]
            exact skipWs_nonws rfl (by decide)
          rw [parseElems_done f _ acc v _ extra hval h4]
        | cons w ws =>
          have hshape2 : dumpElemsD ind (w :: ws) ++ '\n' :: (spaces j ++ ']' :: extra) =
              ',' :: ('\n' :: (spaces ind ++ (dumpVal ind w ++ (dumpElemsD ind ws ++
                '\n' :: (spaces j ++ ']' :: extra))))) := by
            show (',' :: '\n' :: (spaces ind ++ dumpVal ind w ++ dumpElemsD ind ws)) ++
              '\n' :: (spaces j ++ ']' :: extra) = _
            simp [List.append_assoc]
          have h4 : skipWs (dumpElemsD ind (w :: ws) ++
              '\n' :: (spaces j ++ ']' :: extra)) =
              ',' :: ('\n' :: (spaces ind ++ (dumpVal ind w ++ (dumpElemsD ind ws ++
                '\n' :: (spaces j ++ ']' :: extra))))) := by
            rw [hshape2]
            exact skipWs_nonws rfl (by decide)
          rw [parseElems_comma f _ acc v _ _ hval h4]
          have hm2 : peFuel (w :: ws) = 1 + pvFuel w + peFuel ws := rfl
          have hwf2 : jwf w = true ∧ jwfList ws = true := by
            have : jwfList (w :: ws) = (jwf w && jwfList ws) := rfl
            rw [this] at hwfl
            simpa using hwfl
          have hrec := (IH (1 + pvFuel w + peFuel ws) (by omega)).2.1 w ws ind j f
            (acc ++ [v]) extra ('\n' :: spaces ind) (by omega) hwf2.1 hwf2.2 (by omega)
            (nlSpaces_ws ind)
          rw [show ('\n' :: spaces ind) ++ (dumpVal ind w ++ (dumpElemsD ind ws ++
            '\n' :: (spaces j ++ ']' :: extra))) =
            '\n' :: (spaces ind ++ (dumpVal ind w ++ (dumpElemsD ind ws ++
              '\n' :: (spaces j ++ ']' :: extra)))) from by rw [List.cons_append]] at hrec
          rw [hrec]
          simp
    · -- the members component
      intro k v kvs ind j fuel acc extra hN hwfv hkeys hwfo hfuel hdisj
      cases fuel with
      | zero => omega
      | succ f =>
        rw [dumpStr_append]
        have hps := parseStringGo_dump k (':' :: ' ' :: (dumpVal ind v ++
          (dumpMembersD ind kvs ++ '\n' :: (spaces j ++ '\x7d' :: extra))))
        have h2 : skipWs (':' :: ' ' :: (dumpVal ind v ++ (dumpMembersD ind kvs ++
            '\n' :: (spaces j ++ '\x7d' :: extra)))) =
            ':' :: (' ' :: (dumpVal ind v ++ (dumpMembersD ind kvs ++
              '\n' :: (spaces j ++ '\x7d' :: extra)))) := skipWs_nonws rfl (by decide)
        have hpm := pmFuel_pos kvs
        have hpv0 := pvFuel_pos v
        have hval : parseValue f (skipWs (' ' :: (dumpVal ind v ++ (dumpMembersD ind kvs ++
            '\n' :: (spaces j ++ '\x7d' :: extra))))) =
            some (v, dumpMembersD ind kvs ++ '\n' :: (spaces j ++ '\x7d' :: extra)) := by
          rw [skipWs_cons_ws (by decide)]
          have hskip1 : skipWs (dumpVal ind v ++ (dumpMembersD ind kvs ++
              '\n' :: (spaces j ++ '\x7d' :: extra))) =
              dumpVal ind v ++ (dumpMembersD ind kvs ++
                '\n' :: (spaces j ++ '\x7d' :: extra)) := by
            obtain ⟨c, t, hct, hws, _, _⟩ := dumpVal_head ind v
            rw [hct, List.cons_append]
            exact skipWs_nonws rfl hws
          rw [hskip1]
          exact (IH (pvFuel v) (by omega)).1 v ind f _ (by omega) hwfv (by omega)
            (dumpMembersD_head_facts ind kvs j extra)
        cases kvs with
        | nil =>
          have h4 : skipWs (dumpMembersD ind ([] : List (Str × JVal)) ++
              '\n' :: (spaces j ++ '\x7d' :: extra)) = '\x7d' :: extra := by
            rw [show dumpMembersD ind ([] : List (Str × JVal)) = [] from rfl,
              List.nil_append, skipWs_nl_spaces]
            exact skipWs_nonws rfl (by decide)
          rw [parseMembers_done f _ acc k _ _ v _ extra hps h2 hval h4,
            objInsert_append acc k v (fun kv hkv => (hdisj kv hkv).1)]
        | cons kv2 rest =>
          obtain ⟨k2, v2⟩ := kv2
          have hdec : jwf v2 = true ∧ (∀ kv3 ∈ rest, kv3.1 ≠ k2) ∧
              jwfObj rest = true := by
            have : jwfObj ((k2, v2) :: rest) =
                (jwf v2 && rest.all (fun kv => !(kv.1 == k2)) && jwfObj rest) := rfl
            rw [this] at hwfo
            simp only [Bool.and_eq_true, List.all_eq_true] at hwfo
            refine ⟨hwfo.1.1, ?_, hwfo.2⟩
            intro kv3 h3
            have := hwfo.1.2 kv3 h3
            simpa using this
          have hshape2 : dumpMembersD ind ((k2, v2) :: rest) ++
              '\n' :: (spaces j ++ '\x7d' :: extra) =
              ',' :: ('\n' :: (spaces ind ++ (dumpStr k2 ++ ':' :: ' ' ::
                (dumpVal ind v2 ++ (dumpMembersD ind rest ++
                  '\n' :: (spaces j ++ '\x7d' :: extra)))))) := by
            show (',' :: '\n' :: (spaces ind ++ dumpStr (k2, v2).1 ++ ':' :: ' ' ::
              dumpVal ind (k2, v2).2 ++ dumpMembersD ind rest)) ++
                '\n' :: (spaces j ++ '\x7d' :: extra) = _
            simp [List.append_assoc]
          have h4 : skipWs (dumpMembersD ind ((k2, v2) :: rest) ++
              '\n' :: (spaces j ++ '\x7d' :: extra)) =
              ',' :: ('\n' :: (spaces ind ++ (dumpStr k2 ++ ':' :: ' ' ::
                (dumpVal ind v2 ++ (dumpMembersD ind rest ++
                  '\n' :: (spaces j ++ '\x7d' :: extra)))))) := by
            rw [hshape2]
            exact skipWs_nonws rfl (by decide)
          rw [parseMembers_comma f _ acc k _ _ v _ _ hps h2 hval h4]
          have hskip5 : skipWs ('\n' :: (spaces ind ++ (dumpStr k2 ++ ':' :: ' ' ::
              (dumpVal ind v2 ++ (dumpMembersD ind rest ++
                '\n' :: (spaces j ++ '\x7d' :: extra)))))) =
              dumpStr k2 ++ ':' :: ' ' :: (dumpVal ind v2 ++ (dumpMembersD ind rest ++
                '\n' :: (spaces j ++ '\x7d' :: extra))) := by
            rw [skipWs_nl_spaces, dumpStr_append]
            exact skipWs_nonws rfl (by decide)
          rw [hskip5, objInsert_append acc k v (fun kv hkv => (hdisj kv hkv).1)]
          have hm2 : pmFuel ((k2, v2) :: rest) = 1 + pvFuel v2 + pmFuel rest := rfl
          have hdisj2 : ∀ kv ∈ acc ++ [(k, v)], kv.1 ≠ k2 ∧
              ∀ kv3 ∈ rest, kv.1 ≠ kv3.1 := by
            intro kv hkv
            rcases List.mem_append.mp hkv with h | h
            · refine ⟨((hdisj kv h).2 (k2, v2) (List.mem_cons_self _ _)), ?_⟩
              intro kv3 h3
              exact (hdisj kv h).2 kv3 (List.mem_cons_of_mem _ h3)
            · simp only [List.mem_singleton] at h
              subst h
              refine ⟨(hkeys (k2, v2) (List.mem_cons_self _ _)).symm, ?_⟩
              intro kv3 h3
              exact (hkeys kv3 (List.mem_cons_of_mem _ h3)).symm
          have hrec := (IH (1 + pvFuel v2 + pmFuel rest) (by omega)).2.2 k2 v2 rest ind j f
            (acc ++ [(k, v)]) extra (by omega) hdec.1 hdec.2.1 hdec.2.2 (by omega) hdisj2
          rw [hrec]
          simp

end Conv

namespace Conv

theorem pvFuel_length_bound : ∀ N : Nat,
    (∀ v, pvFuel v ≤ N → ∀ ind, pvFuel v ≤ (dumpVal ind v).length + 1) ∧
    (∀ vs, peFuel vs ≤ N → ∀ ind, peFuel vs ≤ (dumpElemsD ind vs).length + 1) ∧
    (∀ kvs, pmFuel kvs ≤ N → ∀ ind, pmFuel kvs ≤ (dumpMembersD ind kvs).length + 1) := by
  intro N
  induction N using Nat.strong_induction_on with
  | _ N IH =>
    refine ⟨?_, ?_, ?_⟩
    · intro v hN ind
      cases v with
      | null => simp [pvFuel]
      | bool b => cases b <;> simp [pvFuel]
      | num n => simp [pvFuel]
      | str s => simp [pvFuel]
      | arr vs =>
        cases vs with
        | nil =>
          show 1 + peFuel ([] : List JVal) ≤ (strL "[]").length + 1
          decide
        | cons w ws =>
          have hm : pvFuel (.arr (w :: ws)) = 2 + pvFuel w + peFuel ws := by
            show 1 + (1 + pvFuel w + peFuel ws) = _
            omega
          have hw := (IH (pvFuel w) (by have := peFuel_pos ws; omega)).1 w (le_refl _)
            (ind + 2)
          have hws := (IH (peFuel ws) (by have := pvFuel_pos w; omega)).2.1 ws (le_refl _)
            (ind + 2)
          have hlen : (dumpVal ind (.arr (w :: ws))).length =
              2 + (spaces (ind + 2)).length + (dumpVal (ind + 2) w).length +
                (dumpElemsD (ind + 2) ws).length + 1 + (spaces ind).length + 1 := by
            show ('[' :: '\n' :: (spaces (ind + 2) ++ dumpVal (ind + 2) w ++
              dumpElemsD (ind + 2) ws ++ '\n' :: (spaces ind ++ [']']))).length = _
            simp
            omega
          rw [hm, hlen]
          omega
      | obj kvs =>
        cases kvs with
        | nil =>
          show 1 + pmFuel ([] : List (Str × JVal)) ≤ (strL "\x7b\x7d").length + 1
          decide
        | cons kv rest =>
          obtain ⟨k0, v0⟩ := kv
          have hm : pvFuel (.obj ((k0, v0) :: rest)) = 2 + pvFuel v0 + pmFuel rest := by
            show 1 + (1 + pvFuel v0 + pmFuel rest) = _
            omega
          have hv0 := (IH (pvFuel v0) (by have := pmFuel_pos rest; omega)).1 v0 (le_refl _)
            (ind + 2)
          have hrest := (IH (pmFuel rest) (by have := pvFuel_pos v0; omega)).2.2 rest
            (le_refl _) (ind + 2)
          have hlen : (dumpVal ind (.obj ((k0, v0) :: rest))).length =
              2 + (spaces (ind + 2)).length + (dumpStr k0).length + 2 +
                (dumpVal (ind + 2) v0).length + (dumpMembersD (ind + 2) rest).length +
                  1 + (spaces ind).length + 1 := by
            show ('\x7b' :: '\n' :: (spaces (ind + 2) ++ dumpStr k0 ++ ':' :: ' ' ::
              dumpVal (ind + 2) v0 ++ dumpMembersD (ind + 2) rest ++
                '\n' :: (spaces ind ++ ['\x7d']))).length = _
            simp
            omega
          rw [hm, hlen]
          omega
    · intro vs hN ind
      cases vs with
      | nil => simp [peFuel, dumpElemsD]
      | cons w ws =>
        have hm : peFuel (w :: ws) = 1 + pvFuel w + peFuel ws := rfl
        have hw := (IH (pvFuel w) (by have := peFuel_pos ws; have := pvFuel_pos w; omega)).1
          w (le_refl _) ind
        have hws := (IH (peFuel ws) (by have := pvFuel_pos w; omega)).2.1 ws (le_refl _) ind
        have hlen : (dumpElemsD ind (w :: ws)).length =
            2 + (spaces ind).length + (dumpVal ind w).length +
              (dumpElemsD ind ws).length := by
          show (',' :: '\n' :: (spaces ind ++ dumpVal ind w ++
            dumpElemsD ind ws)).length = _
          simp
          omega
        rw [hm, hlen]
        omega
    · intro kvs hN ind
      cases kvs with
      | nil => simp [pmFuel, dumpMembersD]
      | cons kv rest =>
        obtain ⟨k0, v0⟩ := kv
        have hm : pmFuel ((k0, v0) :: rest) = 1 + pvFuel v0 + pmFuel rest := rfl
        have hv0 := (IH (pvFuel v0)
          (by have := pmFuel_pos rest; have := pvFuel_pos v0; omega)).1 v0 (le_refl _) ind
        have hrest := (IH (pmFuel rest) (by have := pvFuel_pos v0; omega)).2.2 rest
          (le_refl _) ind
        have hlen : (dumpMembersD ind ((k0, v0) :: rest)).length =
            2 + (spaces ind).length + (dumpStr k0).length + 2 +
              (dumpVal ind v0).length + (dumpMembersD ind rest).length := by
          show (',' :: '\n' :: (spaces ind ++ dumpStr (k0, v0).1 ++ ':' :: ' ' ::
            dumpVal ind (k0, v0).2 ++ dumpMembersD ind rest)).length = _
          simp
          omega
        rw [hm, hlen]
        omega

/-- Round-trip at the `json_loads`/`json_dumps` level: the rendering of a
well-formed value parses back to the value itself. -/
theorem json_loads_dumps (v : JVal) (hwf : jwf v = true) :
    json_loads (json_dumps v) = some v := by
  unfold json_loads json_dumps
  obtain ⟨c, t, hct, hws, _, _⟩ := dumpVal_head 0 v
  have hskip : skipWs (dumpVal 0 v) = dumpVal 0 v := by
    rw [hct]
    exact skipWs_nonws rfl hws
  rw [hskip]
  have hb := (pvFuel_length_bound (pvFuel v)).1 v (le_refl _) 0
  have hpr := (dump_parse_roundtrip (pvFuel v)).1 v 0
    (2 * (dumpVal 0 v).length + 2) [] (le_refl _) hwf (by omega)
    (fun c r h => absurd h (List.noConfusion))
  rw [List.append_nil] at hpr
  rw [hpr]
  rfl

end Conv

namespace Conv

theorem parseNumTail_shape (neg : Bool) (s : Str) (v : JVal) (r : Str)
    (h : parseNumTail neg s = some (v, r)) : ∃ n, v = .num n := by
  cases s with
  | nil => exact Option.noConfusion h
  | cons c t =>
    rw [parseNumTail] at h
    split at h
    · rcases hp : (if c = '0' then ((0 : Nat), t) else parseDigitsGo (digitVal c) t)
        with ⟨n1, r1⟩
      rw [hp] at h
      cases r1 with
      | nil =>
        have h2 : some (JVal.num (if neg = true then -(n1 : Int) else (n1 : Int)),
            ([] : Str)) = some (v, r) := h
        injection h2 with h12
        injection h12 with hv hr
        exact ⟨_, hv.symm⟩
      | cons d tail =>
        have h2 : (if (decide (d = '.') || decide (d = 'e') || decide (d = 'E')) = true
            then none
            else some (JVal.num (if neg = true then -(n1 : Int) else (n1 : Int)),
              d :: tail)) = some (v, r) := h
        split at h2
        · exact Option.noConfusion h2
        · injection h2 with h12
          injection h12 with hv hr
          exact ⟨_, hv.symm⟩
    · exact Option.noConfusion h

theorem jwfList_append (acc : List JVal) (v : JVal) :
    jwfList (acc ++ [v]) = (jwfList acc && jwf v) := by
  induction acc with
  | nil =>
    show jwfList [v] = (true && jwf v)
    show (jwf v && jwfList []) = _
    show (jwf v && true) = (true && jwf v)
    rw [Bool.and_true, Bool.true_and]
  | cons w ws ih =>
    show (jwf w && jwfList (ws ++ [v])) = ((jwf w && jwfList ws) && jwf v)
    rw [ih, Bool.and_assoc]

theorem all_ne_objInsert (rest : List (Str × JVal)) (k2 : Str) (k : Str) (v : JVal)
    (hall : rest.all (fun kv => !(kv.1 == k2)) = true) (hk : ¬(k == k2) = true) :
    (objInsert rest k v).all (fun kv => !(kv.1 == k2)) = true := by
  induction rest with
  | nil =>
    show ((!(k == k2)) && true) = true
    simp [hk]
  | cons kv0 rest0 ih =>
    rw [objInsert]
    simp only [List.all_cons, Bool.and_eq_true] at hall
    split
    · simp only [List.all_cons, Bool.and_eq_true]
      exact ⟨hall.1, hall.2⟩
    · simp only [List.all_cons, Bool.and_eq_true]
      exact ⟨hall.1, ih hall.2⟩

theorem jwfObj_objInsert (acc : List (Str × JVal)) (k : Str) (v : JVal)
    (hacc : jwfObj acc = true) (hv : jwf v = true) :
    jwfObj (objInsert acc k v) = true := by
  induction acc with
  | nil =>
    show (jwf v && true && true) = true
    simp [hv]
  | cons kv0 rest ih =>
    obtain ⟨k0, v0⟩ := kv0
    have hdec : jwf v0 = true ∧ rest.all (fun kv => !(kv.1 == k0)) = true ∧
        jwfObj rest = true := by
      have : jwfObj ((k0, v0) :: rest) =
          (jwf v0 && rest.all (fun kv => !(kv.1 == k0)) && jwfObj rest) := rfl
      rw [this] at hacc
      simp only [Bool.and_eq_true] at hacc
      exact ⟨hacc.1.1, hacc.1.2, hacc.2⟩
    rw [objInsert]
    split
    · next heq =>
      show (jwf v && rest.all (fun kv => !(kv.1 == k0)) && jwfObj rest) = true
      simp [hv, hdec.2.1, hdec.2.2]
    · next hne =>
      show (jwf v0 && (objInsert rest k v).all (fun kv => !(kv.1 == k0)) &&
        jwfObj (objInsert rest k v)) = true
      have hne2 : ¬(k == k0) = true := by
        simp only [beq_iff_eq]
        intro heq
        exact hne heq.symm
      simp [hdec.1, all_ne_objInsert rest k0 k v hdec.2.1 hne2, ih hdec.2.2]

end Conv

namespace Conv

theorem parse_sound : ∀ fuel : Nat,
    (∀ s v r, parseValue fuel s = some (v, r) → jwf v = true) ∧
    (∀ s acc v r, parseElems fuel s acc = some (v, r) → jwfList acc = true →
      jwf v = true) ∧
    (∀ s acc v r, parseMembers fuel s acc = some (v, r) → jwfObj acc = true →
      jwf v = true) := by
  intro fuel
  induction fuel with
  | zero =>
    refine ⟨?_, ?_, ?_⟩
    · intro s v r h
      exact Option.noConfusion (show (none : Option (JVal × Str)) = some (v, r) from h)
    · intro s acc v r h _
      exact Option.noConfusion (show (none : Option (JVal × Str)) = some (v, r) from h)
    · intro s acc v r h _
      exact Option.noConfusion (show (none : Option (JVal × Str)) = some (v, r) from h)
  | succ f ih =>
    obtain ⟨ihv, ihe, ihm⟩ := ih
    refine ⟨?_, ?_, ?_⟩
    · intro s v r h
      cases s with
      | nil =>
        exact Option.noConfusion (show (none : Option (JVal × Str)) = some (v, r) from h)
      | cons c t =>
        rw [parseValue] at h
        by_cases h1 : c = '\x7b'
        · rw [if_pos h1] at h
          cases hsw : skipWs t with
          | nil =>
            rw [hsw] at h
            exact ihm [] [] v r h rfl
          | cons d t2 =>
            rw [hsw] at h
            split at h
            · injection h with h12
              injection h12 with hv hr
              rw [← hv]
              rfl
            · exact ihm _ _ _ _ h rfl
        · rw [if_neg h1] at h
          by_cases h2 : c = '['
          · rw [if_pos h2] at h
            cases hsw : skipWs t with
            | nil =>
              rw [hsw] at h
              exact ihe [] [] v r h rfl
            | cons d t2 =>
              rw [hsw] at h
              split at h
              · injection h with h12
                injection h12 with hv hr
                rw [← hv]
                rfl
              · exact ihe _ _ _ _ h rfl
          · rw [if_neg h2] at h
            by_cases h3 : c = '"'
            · rw [if_pos h3] at h
              cases hps : parseStringGo t with
              | none =>
                rw [hps] at h
                exact Option.noConfusion
                  (show (none : Option (JVal × Str)) = some (v, r) from h)
              | some p =>
                obtain ⟨cs, r2⟩ := p
                rw [hps] at h
                have h4 : some (JVal.str cs, r2) = some (v, r) := h
                injection h4 with h12
                injection h12 with hv hr
                rw [← hv]
                rfl
            · rw [if_neg h3] at h
              by_cases h4 : c = 'n'
              · rw [if_pos h4] at h
                split at h
                · injection h with h12
                  injection h12 with hv hr
                  rw [← hv]
                  rfl
                · exact Option.noConfusion h
              · rw [if_neg h4] at h
                by_cases h5 : c = 't'
                · rw [if_pos h5] at h
                  split at h
                  · injection h with h12
                    injection h12 with hv hr
                    rw [← hv]
                    rfl
                  · exact Option.noConfusion h
                · rw [if_neg h5] at h
                  by_cases h6 : c = 'f'
                  · rw [if_pos h6] at h
                    split at h
                    · injection h with h12
                      injection h12 with hv hr
                      rw [← hv]
                      rfl
                    · exact Option.noConfusion h
                  · rw [if_neg h6] at h
                    by_cases h7 : c = '-'
                    · rw [if_pos h7] at h
                      obtain ⟨n, hn⟩ := parseNumTail_shape true t v r h
                      rw [hn]
                      rfl
                    · rw [if_neg h7] at h
                      by_cases h8 : isDigit c = true
                      · rw [if_pos h8] at h
                        obtain ⟨n, hn⟩ := parseNumTail_shape false (c :: t) v r h
                        rw [hn]
                        rfl
                      · rw [if_neg h8] at h
                        exact Option.noConfusion h
    · intro s acc v r h hacc
      rw [parseElems] at h
      cases hpv : parseValue f (skipWs s) with
      | none =>
        rw [hpv] at h
        exact Option.noConfusion (show (none : Option (JVal × Str)) = some (v, r) from h)
      | some p =>
        obtain ⟨v1, r1⟩ := p
        rw [hpv] at h
        have hjv1 : jwf v1 = true := ihv _ _ _ hpv
        have hacc2 : jwfList (acc ++ [v1]) = true := by
          rw [jwfList_append, hacc, hjv1]
          rfl
        have h2 : (match skipWs r1 with
            | ',' :: r2 => parseElems f r2 (acc ++ [v1])
            | ']' :: r2 => some (JVal.arr (acc ++ [v1]), r2)
            | _ => none) = some (v, r) := h
        cases hsw : skipWs r1 with
        | nil =>
          rw [hsw] at h2
          exact Option.noConfusion (show (none : Option (JVal × Str)) = some (v, r) from h2)
        | cons d t2 =>
          rw [hsw] at h2
          split at h2
          · exact ihe _ _ _ _ h2 hacc2
          · injection h2 with h12
            injection h12 with hv hr
            rw [← hv]
            exact hacc2
          · exact Option.noConfusion h2
    · intro s acc v r h hacc
      cases s with
      | nil =>
        exact Option.noConfusion (show (none : Option (JVal × Str)) = some (v, r) from h)
      | cons c t =>
        unfold parseMembers at h
        split at h
        · next r0 heq =>
          injection heq with hc ht
          subst ht
          cases hps : parseStringGo t with
          | none =>
            rw [hps] at h
            exact Option.noConfusion
              (show (none : Option (JVal × Str)) = some (v, r) from h)
          | some p =>
            obtain ⟨key, r2⟩ := p
            rw [hps] at h
            have h2 : (match skipWs r2 with
                | ':' :: r3 =>
                  (match parseValue f (skipWs r3) with
                   | none => none
                   | some (v1, r4) =>
                     match skipWs r4 with
                     | ',' :: r5 => parseMembers f (skipWs r5) (objInsert acc key v1)
                     | '\x7d' :: r5 => some (JVal.obj (objInsert acc key v1), r5)
                     | _ => none)
                | _ => none) = some (v, r) := h
            cases hsw : skipWs r2 with
            | nil =>
              rw [hsw] at h2
              exact Option.noConfusion
                (show (none : Option (JVal × Str)) = some (v, r) from h2)
            | cons d t2 =>
              rw [hsw] at h2
              split at h2
              · next r3 heq3 =>
                cases hpv : parseValue f (skipWs r3) with
                | none =>
                  rw [hpv] at h2
                  exact Option.noConfusion
                    (show (none : Option (JVal × Str)) = some (v, r) from h2)
                | some p2 =>
                  obtain ⟨v1, r4⟩ := p2
                  rw [hpv] at h2
                  have hjv1 : jwf v1 = true := ihv _ _ _ hpv
                  have hobj : jwfObj (objInsert acc key v1) = true :=
                    jwfObj_objInsert acc key v1 hacc hjv1
                  have h3 : (match skipWs r4 with
                      | ',' :: r5 => parseMembers f (skipWs r5) (objInsert acc key v1)
                      | '\x7d' :: r5 => some (JVal.obj (objInsert acc key v1), r5)
                      | _ => none) = some (v, r) := h2
                  cases hsw4 : skipWs r4 with
                  | nil =>
                    rw [hsw4] at h3
                    exact Option.noConfusion
                      (show (none : Option (JVal × Str)) = some (v, r) from h3)
                  | cons e t3 =>
                    rw [hsw4] at h3
                    split at h3
                    · exact ihm _ _ _ _ h3 hobj
                    · injection h3 with h12
                      injection h12 with hv hr
                      rw [← hv]
                      exact hobj
                    · exact Option.noConfusion h3
              · exact Option.noConfusion h2
        · next hne =>
          exact Option.noConfusion h

end Conv

namespace Conv

theorem json_loads_sound (x : Str) (v : JVal) (h : json_loads x = some v) :
    jwf v = true := by
  unfold json_loads at h
  cases hpv : parseValue (2 * x.length + 2) (skipWs x) with
  | none =>
    rw [hpv] at h
    exact Option.noConfusion h
  | some p =>
    obtain ⟨v1, rest⟩ := p
    rw [hpv] at h
    have h2 : (if (skipWs rest).isEmpty = true then some v1 else none) = some v := h
    split at h2
    · injection h2 with hv
      rw [← hv]
      exact (parse_sound _).1 _ _ _ hpv
    · exact Option.noConfusion h2

theorem parseValue_head_nonspace (fuel : Nat) (s : Str) (v : JVal) (r : Str)
    (h : parseValue fuel s = some (v, r)) :
    ∃ c t, s = c :: t ∧ isSpaceChar c = false := by
  cases fuel with
  | zero => exact Option.noConfusion h
  | succ f =>
    cases s with
    | nil => exact Option.noConfusion h
    | cons c t =>
      refine ⟨c, t, rfl, ?_⟩
      rw [parseValue] at h
      by_cases h1 : c = '\x7b'
      · subst h1
        decide
      · rw [if_neg h1] at h
        by_cases h2 : c = '['
        · subst h2
          decide
        · rw [if_neg h2] at h
          by_cases h3 : c = '"'
          · subst h3
            decide
          · rw [if_neg h3] at h
            by_cases h4 : c = 'n'
            · subst h4
              decide
            · rw [if_neg h4] at h
              by_cases h5 : c = 't'
              · subst h5
                decide
              · rw [if_neg h5] at h
                by_cases h6 : c = 'f'
                · subst h6
                  decide
                · rw [if_neg h6] at h
                  by_cases h7 : c = '-'
                  · subst h7
                    decide
                  · rw [if_neg h7] at h
                    by_cases h8 : isDigit c = true
                    · have := isDigit_toNat_range c h8
                      exact isSpaceChar_false_of_toNat c (by omega)
                    · rw [if_neg h8] at h
                      exact Option.noConfusion h

theorem json_loads_has_nonspace (x : Str) (v : JVal) (h : json_loads x = some v) :
    ∃ c ∈ x, isSpaceChar c = false := by
  unfold json_loads at h
  cases hpv : parseValue (2 * x.length + 2) (skipWs x) with
  | none =>
    rw [hpv] at h
    exact Option.noConfusion h
  | some p =>
    obtain ⟨v1, rest⟩ := p
    obtain ⟨c, t, hct, hcs⟩ := parseValue_head_nonspace _ _ _ _ hpv
    refine ⟨c, ?_, hcs⟩
    have hmem : c ∈ skipWs x := by
      rw [hct]
      exact List.mem_cons_self _ _
    exact List.dropWhile_subset _ hmem

theorem splitlinesGo_covers (acc s : Str) :
    ∀ c, (c ∈ acc ∨ c ∈ s) → c ≠ '\n' → c ≠ '\r' →
      ∃ l ∈ splitlinesGo acc s, c ∈ l := by
  induction acc, s using splitlinesGo.induct with
  | case1 acc =>
    intro c hc hn hr
    rw [splitlinesGo_nil]
    refine ⟨acc.reverse, List.mem_singleton_self _, ?_⟩
    rcases hc with h | h
    · exact List.mem_reverse.mpr h
    · simp at h
  | case2 acc rest ih =>
    intro c hc hn hr
    rw [splitlinesGo_crnl]
    rcases hc with h | h
    · exact ⟨acc.reverse, List.mem_cons_self _ _, List.mem_reverse.mpr h⟩
    · have hcr : c ∈ rest := by
        rcases List.mem_cons.mp h with rfl | h2
        · exact absurd rfl hr
        · rcases List.mem_cons.mp h2 with rfl | h3
          · exact absurd rfl hn
          · exact h3
      have hne : ¬(rest.isEmpty = true) := by
        intro he
        rw [List.isEmpty_iff] at he
        rw [he] at hcr
        simp at hcr
      rw [if_neg hne]
      obtain ⟨l, hl, hcl⟩ := ih c (Or.inr hcr) hn hr
      exact ⟨l, List.mem_cons_of_mem _ hl, hcl⟩
  | case3 acc rest ih =>
    intro c hc hn hr
    rw [splitlinesGo_nl]
    rcases hc with h | h
    · exact ⟨acc.reverse, List.mem_cons_self _ _, List.mem_reverse.mpr h⟩
    · have hcr : c ∈ rest := by
        rcases List.mem_cons.mp h with rfl | h2
        · exact absurd rfl hn
        · exact h2
      have hne : ¬(rest.isEmpty = true) := by
        intro he
        rw [List.isEmpty_iff] at he
        rw [he] at hcr
        simp at hcr
      rw [if_neg hne]
      obtain ⟨l, hl, hcl⟩ := ih c (Or.inr hcr) hn hr
      exact ⟨l, List.mem_cons_of_mem _ hl, hcl⟩
  | case4 acc rest hno ih =>
    intro c hc hn hr
    rw [splitlinesGo_cr acc rest (fun r2 hr2 => hno r2 hr2)]
    rcases hc with h | h
    · exact ⟨acc.reverse, List.mem_cons_self _ _, List.mem_reverse.mpr h⟩
    · have hcr : c ∈ rest := by
        rcases List.mem_cons.mp h with rfl | h2
        · exact absurd rfl hr
        · exact h2
      have hne : ¬(rest.isEmpty = true) := by
        intro he
        rw [List.isEmpty_iff] at he
        rw [he] at hcr
        simp at hcr
      rw [if_neg hne]
      obtain ⟨l, hl, hcl⟩ := ih c (Or.inr hcr) hn hr
      exact ⟨l, List.mem_cons_of_mem _ hl, hcl⟩
  | case5 acc a rest h1 h2 h3 ih =>
    intro c hc hn hr
    have ha1 : a ≠ '\n' := fun he => h2 he
    have ha2 : a ≠ '\r' := fun he => h3 he
    rw [splitlinesGo_other ha1 ha2]
    refine ih c ?_ hn hr
    rcases hc with h | h
    · exact Or.inl (List.mem_cons_of_mem _ h)
    · rcases List.mem_cons.mp h with rfl | h2
      · exact Or.inl (List.mem_cons_self _ _)
      · exact Or.inr h2

theorem splitlines_covers (s : Str) (c : Char) (hc : c ∈ s) (hn : c ≠ '\n')
    (hr : c ≠ '\r') : ∃ l ∈ splitlines s, c ∈ l := by
  unfold splitlines
  rw [if_neg (by
    intro he
    rw [List.isEmpty_iff] at he
    rw [he] at hc
    simp at hc)]
  exact splitlinesGo_covers [] s c (Or.inr hc) hn hr

theorem mem_dropWhile_of_neg {α : Type} {p : α → Bool} {l : List α} {a : α}
    (ha : a ∈ l) (hpa : p a = false) : a ∈ l.dropWhile p := by
  induction l with
  | nil => simp at ha
  | cons b t ih =>
    rw [List.dropWhile_cons]
    split
    · next hb =>
      rcases List.mem_cons.mp ha with rfl | h2
      · rw [hpa] at hb
        simp at hb
      · exact ih h2
    · exact ha

theorem mem_stripBlankEnds {l : Str} {ls : List Str} (hl : l ∈ ls)
    (hb : isBlank l = false) : l ∈ stripBlankEnds ls := by
  unfold stripBlankEnds
  rw [List.mem_reverse]
  apply mem_dropWhile_of_neg _ hb
  rw [List.mem_reverse]
  exact mem_dropWhile_of_neg hl hb

theorem json_loads_guards (x : Str) (v : JVal) (h : json_loads x = some v) :
    (stripBlankEnds (splitlines x)).isEmpty = false ∧
    ((stripBlankEnds (splitlines x)).filter (fun l => !isBlank l)).isEmpty = false := by
  obtain ⟨c, hcx, hcs⟩ := json_loads_has_nonspace x v h
  have hn : c ≠ '\n' := by
    intro he
    subst he
    exact absurd hcs (by decide)
  have hr : c ≠ '\r' := by
    intro he
    subst he
    exact absurd hcs (by decide)
  obtain ⟨l, hls, hcl⟩ := splitlines_covers x c hcx hn hr
  have hbl : isBlank l = false := isBlank_false_of_mem hcl hcs
  have hmem := mem_stripBlankEnds hls hbl
  constructor
  · rw [Bool.eq_false_iff]
    intro he
    exact List.ne_nil_of_mem hmem (List.isEmpty_iff.mp he)
  · have hmf : l ∈ (stripBlankEnds (splitlines x)).filter (fun l => !isBlank l) :=
      List.mem_filter.mpr ⟨hmem, by simp [hbl]⟩
    rw [Bool.eq_false_iff]
    intro he
    exact List.ne_nil_of_mem hmf (List.isEmpty_iff.mp he)

end Conv

namespace Conv

/-- The second component of `process_code_block` is always the language
passed in (the python branch returns the literal `"python"` only when the
language already equals it). -/
theorem process_cb_snd (y L : Str) (u : Option Str) :
    (process_code_block y L u).2 = L := by
  unfold process_code_block
  by_cases h5 : y.length < 5
  · simp [h5]
  · rw [if_neg h5]
    by_cases hl : (stripBlankEnds (splitlines y)).isEmpty
    · simp [hl]
    · simp only [hl, if_false]
      by_cases hf : ((stripBlankEnds (splitlines y)).filter (fun l => !isBlank l)).isEmpty
      · simp [hf]
      · simp only [hf, if_false]
        by_cases hpy : L = strL "python"
        · simp [hpy]
        · rw [if_neg hpy]
          by_cases hjs : (decide (L = strL "javascript") || decide (L = strL "typescript")
              || decide (L = strL "jsx") || decide (L = strL "tsx")) = true
          · rw [if_pos hjs]
            simp
          · rw [if_neg hjs]
            by_cases hjy : (decide (L = strL "json") || decide (L = strL "yaml")) = true
            · rw [if_pos hjy]
              by_cases hj : L = strL "json"
              · rw [if_pos hj]
                cases hjl : json_loads y with
                | some p => simp
                | none => simp
              · rw [if_neg hj]
                simp
            · rw [if_neg hjy]
              simp

theorem process_cb_json_success (y : Str) (u : Option Str) (v : JVal)
    (hv : json_loads y = some v) (hlen : ¬y.length < 5)
    (hl : (stripBlankEnds (splitlines y)).isEmpty = false)
    (hf : ((stripBlankEnds (splitlines y)).filter (fun l => !isBlank l)).isEmpty = false) :
    (process_code_block y (strL "json") u).1 = json_dumps v := by
  unfold process_code_block
  rw [if_neg hlen, if_neg (by simp [hl]), if_neg (by simp [hf]),
    if_neg (by decide : ¬(strL "json" = strL "python")),
    if_neg (by decide : ¬((decide (strL "json" = strL "javascript") ||
      decide (strL "json" = strL "typescript") || decide (strL "json" = strL "jsx") ||
      decide (strL "json" = strL "tsx")) = true)),
    if_pos (by decide : (decide (strL "json" = strL "json") ||
      decide (strL "json" = strL "yaml")) = true),
    if_pos rfl, hv]

theorem process_cb_json_fail (y : Str) (u : Option Str)
    (hfail : json_loads y = none) :
    (process_code_block y (strL "json") u).1 =
      if y.length < 5 then y
      else if (stripBlankEnds (splitlines y)).isEmpty then y
      else if ((stripBlankEnds (splitlines y)).filter (fun l => !isBlank l)).isEmpty then y
      else joinNL ((stripBlankEnds (splitlines y)).map (emitLine id
        (minIndentOf ((stripBlankEnds (splitlines y)).filter (fun l => !isBlank l))))) := by
  unfold process_code_block
  by_cases hy5 : y.length < 5
  · simp [hy5]
  · rw [if_neg hy5, if_neg hy5]
    by_cases hl : (stripBlankEnds (splitlines y)).isEmpty
    · simp [hl]
    · simp only [hl, if_false]
      by_cases hf : ((stripBlankEnds (splitlines y)).filter (fun l => !isBlank l)).isEmpty
      · simp [hf]
      · simp only [hf, if_false]
        rw [if_neg (by decide : ¬(strL "json" = strL "python")),
          if_neg (by decide : ¬((decide (strL "json" = strL "javascript") ||
            decide (strL "json" = strL "typescript") ||
            decide (strL "json" = strL "jsx") ||
            decide (strL "json" = strL "tsx")) = true))]
        simp [hfail]

/-- C4 amended: on the json path, a parse that succeeds (on an input long
enough to clear the raw-length guard) is re-serialized with 2-space
indentation and round-trips; a parse that fails falls back to exactly the
generic indentation-only result. -/
theorem C4_json_roundtrip_amended (x : Str) (u : Option Str) :
    (∀ v, json_loads x = some v → ¬x.length < 5 →
      process_code_block x (strL "json") u = (json_dumps v, strL "json") ∧
      json_loads (json_dumps v) = some v) ∧
    (json_loads x = none →
      (process_code_block x (strL "json") u).1 =
        (process_code_block x (strL "text") u).1 ∧
      (process_code_block x (strL "json") u).2 = strL "json") := by
  constructor
  · intro v hv hlen
    have hg := json_loads_guards x v hv
    refine ⟨?_, json_loads_dumps v (json_loads_sound x v hv)⟩
    have h1 := process_cb_json_success x u v hv hlen hg.1 hg.2
    have h2 := process_cb_snd x (strL "json") u
    exact Prod.ext h1 h2
  · intro hnone
    refine ⟨?_, process_cb_snd x (strL "json") u⟩
    rw [process_cb_json_fail x u hnone,
      process_cb_generic x (strL "text") u (by decide) (by decide) (by decide)
        (by decide) (by decide) (by decide)]

theorem C4_witness :
    process_code_block (strL "\x7b\"a\": [1, 2]\x7d") (strL "json") none =
      (json_dumps (JVal.obj [(strL "a", JVal.arr [JVal.num 1, JVal.num 2])]),
        strL "json") ∧
    json_loads (json_dumps (JVal.obj [(strL "a", JVal.arr [JVal.num 1, JVal.num 2])])) =
      some (JVal.obj [(strL "a", JVal.arr [JVal.num 1, JVal.num 2])]) :=
  (C4_json_roundtrip_amended (strL "\x7b\"a\": [1, 2]\x7d") none).1
    (JVal.obj [(strL "a", JVal.arr [JVal.num 1, JVal.num 2])]) rfl (by decide)

end Conv
